import Mathlib

/-!
# Ta-te-ti (tic-tac-toe) move engine

A shallow embedding of the two engines of the repository:

* `MinimaxLogic`       : `src/test/MinimaxLogic.js` (plain alpha-beta search),
* `MinimaxOptimizado`  : `src/minimaxOptimizado.js` (alpha-beta search with a
  transposition table, move ordering, an opening book and one-ply scans).

The board is a JavaScript array of numbers, embedded as a `List Nat`; reading a
cell is `board[i]?`, so that an index outside the array reads as `none`
(JavaScript `undefined`).  In-place mutation of the board and of the
process-wide transposition table is embedded by explicit state passing: each
function returns the board and the table as they are when it returns.
The scores are JavaScript numbers; the ones that occur are the integers and
the two infinities, embedded as `Num`.
-/

namespace TaTeTi

/-- A board: the JavaScript array of cells. -/
abbrev Board := List Nat

/-- The marker of the engine (the maximizer). -/
def BOT : Nat := 1

/-- The marker of the opponent (the minimizer). -/
def OPPONENT : Nat := 2

/-- A valid board has exactly 9 cells, each 0, 1 or 2. -/
def ValidBoard (board : Board) : Prop :=
  board.length = 9 ∧ ∀ c ∈ board, c ≤ 2

instance (board : Board) : Decidable (ValidBoard board) :=
  inferInstanceAs (Decidable (board.length = 9 ∧ ∀ c ∈ board, c ≤ 2))

/-- The numbers the search computes with: integers, `-Infinity` and `Infinity`. -/
inductive Num where
  | negInf : Num
  | fin (n : Int) : Num
  | posInf : Num
  deriving DecidableEq, Repr

namespace Num

/-- The order `a <= b` of JavaScript numbers. -/
def le : Num → Num → Bool
  | negInf, _ => true
  | fin _, negInf => false
  | fin a, fin b => decide (a ≤ b)
  | fin _, posInf => true
  | posInf, posInf => true
  | posInf, _ => false

/-- The strict order `a < b` of JavaScript numbers. -/
def lt (a b : Num) : Bool := !(le b a)

/-- The function `Math.max` on two numbers. -/
def max (a b : Num) : Num := if le a b then b else a

/-- The function `Math.min` on two numbers. -/
def min (a b : Num) : Num := if le a b then a else b

/-- A number that is not an infinity. -/
def isFin : Num → Bool
  | fin _ => true
  | _ => false

end Num

/-- A score in the range of the search: 0, or between 92 and 100 in absolute
value. -/
def Num.inRange : Num → Bool
  | Num.fin n =>
    decide (n = 0) || (decide (92 ≤ n) && decide (n ≤ 100))
      || (decide (-100 ≤ n) && decide (n ≤ -92))
  | _ => false

/-- The score `v` returned for the window `(α, β)` bounds the value `w`: it is
at least `w` when it is at most `α`, at most `w` when it is at least `β`, and
it is `w` when it lies strictly between them. -/
def Bounds (α β v w : Num) : Prop :=
  (Num.le v α = true → Num.le w v = true) ∧ (Num.le β v = true → Num.le v w = true) ∧
  (Num.lt α v = true → Num.lt v β = true → v = w)

/-- The eight winning lines, in the order in which `evaluate` scans them. -/
def lines : List (Nat × Nat × Nat) :=
  [(0, 1, 2), (3, 4, 5), (6, 7, 8),
   (0, 3, 6), (1, 4, 7), (2, 5, 8),
   (0, 4, 8), (2, 4, 6)]

/-- The test `board[a] !== 0 && board[a] === board[b] && board[b] === board[c]`. -/
def lineDone (board : Board) (l : Nat × Nat × Nat) : Bool :=
  decide (board[l.1]? ≠ some 0) && decide (board[l.1]? = board[l.2.1]?)
    && decide (board[l.2.1]? = board[l.2.2]?)

/-- The three cells of the line `l` all hold the marker `p`. -/
def lineOf (board : Board) (p : Nat) (l : Nat × Nat × Nat) : Bool :=
  decide (board[l.1]? = some p) && decide (board[l.2.1]? = some p)
    && decide (board[l.2.2]? = some p)

/-- One of the eight lines holds three markers `p`. -/
def hasLine (board : Board) (p : Nat) : Bool := lines.any (lineOf board p)

/-- The cell `i` is empty and a marker `p` put there completes a line of three
markers `p`. -/
def completes (board : Board) (p i : Nat) : Bool :=
  decide (board[i]? = some 0) && hasLine (board.set i p) p

/-- The board contains no completed line, of either player. -/
def NoLine (board : Board) : Prop :=
  hasLine board BOT = false ∧ hasLine board OPPONENT = false

instance (board : Board) : Decidable (NoLine board) :=
  inferInstanceAs (Decidable (hasLine board BOT = false ∧ hasLine board OPPONENT = false))

/-- The function `isMovesLeft`, the same in both files: `board.includes(0)`. -/
def isMovesLeft (board : Board) : Bool := board.contains 0

/-! ## `src/test/MinimaxLogic.js` -/

namespace MinimaxLogic

/-- The loop of `evaluate` over the remaining lines. -/
def evaluateLoop (board : Board) : List (Nat × Nat × Nat) → Int
  | [] => 0
  | l :: rest =>
    if lineDone board l then
      (if board[l.1]? = some BOT then 10 else -10)
    else evaluateLoop board rest

/-- The function `evaluate(board)`: +10, -10 or 0. -/
def evaluate (board : Board) : Int := evaluateLoop board lines

/-- The result of `minimax`: the score and the board as left by the call. -/
abbrev Result := Num × Board

/-- The loop `for (let i = 0; i < 9; i++)` of the maximizer, from index `i`
for `n` more rounds; `call` is the recursive call of `minimax`. -/
def maxLoop (call : Board → Int → Bool → Num → Num → Option Result) (depth : Int) :
    Nat → Nat → Board → Num → Num → Num → Option Result
  | 0, _, board, maxEval, _, _ => some (maxEval, board)
  | n + 1, i, board, maxEval, alpha, beta =>
    if board[i]? = some 0 then
      match call (board.set i BOT) (depth + 1) false alpha beta with
      | none => none
      | some (evalScore, board1) =>
        let board2 := board1.set i 0
        let maxEval := Num.max maxEval evalScore
        let alpha := Num.max alpha evalScore
        if Num.le beta alpha then some (maxEval, board2)
        else maxLoop call depth n (i + 1) board2 maxEval alpha beta
    else maxLoop call depth n (i + 1) board maxEval alpha beta

/-- The loop `for (let i = 0; i < 9; i++)` of the minimizer. -/
def minLoop (call : Board → Int → Bool → Num → Num → Option Result) (depth : Int) :
    Nat → Nat → Board → Num → Num → Num → Option Result
  | 0, _, board, minEval, _, _ => some (minEval, board)
  | n + 1, i, board, minEval, alpha, beta =>
    if board[i]? = some 0 then
      match call (board.set i OPPONENT) (depth + 1) true alpha beta with
      | none => none
      | some (evalScore, board1) =>
        let board2 := board1.set i 0
        let minEval := Num.min minEval evalScore
        let beta := Num.min beta evalScore
        if Num.le beta alpha then some (minEval, board2)
        else minLoop call depth n (i + 1) board2 minEval alpha beta
    else minLoop call depth n (i + 1) board minEval alpha beta

/-- The function `minimax(board, depth, isMax, alpha, beta)` with a bound `fuel`
on the nesting of the recursive calls; `none` when the bound is reached. -/
def minimaxFuel : Nat → Board → Int → Bool → Num → Num → Option Result
  | 0, _, _, _, _, _ => none
  | fuel + 1, board, depth, isMax, alpha, beta =>
    let score := evaluate board
    if score = 10 ∨ score = -10 then some (Num.fin score, board)
    else if !isMovesLeft board then some (Num.fin 0, board)
    else if isMax then
      maxLoop (minimaxFuel fuel) depth 9 0 board Num.negInf alpha beta
    else
      minLoop (minimaxFuel fuel) depth 9 0 board Num.posInf alpha beta

/-- The number of cells among the indices 0..8 that hold 0. -/
def emptyCount (board : Board) : Nat :=
  ((List.range 9).filter (fun i => board[i]? = some 0)).length

/-- The function `minimax`: every recursive call fills one empty cell, so
`emptyCount board + 1` nested calls suffice. -/
def minimax (board : Board) (depth : Int) (isMax : Bool) (alpha beta : Num) :
    Option Result :=
  minimaxFuel (emptyCount board + 1) board depth isMax alpha beta

/-- The loop of `findBestMove` over the cells, from index `i` for `n` more
rounds. -/
def bestLoop : Nat → Nat → Board → Num → Int → Option (Int × Board)
  | 0, _, board, _, bestMove => some (bestMove, board)
  | n + 1, i, board, bestVal, bestMove =>
    if board[i]? = some 0 then
      match minimax (board.set i BOT) 0 false Num.negInf Num.posInf with
      | none => none
      | some (moveVal, board1) =>
        let board2 := board1.set i 0
        if Num.lt bestVal moveVal then bestLoop n (i + 1) board2 moveVal i
        else bestLoop n (i + 1) board2 bestVal bestMove
    else bestLoop n (i + 1) board bestVal bestMove

/-- The function `findBestMove(board)`: the move (or -1) and the board as left
by the call. -/
def findBestMove (board : Board) : Option (Int × Board) :=
  bestLoop 9 0 board Num.negInf (-1)

/-- The minimax value `W(board, isMax)` of the search without pruning, as the
claim on alpha-beta states it: `evaluate(board)` if that is 10 or -10, 0 if the
board is full, and otherwise the maximum (engine to move) or the minimum
(opponent to move) of the values of the boards obtained by placing the mover's
marker on an empty cell. Each level fills one cell, so a bound `fuel` above the
number of empty cells is never reached. -/
def plainValue : Nat → Board → Bool → Int
  | 0, board, _ => evaluate board
  | fuel + 1, board, isMax =>
    if evaluate board = 10 ∨ evaluate board = -10 then evaluate board
    else if isMovesLeft board = false then 0
    else
      match ((List.range board.length).filter (fun c => board[c]? = some 0)).map
          (fun c => plainValue fuel (board.set c (if isMax then BOT else OPPONENT))
            (!isMax)) with
      | [] => 0
      | v :: vs => if isMax then vs.foldl max v else vs.foldl min v

end MinimaxLogic

/-! ## `src/minimaxOptimizado.js` -/

namespace MinimaxOptimizado

/-- The transposition table: a JavaScript `Map` from keys to scores, as the
list of its entries in insertion order. -/
abbrev Table := List (String × Num)

/-- The methods `Map.has` and `Map.get`: the score stored under a key, if any. -/
def Table.get : Table → String → Option Num
  | [], _ => none
  | (k, v) :: rest, key => if k = key then some v else Table.get rest key

/-- The method `Map.set`: overwrite the entry of the key, or add one at the end. -/
def Table.set : Table → String → Num → Table
  | [], key, score => [(key, score)]
  | (k, v) :: rest, key, score =>
    if k = key then (k, score) :: rest else (k, v) :: Table.set rest key score

/-- The property `Map.size`. -/
def Table.size (table : Table) : Nat := table.length

/-- The text of `board.join('')`: the decimal forms of the cells, one after
the other. -/
def joinBoard : Board → String
  | [] => ""
  | c :: rest => toString c ++ joinBoard rest

/-- The function `getBoardKey(board, isMax)`. -/
def getBoardKey (board : Board) (isMax : Bool) : String :=
  joinBoard board ++ (if isMax then "M" else "m")

/-- The constant `OPENING_BOOK`. -/
def OPENING_BOOK : List (String × List Nat) :=
  [("000000000", [4, 0, 2, 6, 8]),
   ("000020000", [0, 2, 6, 8]),
   ("200000000", [4]),
   ("020000000", [4]),
   ("000000002", [4]),
   ("000000020", [4])]

/-- The character that `join` writes for a cell 0, 1 or 2. -/
def digit (c : Nat) : Char := Char.ofNat (48 + c)

/-- The boards whose text is a key of `OPENING_BOOK`, in the order of the book. -/
def bookBoards : List Board :=
  [[0, 0, 0, 0, 0, 0, 0, 0, 0],
   [0, 0, 0, 0, 2, 0, 0, 0, 0],
   [2, 0, 0, 0, 0, 0, 0, 0, 0],
   [0, 2, 0, 0, 0, 0, 0, 0, 0],
   [0, 0, 0, 0, 0, 0, 0, 0, 2],
   [0, 0, 0, 0, 0, 0, 0, 2, 0]]

/-- The loop of `evaluate` over the remaining lines. -/
def evaluateLoop (board : Board) (depth : Int) : List (Nat × Nat × Nat) → Int
  | [] => 0
  | l :: rest =>
    if lineDone board l then
      (if board[l.1]? = some BOT then 100 - depth else depth - 100)
    else evaluateLoop board depth rest

/-- The function `evaluate(board, depth)`. -/
def evaluate (board : Board) (depth : Int) : Int := evaluateLoop board depth lines

/-- The constant `priorities` of `orderMoves`. -/
def priorities : List Nat := [4, 0, 2, 6, 8, 1, 3, 5, 7]

/-- The function `orderMoves(board)`. -/
def orderMoves (board : Board) : List Nat :=
  priorities.filter (fun i => board[i]? = some 0)

/-- The result of `minimax`: the score, and the board and the table as left
by the call. -/
abbrev Result := Num × Board × Table

/-- The type of `minimax` once the bound on the nesting is fixed. -/
abbrev Search := Table → Board → Int → Bool → Num → Num → Option Result

/-- The loop `for (let i of orderedMoves)` of the maximizer over the remaining
moves; `call` is the recursive call of `minimax`. -/
def maxLoop (call : Search) (depth : Int) :
    List Nat → Table → Board → Num → Num → Num → Option Result
  | [], table, board, maxEval, _, _ => some (maxEval, board, table)
  | i :: rest, table, board, maxEval, alpha, beta =>
    match call table (board.set i BOT) (depth + 1) false alpha beta with
    | none => none
    | some (evalScore, board1, table1) =>
      if Num.le beta (Num.max alpha evalScore) then
        some (Num.max maxEval evalScore, board1.set i 0, table1)
      else
        maxLoop call depth rest table1 (board1.set i 0) (Num.max maxEval evalScore)
          (Num.max alpha evalScore) beta

/-- The loop `for (let i of orderedMoves)` of the minimizer. -/
def minLoop (call : Search) (depth : Int) :
    List Nat → Table → Board → Num → Num → Num → Option Result
  | [], table, board, minEval, _, _ => some (minEval, board, table)
  | i :: rest, table, board, minEval, alpha, beta =>
    match call table (board.set i OPPONENT) (depth + 1) true alpha beta with
    | none => none
    | some (evalScore, board1, table1) =>
      if Num.le (Num.min beta evalScore) alpha then
        some (Num.min minEval evalScore, board1.set i 0, table1)
      else
        minLoop call depth rest table1 (board1.set i 0) (Num.min minEval evalScore)
          alpha (Num.min beta evalScore)

/-- The function `minimax(board, depth, isMax, alpha, beta)` on the table
`table`, with a bound `fuel` on the nesting of the recursive calls; `none`
when the bound is reached. -/
def minimaxFuel : Nat → Search
  | 0, _, _, _, _, _, _ => none
  | fuel + 1, table, board, depth, isMax, alpha, beta =>
    match table.get (getBoardKey board isMax) with
    | some stored => some (stored, board, table)
    | none =>
      if evaluate board depth ≠ 0 ∨ isMovesLeft board = false then
        some (Num.fin (evaluate board depth), board,
          table.set (getBoardKey board isMax) (Num.fin (evaluate board depth)))
      else if isMax then
        match maxLoop (minimaxFuel fuel) depth (orderMoves board) table board
            Num.negInf alpha beta with
        | none => none
        | some (maxEval, board1, table1) =>
          some (maxEval, board1, table1.set (getBoardKey board isMax) maxEval)
      else
        match minLoop (minimaxFuel fuel) depth (orderMoves board) table board
            Num.posInf alpha beta with
        | none => none
        | some (minEval, board1, table1) =>
          some (minEval, board1, table1.set (getBoardKey board isMax) minEval)

/-- The function `minimax`: every recursive call fills one of the cells listed
by `orderMoves`, so one more nested call than there are such cells suffices. -/
def minimax (table : Table) (board : Board) (depth : Int) (isMax : Bool)
    (alpha beta : Num) : Option Result :=
  minimaxFuel ((orderMoves board).length + 1) table board depth isMax alpha beta

/-- The loop of `getOpeningMove` over the candidates of a book entry. -/
def firstEmpty (board : Board) : List Nat → Option Nat
  | [] => none
  | move :: rest => if board[move]? = some 0 then some move else firstEmpty board rest

/-- The function `getOpeningMove(board)`; `none` is `null`. -/
def getOpeningMove (board : Board) : Option Nat :=
  match OPENING_BOOK.lookup (joinBoard board) with
  | some candidates => firstEmpty board candidates
  | none => none

/-- The first loop of `findBestMove`, from index `i` for `n` more rounds: the
first empty cell where a BOT marker gives a positive `evaluate`, and the board
as left by the loop. -/
def winScan : Nat → Nat → Board → Option Nat × Board
  | 0, _, board => (none, board)
  | n + 1, i, board =>
    if board[i]? = some 0 then
      if 0 < evaluate (board.set i BOT) 0 then (some i, (board.set i BOT).set i 0)
      else winScan n (i + 1) ((board.set i BOT).set i 0)
    else winScan n (i + 1) board

/-- The second loop of `findBestMove`: the first empty cell where an OPPONENT
marker gives a negative `evaluate`, and the board as left by the loop. -/
def blockScan : Nat → Nat → Board → Option Nat × Board
  | 0, _, board => (none, board)
  | n + 1, i, board =>
    if board[i]? = some 0 then
      if evaluate (board.set i OPPONENT) 0 < 0 then (some i, (board.set i OPPONENT).set i 0)
      else blockScan n (i + 1) ((board.set i OPPONENT).set i 0)
    else blockScan n (i + 1) board

/-- The result of `findBestMove`: the move (or -1), and the board and the table
as left by the call. -/
abbrev MoveResult := Int × Board × Table

/-- The last loop of `findBestMove`, over the remaining ordered moves. -/
def searchLoop : List Nat → Table → Board → Num → Int → Option MoveResult
  | [], table, board, _, bestMove => some (bestMove, board, table)
  | i :: rest, table, board, bestVal, bestMove =>
    match minimax table (board.set i BOT) 0 false Num.negInf Num.posInf with
    | none => none
    | some (moveVal, board1, table1) =>
      if Num.le (Num.fin 90) moveVal then
        some (if Num.lt bestVal moveVal then (i : Int) else bestMove, board1.set i 0, table1)
      else
        searchLoop rest table1 (board1.set i 0)
          (if Num.lt bestVal moveVal then moveVal else bestVal)
          (if Num.lt bestVal moveVal then (i : Int) else bestMove)

/-- The table after the periodic clean-up at the start of `findBestMove`. -/
def cleanTable (table : Table) : Table := if 10000 < table.size then [] else table

/-- The function `findBestMove(board)` on the table `table`. -/
def findBestMove (table : Table) (board : Board) : Option MoveResult :=
  match getOpeningMove board with
  | some openingMove => some (openingMove, board, cleanTable table)
  | none =>
    match winScan 9 0 board with
    | (some i, board1) => some (i, board1, cleanTable table)
    | (none, board1) =>
      match blockScan 9 0 board1 with
      | (some i, board2) => some (i, board2, cleanTable table)
      | (none, board2) =>
        searchLoop (orderMoves board2) (cleanTable table) board2 Num.negInf (-1)

/-- Every score stored in the table is finite. -/
def AllFin (table : Table) : Prop :=
  ∀ key score, table.get key = some score → score.isFin = true

/-- A sequence of calls of `findBestMove` on the boards of a list, the table
persisting from one call to the next: the moves returned and the final table. -/
def callSeq : Table → List Board → Option (List Int × Table)
  | table, [] => some ([], table)
  | table, board :: rest =>
    match findBestMove table board with
    | none => none
    | some (move, _, table1) =>
      match callSeq table1 rest with
      | none => none
      | some (moves, table2) => some (move :: moves, table2)

/-- The tables that the process can hold: the empty table of the start, and
the tables left by `findBestMove` on a valid board or by a clearing of the
cache. -/
inductive Reachable : Table → Prop where
  | start : Reachable []
  | clear (table : Table) : Reachable table → Reachable []
  | call (table : Table) (board : Board) (r : MoveResult) :
      Reachable table → ValidBoard board → findBestMove table board = some r →
      Reachable r.2.2

/-- The loop of `simulateGame` of `src/test/testUtils.js`, with `findBestMove`
as the strategy of both players, for at most `n` more moves: the final board.
Each strategy receives a copy of the board; `none` stands for the error
`Movimiento inválido`. -/
def simulateGame : Nat → Table → Board → Nat → Option (Board × Table)
  | 0, table, board, _ => some (board, table)
  | n + 1, table, board, turn =>
    if isMovesLeft board = true ∧ MinimaxLogic.evaluate board = 0 then
      match findBestMove table board with
      | none => none
      | some (move, _, table1) =>
        if move < 0 ∨ 8 < move ∨ board[move.toNat]? ≠ some 0 then none
        else simulateGame n table1 (board.set move.toNat turn)
          (if turn = BOT then OPPONENT else BOT)
    else some (board, table)

/-- The depth-aware minimax value of a position, without pruning and without
cache: `evaluate` at a finished position, otherwise the best of the values of
the positions after each possible move. Each level fills one cell, so a bound
`fuel` above the number of empty cells is never reached. -/
def exactValue : Nat → Board → Int → Bool → Int
  | 0, board, depth, _ => evaluate board depth
  | fuel + 1, board, depth, isMax =>
    if evaluate board depth ≠ 0 ∨ isMovesLeft board = false then evaluate board depth
    else
      match ((List.range board.length).filter (fun c => board[c]? = some 0)).map
          (fun c => exactValue fuel (board.set c (if isMax then BOT else OPPONENT))
            (depth + 1) (!isMax)) with
      | [] => 0
      | v :: vs => if isMax then vs.foldl max v else vs.foldl min v

/-! ### A faster presentation of the same search

The same algorithm with the table kept as a tree indexed by the cells of the
board and the side to move, and without the board being handed back. It is
proved below to agree with the embedding above on valid boards; it serves to
evaluate the search on concrete boards. -/

namespace Fast

/-- A table indexed by the cells of a board (0, 1 or 2, one level per cell)
and then by the side to move. -/
inductive Trie where
  | leaf : Trie
  | node (vMax vMin : Option Num) (t0 t1 t2 : Trie) : Trie

/-- The score stored for the cells `cells` and the side `isMax`. -/
def Trie.get : Trie → List Nat → Bool → Option Num
  | .leaf, _, _ => none
  | .node vMax vMin _ _ _, [], isMax => if isMax then vMax else vMin
  | .node _ _ t0 t1 t2, c :: cs, isMax =>
    match c with
    | 0 => Trie.get t0 cs isMax
    | 1 => Trie.get t1 cs isMax
    | _ => Trie.get t2 cs isMax

/-- Store a score for the cells `cells` and the side `isMax`. -/
def Trie.set : Trie → List Nat → Bool → Num → Trie
  | .leaf, [], isMax, x =>
    if isMax then .node (some x) none .leaf .leaf .leaf
    else .node none (some x) .leaf .leaf .leaf
  | .node vMax vMin t0 t1 t2, [], isMax, x =>
    if isMax then .node (some x) vMin t0 t1 t2 else .node vMax (some x) t0 t1 t2
  | .leaf, c :: cs, isMax, x =>
    match c with
    | 0 => .node none none (Trie.set .leaf cs isMax x) .leaf .leaf
    | 1 => .node none none .leaf (Trie.set .leaf cs isMax x) .leaf
    | _ => .node none none .leaf .leaf (Trie.set .leaf cs isMax x)
  | .node vMax vMin t0 t1 t2, c :: cs, isMax, x =>
    match c with
    | 0 => .node vMax vMin (Trie.set t0 cs isMax x) t1 t2
    | 1 => .node vMax vMin t0 (Trie.set t1 cs isMax x) t2
    | _ => .node vMax vMin t0 t1 (Trie.set t2 cs isMax x)

/-- A table with the number of its entries. -/
abbrev FTable := Trie × Nat

/-- The empty table. -/
def FTable.empty : FTable := (Trie.leaf, 0)

/-- Store a score; the number of entries grows when the key is new. -/
def FTable.put (F : FTable) (board : Board) (isMax : Bool) (score : Num) : FTable :=
  (F.1.set board isMax score,
    match F.1.get board isMax with
    | some _ => F.2
    | none => F.2 + 1)

/-- The test of `evaluate` on the three cells of a line. -/
def line (a b c : Nat) : Bool := !(Nat.beq a 0) && Nat.beq a b && Nat.beq b c

/-- The score of `evaluate` for a completed line whose first cell holds `a`. -/
def score (a : Nat) (depth : Int) : Int := if Nat.beq a 1 then 100 - depth else depth - 100

/-- The function `evaluate`, with the cells of a board of 9 cells named. -/
def evaluate (board : Board) (depth : Int) : Int :=
  match board with
  | [a0, a1, a2, a3, a4, a5, a6, a7, a8] =>
    if line a0 a1 a2 then score a0 depth
    else if line a3 a4 a5 then score a3 depth
    else if line a6 a7 a8 then score a6 depth
    else if line a0 a3 a6 then score a0 depth
    else if line a1 a4 a7 then score a1 depth
    else if line a2 a5 a8 then score a2 depth
    else if line a0 a4 a8 then score a0 depth
    else if line a2 a4 a6 then score a2 depth
    else 0
  | _ => MinimaxOptimizado.evaluate board depth

/-- Keep the index `i` when its cell `a` is empty. -/
def pick (a i : Nat) (rest : List Nat) : List Nat := if Nat.beq a 0 then i :: rest else rest

/-- The function `orderMoves`, with the cells of a board of 9 cells named. -/
def orderMoves (board : Board) : List Nat :=
  match board with
  | [a0, a1, a2, a3, a4, a5, a6, a7, a8] =>
    pick a4 4 (pick a0 0 (pick a2 2 (pick a6 6 (pick a8 8
      (pick a1 1 (pick a3 3 (pick a5 5 (pick a7 7 []))))))))
  | _ => MinimaxOptimizado.orderMoves board

/-- The result of the search: the score and the table as left by the call. -/
abbrev Result := Num × FTable

/-- The type of the search once the bound on the nesting is fixed. -/
abbrev Search := FTable → Board → Int → Bool → Num → Num → Option Result

/-- The loop of the maximizer. -/
def maxLoop (call : Search) (depth : Int) (board : Board) :
    List Nat → FTable → Num → Num → Num → Option Result
  | [], F, maxEval, _, _ => some (maxEval, F)
  | i :: rest, F, maxEval, alpha, beta =>
    match call F (board.set i BOT) (depth + 1) false alpha beta with
    | none => none
    | some (evalScore, F1) =>
      if Num.le beta (Num.max alpha evalScore) then some (Num.max maxEval evalScore, F1)
      else maxLoop call depth board rest F1 (Num.max maxEval evalScore)
        (Num.max alpha evalScore) beta

/-- The loop of the minimizer. -/
def minLoop (call : Search) (depth : Int) (board : Board) :
    List Nat → FTable → Num → Num → Num → Option Result
  | [], F, minEval, _, _ => some (minEval, F)
  | i :: rest, F, minEval, alpha, beta =>
    match call F (board.set i OPPONENT) (depth + 1) true alpha beta with
    | none => none
    | some (evalScore, F1) =>
      if Num.le (Num.min beta evalScore) alpha then some (Num.min minEval evalScore, F1)
      else minLoop call depth board rest F1 (Num.min minEval evalScore)
        alpha (Num.min beta evalScore)

/-- The search with a bound on the nesting of the recursive calls. -/
def minimaxFuel : Nat → Search
  | 0, _, _, _, _, _, _ => none
  | fuel + 1, F, board, depth, isMax, alpha, beta =>
    match F.1.get board isMax with
    | some stored => some (stored, F)
    | none =>
      if evaluate board depth ≠ 0 ∨ isMovesLeft board = false then
        some (Num.fin (evaluate board depth),
          F.put board isMax (Num.fin (evaluate board depth)))
      else if isMax then
        match maxLoop (minimaxFuel fuel) depth board (orderMoves board) F
            Num.negInf alpha beta with
        | none => none
        | some (maxEval, F1) => some (maxEval, F1.put board isMax maxEval)
      else
        match minLoop (minimaxFuel fuel) depth board (orderMoves board) F
            Num.posInf alpha beta with
        | none => none
        | some (minEval, F1) => some (minEval, F1.put board isMax minEval)

/-- The search with the bound of `MinimaxOptimizado.minimax`. -/
def minimax (F : FTable) (board : Board) (depth : Int) (isMax : Bool)
    (alpha beta : Num) : Option Result :=
  minimaxFuel ((orderMoves board).length + 1) F board depth isMax alpha beta

/-- The last loop of `findBestMove`. -/
def searchLoop (board : Board) : List Nat → FTable → Num → Int → Option (Int × FTable)
  | [], F, _, bestMove => some (bestMove, F)
  | i :: rest, F, bestVal, bestMove =>
    match minimax F (board.set i BOT) 0 false Num.negInf Num.posInf with
    | none => none
    | some (moveVal, F1) =>
      if Num.le (Num.fin 90) moveVal then
        some (if Num.lt bestVal moveVal then (i : Int) else bestMove, F1)
      else
        searchLoop board rest F1 (if Num.lt bestVal moveVal then moveVal else bestVal)
          (if Num.lt bestVal moveVal then (i : Int) else bestMove)

/-- The pairs (cell, score) that the last loop of `findBestMove` obtains, up to
the early exit. -/
def scoredMoves (board : Board) : List Nat → FTable → List (Nat × Num)
  | [], _ => []
  | i :: rest, F =>
    match minimax F (board.set i BOT) 0 false Num.negInf Num.posInf with
    | none => []
    | some (moveVal, F1) =>
      (i, moveVal) :: (if Num.le (Num.fin 90) moveVal then [] else scoredMoves board rest F1)

/-- The table after the periodic clean-up. -/
def cleanTable (F : FTable) : FTable := if 10000 < F.2 then FTable.empty else F

/-- The function `findBestMove`. -/
def findBestMove (F : FTable) (board : Board) : Option (Int × FTable) :=
  match getOpeningMove board with
  | some openingMove => some (openingMove, cleanTable F)
  | none =>
    match (winScan 9 0 board).1 with
    | some i => some (i, cleanTable F)
    | none =>
      match (blockScan 9 0 board).1 with
      | some i => some (i, cleanTable F)
      | none => searchLoop board (orderMoves board) (cleanTable F) Num.negInf (-1)

/-- A sequence of calls of `findBestMove`, the table persisting. -/
def callSeq : FTable → List Board → Option (List Int × FTable)
  | F, [] => some ([], F)
  | F, board :: rest =>
    match findBestMove F board with
    | none => none
    | some (move, F1) =>
      match callSeq F1 rest with
      | none => none
      | some (moves, F2) => some (move :: moves, F2)

/-- The loop of `simulateGame` with `findBestMove` as both strategies. -/
def simulateGame : Nat → FTable → Board → Nat → Option (Board × FTable)
  | 0, F, board, _ => some (board, F)
  | n + 1, F, board, turn =>
    if isMovesLeft board = true ∧ MinimaxLogic.evaluate board = 0 then
      match findBestMove F board with
      | none => none
      | some (move, F1) =>
        if move < 0 ∨ 8 < move ∨ board[move.toNat]? ≠ some 0 then none
        else simulateGame n F1 (board.set move.toNat turn)
          (if turn = BOT then OPPONENT else BOT)
    else some (board, F)

end Fast

/-- The table `T` of the embedding and the table `F` of the faster presentation
hold the same number of entries and the same scores for the valid boards. -/
def TRel (T : Table) (F : Fast.FTable) : Prop :=
  T.size = F.2 ∧ ∀ b m, ValidBoard b → T.get (getBoardKey b m) = F.1.get b m

/-- Two results agree: both fail, or both give the same value, the embedding
hands back the board `b`, and the tables agree. -/
def Sim {α : Type} (b : Board) : Option (α × Board × Table) → Option (α × Fast.FTable) → Prop
  | some (v, b1, T), some (w, F) => v = w ∧ b1 = b ∧ TRel T F
  | none, none => True
  | _, _ => False

/-- Two results without a board agree. -/
def SimSeq {α : Type} : Option (α × Table) → Option (α × Fast.FTable) → Prop
  | some (v, T), some (w, F) => v = w ∧ TRel T F
  | none, none => True
  | _, _ => False

/-- Every score stored in the table is in the range of the search. -/
def AllInRange (table : Table) : Prop :=
  ∀ key score, table.get key = some score → score.inRange = true

/-- The pairs (cell, score) that the last loop of `findBestMove` obtains from
`minimax`, in the order of the loop: the loop stops after the first score that
is at least 90. -/
def scoredMoves : List Nat → Table → Board → List (Nat × Num)
  | [], _, _ => []
  | i :: rest, table, board =>
    match minimax table (board.set i BOT) 0 false Num.negInf Num.posInf with
    | none => []
    | some (moveVal, board1, table1) =>
      (i, moveVal) ::
        (if Num.le (Num.fin 90) moveVal then []
         else scoredMoves rest table1 (board1.set i 0))

/-- The loop of the maximizer as the specification words it: the window is
updated with the running best, `best = max(best, result)` and
`alpha = max(alpha, best)`. -/
def specMaxLoop (call : Search) (depth : Int) :
    List Nat → Table → Board → Num → Num → Num → Option Result
  | [], table, board, best, _, _ => some (best, board, table)
  | i :: rest, table, board, best, alpha, beta =>
    match call table (board.set i BOT) (depth + 1) false alpha beta with
    | none => none
    | some (result, board1, table1) =>
      if Num.le beta (Num.max alpha (Num.max best result)) then
        some (Num.max best result, board1.set i 0, table1)
      else
        specMaxLoop call depth rest table1 (board1.set i 0) (Num.max best result)
          (Num.max alpha (Num.max best result)) beta

/-- The loop of the minimizer as the specification words it:
`best = min(best, result)` and `beta = min(beta, best)`. -/
def specMinLoop (call : Search) (depth : Int) :
    List Nat → Table → Board → Num → Num → Num → Option Result
  | [], table, board, best, _, _ => some (best, board, table)
  | i :: rest, table, board, best, alpha, beta =>
    match call table (board.set i OPPONENT) (depth + 1) true alpha beta with
    | none => none
    | some (result, board1, table1) =>
      if Num.le (Num.min beta (Num.min best result)) alpha then
        some (Num.min best result, board1.set i 0, table1)
      else
        specMinLoop call depth rest table1 (board1.set i 0) (Num.min best result)
          alpha (Num.min beta (Num.min best result))

/-- The search of `minimaxOptimizado.js` with the loops of the specification in
place of its own. -/
def specMinimaxFuel : Nat → Search
  | 0, _, _, _, _, _, _ => none
  | fuel + 1, table, board, depth, isMax, alpha, beta =>
    match table.get (getBoardKey board isMax) with
    | some stored => some (stored, board, table)
    | none =>
      if evaluate board depth ≠ 0 ∨ isMovesLeft board = false then
        some (Num.fin (evaluate board depth), board,
          table.set (getBoardKey board isMax) (Num.fin (evaluate board depth)))
      else if isMax then
        match specMaxLoop (specMinimaxFuel fuel) depth (orderMoves board) table board
            Num.negInf alpha beta with
        | none => none
        | some (best, board1, table1) =>
          some (best, board1, table1.set (getBoardKey board isMax) best)
      else
        match specMinLoop (specMinimaxFuel fuel) depth (orderMoves board) table board
            Num.posInf alpha beta with
        | none => none
        | some (best, board1, table1) =>
          some (best, board1, table1.set (getBoardKey board isMax) best)

end MinimaxOptimizado

/-! ## `src/test/testUtils.js` -/

namespace TestUtils

/-- The message of the error that `playMoves` throws for the move `move`. -/
def occupied (move : Nat) : String := "Casilla " ++ toString move ++ " ya está ocupada"

/-- The loop `moves.forEach` of `playMoves` over the remaining moves: the error
thrown, or the board as left by the loop. -/
def playLoop : List Nat → Board → Nat → Except String Board
  | [], board, _ => Except.ok board
  | move :: rest, board, turn =>
    if board[move]? ≠ some 0 then Except.error (occupied move)
    else playLoop rest (board.set move turn) (if turn = BOT then OPPONENT else BOT)

/-- The function `playMoves(moves, startTurn)`. -/
def playMoves (moves : List Nat) (startTurn : Nat) : Except String Board :=
  playLoop moves [0, 0, 0, 0, 0, 0, 0, 0, 0] startTurn

/-- The player of the move number `k`, counted from 0, when `startTurn` begins. -/
def turnAt (startTurn k : Nat) : Nat :=
  if k % 2 = 0 then startTurn else (if startTurn = BOT then OPPONENT else BOT)

end TestUtils

/-! ## Checks of bounds on the minimax value, and the games -/

namespace MinimaxLogic

/-- The marker that holds the first completed line, in the order in which
`evaluate` scans the lines, or 0 when no line is completed; the cells of a
board of 9 cells are named. -/
def winner (board : Board) : Nat :=
  match board with
  | [a0, a1, a2, a3, a4, a5, a6, a7, a8] =>
    if MinimaxOptimizado.Fast.line a0 a1 a2 then a0
    else if MinimaxOptimizado.Fast.line a3 a4 a5 then a3
    else if MinimaxOptimizado.Fast.line a6 a7 a8 then a6
    else if MinimaxOptimizado.Fast.line a0 a3 a6 then a0
    else if MinimaxOptimizado.Fast.line a1 a4 a7 then a1
    else if MinimaxOptimizado.Fast.line a2 a5 a8 then a2
    else if MinimaxOptimizado.Fast.line a0 a4 a8 then a0
    else if MinimaxOptimizado.Fast.line a2 a4 a6 then a2
    else 0
  | _ => if evaluate board = 0 then 0 else if evaluate board = 10 then 1 else 2

/-- A check that the minimax value of a board is at least `t`: at a finished
board the score is compared with `t`; with the engine to move one of the moves
must pass the check, with the opponent to move all of them. -/
def atLeast (t : Int) : Nat → Board → Bool → Bool
  | 0, _, _ => false
  | fuel + 1, board, isMax =>
    match winner board with
    | 0 =>
      match MinimaxOptimizado.Fast.orderMoves board with
      | [] => decide (t ≤ 0)
      | c :: cs =>
        if isMax then (c :: cs).any (fun i => atLeast t fuel (board.set i BOT) false)
        else (c :: cs).all (fun i => atLeast t fuel (board.set i OPPONENT) true)
    | 1 => decide (t ≤ 10)
    | _ => decide (t ≤ -10)

/-- A check that the minimax value of a board is at most `t`: with the engine
to move all of the moves must pass the check, with the opponent to move one of
them. -/
def atMost (t : Int) : Nat → Board → Bool → Bool
  | 0, _, _ => false
  | fuel + 1, board, isMax =>
    match winner board with
    | 0 =>
      match MinimaxOptimizado.Fast.orderMoves board with
      | [] => decide (0 ≤ t)
      | c :: cs =>
        if isMax then (c :: cs).all (fun i => atMost t fuel (board.set i BOT) false)
        else (c :: cs).any (fun i => atMost t fuel (board.set i OPPONENT) true)
    | 1 => decide (10 ≤ t)
    | _ => decide (-10 ≤ t)

end MinimaxLogic

namespace MinimaxLogic

/-- The boards of the games of the engine of `MinimaxLogic.js` against an
arbitrary opponent, with the side to move (`true` is the engine): a game starts
from the empty board with either side to move; while the board has an empty
cell and `evaluate` is 0, the engine puts its marker on the cell that
`findBestMove` returns, and the opponent puts its marker on any empty cell. -/
inductive Reached : Board → Bool → Prop where
  | engineFirst : Reached [0, 0, 0, 0, 0, 0, 0, 0, 0] true
  | opponentFirst : Reached [0, 0, 0, 0, 0, 0, 0, 0, 0] false
  | engine (board : Board) (move : Int) (board1 : Board) :
      Reached board true → isMovesLeft board = true → evaluate board = 0 →
      findBestMove board = some (move, board1) →
      Reached (board.set move.toNat BOT) false
  | opponent (board : Board) (j : Nat) :
      Reached board false → evaluate board = 0 → board[j]? = some 0 →
      Reached (board.set j OPPONENT) true

end MinimaxLogic

namespace TestUtils

/-- The object that `simulateGame` returns: the fields `winner`, `moves`,
`finalBoard` and `score`. -/
structure GameResult where
  winner : String
  moves : Nat
  finalBoard : Board
  score : Int
  deriving DecidableEq, Repr

/-- The loop `while (isMovesLeft(board) && evaluate(board) === 0 && moves < 9)`
of `simulateGame`, for at most `n` more moves: the final board and the number
of moves. A strategy maps the copy of the board to its move, `none` when it
does not return; `none` stands for that and for the error
`Movimiento inválido`. -/
def simulateLoop (botStrategy opponentStrategy : Board → Option Int) :
    Nat → Board → Nat → Nat → Option (Board × Nat)
  | 0, board, _, moves => some (board, moves)
  | n + 1, board, turn, moves =>
    if isMovesLeft board = true ∧ MinimaxLogic.evaluate board = 0 then
      match (if turn = BOT then botStrategy board else opponentStrategy board) with
      | none => none
      | some move =>
        if move < 0 ∨ 8 < move ∨ board[move.toNat]? ≠ some 0 then none
        else simulateLoop botStrategy opponentStrategy n (board.set move.toNat turn)
          (if turn = BOT then OPPONENT else BOT) (moves + 1)
    else some (board, moves)

/-- The function `simulateGame(botStrategy, opponentStrategy)`, without the
field `history`. -/
def simulateGame (botStrategy opponentStrategy : Board → Option Int) : Option GameResult :=
  match simulateLoop botStrategy opponentStrategy 9 [0, 0, 0, 0, 0, 0, 0, 0, 0] BOT 0 with
  | none => none
  | some (board, moves) =>
    let score := MinimaxLogic.evaluate board
    some (GameResult.mk
      (if score = -10 then "OPPONENT" else if score = 10 then "BOT" else "DRAW")
      moves board score)

/-- The strategy `(board) => findBestMove(board)` with `findBestMove` of
`MinimaxLogic.js`. -/
def logicStrategy (board : Board) : Option Int :=
  (MinimaxLogic.findBestMove board).map Prod.fst

end TestUtils

/-! ## Basic facts about boards and numbers -/

theorem index_of_empty {b : Board} {m : Int} (h9 : b.length = 9)
    (h : ∃ i : Nat, m = (i : Int) ∧ b[i]? = some 0) :
    0 ≤ m ∧ m ≤ 8 ∧ b[m.toNat]? = some 0 := by
  obtain ⟨i, hm, hi⟩ := h
  have hlt : i < 9 := h9 ▸ (List.getElem?_eq_some.mp hi).1
  subst hm
  refine ⟨by omega, by omega, ?_⟩
  simpa using hi

theorem mem_zero_of_getElem? {b : Board} {i : Nat} (h : b[i]? = some 0) :
    (0 : Nat) ∈ b :=
  List.mem_iff_getElem?.mpr ⟨i, h⟩

theorem isMovesLeft_iff {b : Board} : isMovesLeft b = true ↔ (0 : Nat) ∈ b := by
  simp [isMovesLeft]

theorem set_restore {b : Board} {i x : Nat} (h : b[i]? = some 0) :
    (b.set i x).set i 0 = b := by
  rw [List.set_set]
  apply List.ext_getElem?
  intro j
  rw [List.getElem?_set]
  split
  · subst_vars
    simp [h, (List.getElem?_eq_some.mp h).1]
  · rfl

theorem getElem?_set_zero_iff {b : Board} {i j x : Nat} (hx : x ≠ 0) (hi : b[i]? = some 0) :
    (b.set i x)[j]? = some 0 ↔ (j ≠ i ∧ b[j]? = some 0) := by
  rw [List.getElem?_set]
  have hlt := (List.getElem?_eq_some.mp hi).1
  by_cases hij : i = j
  · subst hij
    simp [hlt, hx]
  · simp [hij, Ne.symm hij]

theorem validBoard_set {b : Board} {i x : Nat} (hb : ValidBoard b) (hx : x ≤ 2) :
    ValidBoard (b.set i x) := by
  refine ⟨by rw [List.length_set]; exact hb.1, ?_⟩
  intro c hc
  rcases List.mem_or_eq_of_mem_set hc with h | h
  · exact hb.2 c h
  · omega

namespace Num

theorem isFin_max {a b : Num} (ha : a ≠ posInf) (hb : b.isFin = true) :
    (max a b).isFin = true := by
  cases a <;> cases b <;> simp_all [max, le, isFin]
  rename_i n m
  by_cases h : n ≤ m <;> simp [h]

theorem isFin_min {a b : Num} (ha : a ≠ negInf) (hb : b.isFin = true) :
    (min a b).isFin = true := by
  cases a <;> cases b <;> simp_all [min, le, isFin]
  rename_i n m
  by_cases h : n ≤ m <;> simp [h]

theorem ne_posInf_of_isFin {a : Num} (h : a.isFin = true) : a ≠ posInf := by
  cases a <;> simp_all [isFin]

theorem ne_negInf_of_isFin {a : Num} (h : a.isFin = true) : a ≠ negInf := by
  cases a <;> simp_all [isFin]

theorem lt_negInf_of_isFin {a : Num} (h : a.isFin = true) : lt negInf a = true := by
  cases a <;> simp_all [isFin, lt, le]

end Num

/-! ## The search of `src/minimaxOptimizado.js` returns and restores the board -/

namespace MinimaxOptimizado

theorem table_get_set (T : Table) (k k' : String) (v : Num) :
    (T.set k v).get k' = if k' = k then some v else T.get k' := by
  induction T with
  | nil =>
    by_cases h : k = k'
    · subst h; simp [Table.set, Table.get]
    · simp [Table.set, Table.get, h, Ne.symm h]
  | cons e rest ih =>
    obtain ⟨k0, v0⟩ := e
    by_cases h0 : k0 = k
    · subst h0
      by_cases h : k0 = k'
      · subst h; simp [Table.set, Table.get]
      · simp [Table.set, Table.get, h, Ne.symm h]
    · by_cases h : k0 = k'
      · subst h; simp [Table.set, Table.get, h0]
      · simp [Table.set, Table.get, h0, h, ih]

theorem allFin_nil : AllFin [] := by
  intro k v h
  simp [Table.get] at h

theorem allFin_set {T : Table} {k : String} {v : Num} (hT : AllFin T)
    (hv : v.isFin = true) : AllFin (T.set k v) := by
  intro k' v' h
  rw [table_get_set] at h
  by_cases hk : k' = k
  · simp [hk] at h; subst h; exact hv
  · simp [hk] at h; exact hT k' v' h

theorem mem_orderMoves {b : Board} {i : Nat} :
    i ∈ orderMoves b ↔ i ∈ priorities ∧ b[i]? = some 0 := by
  simp [orderMoves, List.mem_filter]

theorem orderMoves_set_length {b : Board} {i x : Nat} (hx : x ≠ 0)
    (hi : i ∈ orderMoves b) :
    (orderMoves (b.set i x)).length < (orderMoves b).length := by
  have hi' := mem_orderMoves.mp hi
  have h : orderMoves (b.set i x) = (orderMoves b).filter (fun j => decide (j ≠ i)) := by
    unfold orderMoves
    rw [List.filter_filter]
    apply List.filter_congr
    intro j _
    simp [getElem?_set_zero_iff hx hi'.2]
  rw [h]
  exact List.length_filter_lt_length_iff_exists.mpr ⟨i, hi, by simp⟩

theorem orderMoves_ne_nil {b : Board} (h9 : b.length = 9) (hml : isMovesLeft b = true) :
    orderMoves b ≠ [] := by
  have h0 : (0 : Nat) ∈ b := by simpa [isMovesLeft] using hml
  obtain ⟨n, hn⟩ := List.mem_iff_getElem?.mp h0
  have hlt : n < 9 := h9 ▸ (List.getElem?_eq_some.mp hn).1
  have hp : n ∈ priorities := by
    unfold priorities
    interval_cases n <;> simp
  exact List.ne_nil_of_mem (mem_orderMoves.mpr ⟨hp, hn⟩)

theorem maxLoop_spec (call : Search) (d : Int) (b : Board) (ms : List Nat)
    (hms : ∀ i ∈ ms, b[i]? = some 0)
    (hcall : ∀ i ∈ ms, ∀ T α β, ∃ v T',
      call T (b.set i BOT) (d + 1) false α β = some (v, b.set i BOT, T') ∧
      (b.length = 9 → AllFin T → v.isFin = true ∧ AllFin T')) :
    ∀ T me α β, ∃ v T', maxLoop call d ms T b me α β = some (v, b, T') ∧
      (b.length = 9 → AllFin T → me ≠ Num.posInf → (me.isFin = true ∨ ms ≠ []) →
        v.isFin = true ∧ AllFin T') := by
  induction ms with
  | nil =>
    intro T me α β
    exact ⟨me, T, rfl, fun _ hT _ h => ⟨by simpa using h, hT⟩⟩
  | cons i rest ih =>
    intro T me α β
    obtain ⟨v, T1, hv, hfin⟩ := hcall i (List.mem_cons_self _ _) T α β
    have hres : (b.set i BOT).set i 0 = b := set_restore (hms i (List.mem_cons_self _ _))
    have ih' := ih (fun j hj => hms j (List.mem_cons_of_mem _ hj))
      (fun j hj => hcall j (List.mem_cons_of_mem _ hj))
    simp only [maxLoop, hv, hres]
    split
    · exact ⟨_, _, rfl, fun h9 hT hme _ =>
        ⟨Num.isFin_max hme (hfin h9 hT).1, (hfin h9 hT).2⟩⟩
    · obtain ⟨v2, T2, h2, hfin2⟩ := ih' T1 (Num.max me v) (Num.max α v) β
      exact ⟨v2, T2, h2, fun h9 hT hme _ =>
        hfin2 h9 (hfin h9 hT).2
          (Num.ne_posInf_of_isFin (Num.isFin_max hme (hfin h9 hT).1))
          (Or.inl (Num.isFin_max hme (hfin h9 hT).1))⟩

theorem minLoop_spec (call : Search) (d : Int) (b : Board) (ms : List Nat)
    (hms : ∀ i ∈ ms, b[i]? = some 0)
    (hcall : ∀ i ∈ ms, ∀ T α β, ∃ v T',
      call T (b.set i OPPONENT) (d + 1) true α β = some (v, b.set i OPPONENT, T') ∧
      (b.length = 9 → AllFin T → v.isFin = true ∧ AllFin T')) :
    ∀ T me α β, ∃ v T', minLoop call d ms T b me α β = some (v, b, T') ∧
      (b.length = 9 → AllFin T → me ≠ Num.negInf → (me.isFin = true ∨ ms ≠ []) →
        v.isFin = true ∧ AllFin T') := by
  induction ms with
  | nil =>
    intro T me α β
    exact ⟨me, T, rfl, fun _ hT _ h => ⟨by simpa using h, hT⟩⟩
  | cons i rest ih =>
    intro T me α β
    obtain ⟨v, T1, hv, hfin⟩ := hcall i (List.mem_cons_self _ _) T α β
    have hres : (b.set i OPPONENT).set i 0 = b :=
      set_restore (hms i (List.mem_cons_self _ _))
    have ih' := ih (fun j hj => hms j (List.mem_cons_of_mem _ hj))
      (fun j hj => hcall j (List.mem_cons_of_mem _ hj))
    simp only [minLoop, hv, hres]
    split
    · exact ⟨_, _, rfl, fun h9 hT hme _ =>
        ⟨Num.isFin_min hme (hfin h9 hT).1, (hfin h9 hT).2⟩⟩
    · obtain ⟨v2, T2, h2, hfin2⟩ := ih' T1 (Num.min me v) α (Num.min β v)
      exact ⟨v2, T2, h2, fun h9 hT hme _ =>
        hfin2 h9 (hfin h9 hT).2
          (Num.ne_negInf_of_isFin (Num.isFin_min hme (hfin h9 hT).1))
          (Or.inl (Num.isFin_min hme (hfin h9 hT).1))⟩

theorem minimaxFuel_spec : ∀ (fuel : Nat) (T : Table) (b : Board) (d : Int) (m : Bool)
    (α β : Num), (orderMoves b).length < fuel →
    ∃ v T', minimaxFuel fuel T b d m α β = some (v, b, T') ∧
      (b.length = 9 → AllFin T → v.isFin = true ∧ AllFin T') := by
  intro fuel
  induction fuel with
  | zero => intro T b d m α β h; omega
  | succ fuel ih =>
    intro T b d m α β hfuel
    have hchild : ∀ (x : Nat), x ≠ 0 → ∀ i ∈ orderMoves b, ∀ (m' : Bool) T α β, ∃ v T',
        minimaxFuel fuel T (b.set i x) (d + 1) m' α β = some (v, b.set i x, T') ∧
        (b.length = 9 → AllFin T → v.isFin = true ∧ AllFin T') := by
      intro x hx i hi m' T α β
      have hlt := orderMoves_set_length hx hi
      obtain ⟨v, T', h, hf⟩ := ih T (b.set i x) (d + 1) m' α β (by omega)
      exact ⟨v, T', h, fun h9 hT => hf (by rw [List.length_set]; exact h9) hT⟩
    unfold minimaxFuel
    cases hget : T.get (getBoardKey b m) with
    | some stored => exact ⟨stored, T, rfl, fun _ hT => ⟨hT _ _ hget, hT⟩⟩
    | none =>
      simp only []
      by_cases hterm : evaluate b d ≠ 0 ∨ isMovesLeft b = false
      · rw [if_pos hterm]
        exact ⟨_, _, rfl, fun _ hT => ⟨rfl, allFin_set hT rfl⟩⟩
      · rw [if_neg hterm]
        have hml : isMovesLeft b = true := by
          cases h : isMovesLeft b
          · exact absurd (Or.inr h) hterm
          · rfl
        cases m with
        | true =>
          obtain ⟨v, T1, hv, hfin⟩ := maxLoop_spec (minimaxFuel fuel) d b (orderMoves b)
            (fun i hi => (mem_orderMoves.mp hi).2)
            (fun i hi T α β => hchild BOT (by decide) i hi false T α β) T Num.negInf α β
          simp only [if_true, hv]
          refine ⟨v, _, rfl, fun h9 hT => ?_⟩
          have h := hfin h9 hT (by simp) (Or.inr (orderMoves_ne_nil h9 hml))
          exact ⟨h.1, allFin_set h.2 h.1⟩
        | false =>
          obtain ⟨v, T1, hv, hfin⟩ := minLoop_spec (minimaxFuel fuel) d b (orderMoves b)
            (fun i hi => (mem_orderMoves.mp hi).2)
            (fun i hi T α β => hchild OPPONENT (by decide) i hi true T α β) T Num.posInf α β
          simp only [Bool.false_eq_true, if_false, hv]
          refine ⟨v, _, rfl, fun h9 hT => ?_⟩
          have h := hfin h9 hT (by simp) (Or.inr (orderMoves_ne_nil h9 hml))
          exact ⟨h.1, allFin_set h.2 h.1⟩

theorem minimax_spec (T : Table) (b : Board) (d : Int) (m : Bool) (α β : Num) :
    ∃ v T', minimax T b d m α β = some (v, b, T') ∧
      (b.length = 9 → AllFin T → v.isFin = true ∧ AllFin T') :=
  minimaxFuel_spec _ T b d m α β (Nat.lt_succ_self _)

/-! ## The selector of `src/minimaxOptimizado.js` -/

theorem firstEmpty_spec {b : Board} {cs : List Nat} {m : Nat}
    (h : firstEmpty b cs = some m) : m ∈ cs ∧ b[m]? = some 0 := by
  induction cs with
  | nil => simp [firstEmpty] at h
  | cons c rest ih =>
    unfold firstEmpty at h
    split at h
    · injection h with h
      subst h
      exact ⟨List.mem_cons_self _ _, by assumption⟩
    · exact ⟨List.mem_cons_of_mem _ (ih h).1, (ih h).2⟩

theorem getOpeningMove_spec {b : Board} {m : Nat} (h : getOpeningMove b = some m) :
    b[m]? = some 0 := by
  unfold getOpeningMove at h
  split at h
  · exact (firstEmpty_spec h).2
  · exact absurd h (by simp)

/-- The first loop returns the board as it was, and the first cell at or after
`i` (among the next `n`) that is empty and gives a positive score. -/
theorem winScan_spec : ∀ (n i : Nat) (b : Board),
    (winScan n i b).2 = b ∧
    (∀ j, (winScan n i b).1 = some j →
      (b[j]? = some 0 ∧ 0 < evaluate (b.set j BOT) 0) ∧ i ≤ j ∧ j < i + n ∧
      ∀ k, i ≤ k → k < j → ¬(b[k]? = some 0 ∧ 0 < evaluate (b.set k BOT) 0)) ∧
    ((winScan n i b).1 = none →
      ∀ k, i ≤ k → k < i + n → ¬(b[k]? = some 0 ∧ 0 < evaluate (b.set k BOT) 0)) := by
  intro n
  induction n with
  | zero =>
    intro i b
    refine ⟨rfl, fun j h => by simp [winScan] at h, fun _ k h1 h2 => by omega⟩
  | succ n ih =>
    intro i b
    unfold winScan
    by_cases hc : b[i]? = some 0
    · rw [if_pos hc, set_restore hc]
      by_cases hs : 0 < evaluate (b.set i BOT) 0
      · rw [if_pos hs]
        refine ⟨rfl, fun j h => ?_, fun h => by simp at h⟩
        simp only [Option.some.injEq] at h
        subst h
        exact ⟨⟨hc, hs⟩, le_refl _, by omega, fun k h1 h2 => by omega⟩
      · rw [if_neg hs]
        obtain ⟨h1, h2, h3⟩ := ih (i + 1) b
        refine ⟨h1, fun j h => ?_, fun h k hk1 hk2 => ?_⟩
        · obtain ⟨ha, hb, hc', hd⟩ := h2 j h
          refine ⟨ha, by omega, by omega, fun k hk1 hk2 => ?_⟩
          by_cases hki : k = i
          · subst hki; exact fun hh => hs hh.2
          · exact hd k (by omega) hk2
        · by_cases hki : k = i
          · subst hki; exact fun hh => hs hh.2
          · exact h3 h k (by omega) (by omega)
    · rw [if_neg hc]
      obtain ⟨h1, h2, h3⟩ := ih (i + 1) b
      refine ⟨h1, fun j h => ?_, fun h k hk1 hk2 => ?_⟩
      · obtain ⟨ha, hb, hc', hd⟩ := h2 j h
        refine ⟨ha, by omega, by omega, fun k hk1 hk2 => ?_⟩
        by_cases hki : k = i
        · subst hki; exact fun hh => hc hh.1
        · exact hd k (by omega) hk2
      · by_cases hki : k = i
        · subst hki; exact fun hh => hc hh.1
        · exact h3 h k (by omega) (by omega)

/-- The second loop returns the board as it was, and the first cell at or after
`i` (among the next `n`) that is empty and gives a negative score. -/
theorem blockScan_spec : ∀ (n i : Nat) (b : Board),
    (blockScan n i b).2 = b ∧
    (∀ j, (blockScan n i b).1 = some j →
      (b[j]? = some 0 ∧ evaluate (b.set j OPPONENT) 0 < 0) ∧ i ≤ j ∧ j < i + n ∧
      ∀ k, i ≤ k → k < j → ¬(b[k]? = some 0 ∧ evaluate (b.set k OPPONENT) 0 < 0)) ∧
    ((blockScan n i b).1 = none →
      ∀ k, i ≤ k → k < i + n → ¬(b[k]? = some 0 ∧ evaluate (b.set k OPPONENT) 0 < 0)) := by
  intro n
  induction n with
  | zero =>
    intro i b
    refine ⟨rfl, fun j h => by simp [blockScan] at h, fun _ k h1 h2 => by omega⟩
  | succ n ih =>
    intro i b
    unfold blockScan
    by_cases hc : b[i]? = some 0
    · rw [if_pos hc, set_restore hc]
      by_cases hs : evaluate (b.set i OPPONENT) 0 < 0
      · rw [if_pos hs]
        refine ⟨rfl, fun j h => ?_, fun h => by simp at h⟩
        simp only [Option.some.injEq] at h
        subst h
        exact ⟨⟨hc, hs⟩, le_refl _, by omega, fun k h1 h2 => by omega⟩
      · rw [if_neg hs]
        obtain ⟨h1, h2, h3⟩ := ih (i + 1) b
        refine ⟨h1, fun j h => ?_, fun h k hk1 hk2 => ?_⟩
        · obtain ⟨ha, hb, hc', hd⟩ := h2 j h
          refine ⟨ha, by omega, by omega, fun k hk1 hk2 => ?_⟩
          by_cases hki : k = i
          · subst hki; exact fun hh => hs hh.2
          · exact hd k (by omega) hk2
        · by_cases hki : k = i
          · subst hki; exact fun hh => hs hh.2
          · exact h3 h k (by omega) (by omega)
    · rw [if_neg hc]
      obtain ⟨h1, h2, h3⟩ := ih (i + 1) b
      refine ⟨h1, fun j h => ?_, fun h k hk1 hk2 => ?_⟩
      · obtain ⟨ha, hb, hc', hd⟩ := h2 j h
        refine ⟨ha, by omega, by omega, fun k hk1 hk2 => ?_⟩
        by_cases hki : k = i
        · subst hki; exact fun hh => hc hh.1
        · exact hd k (by omega) hk2
      · by_cases hki : k = i
        · subst hki; exact fun hh => hc hh.1
        · exact h3 h k (by omega) (by omega)

theorem allFin_cleanTable {T : Table} (h : AllFin T) : AllFin (cleanTable T) := by
  unfold cleanTable
  split
  · exact allFin_nil
  · exact h

/-- The last loop returns, restores the board, and returns either the best
move so far or one of the moves it tried; with finite stored scores it returns
one of the moves it tried when it starts from `-Infinity`. -/
theorem searchLoop_spec (b : Board) : ∀ (ms : List Nat), (∀ i ∈ ms, b[i]? = some 0) →
    ∀ (T : Table) (bv : Num) (bm : Int), ∃ m T',
      searchLoop ms T b bv bm = some (m, b, T') ∧
      (m = bm ∨ ∃ i ∈ ms, m = (i : Int)) ∧
      (b.length = 9 → AllFin T →
        AllFin T' ∧ (bv = Num.negInf → ms ≠ [] → ∃ i ∈ ms, m = (i : Int))) := by
  intro ms
  induction ms with
  | nil =>
    intro _ T bv bm
    exact ⟨bm, T, rfl, Or.inl rfl, fun _ hT => ⟨hT, fun _ h => absurd rfl h⟩⟩
  | cons i rest ih =>
    intro hms T bv bm
    obtain ⟨v, T1, hv, hfin⟩ := minimax_spec T (b.set i BOT) 0 false Num.negInf Num.posInf
    have hres : (b.set i BOT).set i 0 = b := set_restore (hms i (List.mem_cons_self _ _))
    have hfin' : b.length = 9 → AllFin T → v.isFin = true ∧ AllFin T1 :=
      fun h9 hT => hfin (by rw [List.length_set]; exact h9) hT
    simp only [searchLoop, hv, hres]
    have hbest : ∀ (h9 : b.length = 9) (hT : AllFin T), bv = Num.negInf →
        (if Num.lt bv v = true then (i : Int) else bm) = (i : Int) := by
      intro h9 hT hbv
      subst hbv
      rw [if_pos (Num.lt_negInf_of_isFin (hfin' h9 hT).1)]
    split
    · refine ⟨_, _, rfl, ?_, fun h9 hT => ⟨(hfin' h9 hT).2, fun hbv _ => ?_⟩⟩
      · split
        · exact Or.inr ⟨i, List.mem_cons_self _ _, rfl⟩
        · exact Or.inl rfl
      · exact ⟨i, List.mem_cons_self _ _, hbest h9 hT hbv⟩
    · obtain ⟨m, T2, h2, hm, hfin2⟩ := ih (fun j hj => hms j (List.mem_cons_of_mem _ hj)) T1
        (if Num.lt bv v = true then v else bv) (if Num.lt bv v = true then (i : Int) else bm)
      refine ⟨m, T2, h2, ?_, fun h9 hT => ⟨(hfin2 h9 (hfin' h9 hT).2).1, fun hbv _ => ?_⟩⟩
      · rcases hm with hm | ⟨j, hj, hm⟩
        · split at hm
          · exact Or.inr ⟨i, List.mem_cons_self _ _, hm⟩
          · exact Or.inl hm
        · exact Or.inr ⟨j, List.mem_cons_of_mem _ hj, hm⟩
      · rcases hm with hm | ⟨j, hj, hm⟩
        · rw [hbest h9 hT hbv] at hm
          exact ⟨i, List.mem_cons_self _ _, hm⟩
        · exact ⟨j, List.mem_cons_of_mem _ hj, hm⟩

/-- The selector returns, restores the board, and returns -1 or an empty cell;
on a board of 9 cells with finite stored scores it keeps the stored scores
finite and returns -1 only when no cell is empty. -/
theorem findBestMove_spec (T : Table) (b : Board) : ∃ m T',
    findBestMove T b = some (m, b, T') ∧
    (m = -1 ∨ ∃ i : Nat, m = (i : Int) ∧ b[i]? = some 0) ∧
    (b.length = 9 → AllFin T → AllFin T' ∧ (isMovesLeft b = true → m ≠ -1)) := by
  unfold findBestMove
  cases hbook : getOpeningMove b with
  | some om =>
    exact ⟨om, _, rfl, Or.inr ⟨om, rfl, getOpeningMove_spec hbook⟩,
      fun _ hT => ⟨allFin_cleanTable hT, fun _ => by omega⟩⟩
  | none =>
    simp only []
    obtain ⟨hw1, hw2, _⟩ := winScan_spec 9 0 b
    rcases hws : winScan 9 0 b with ⟨_ | j, b1⟩
    · rw [hws] at hw1
      simp only at hw1
      subst hw1
      simp only []
      obtain ⟨hb1, hb2, _⟩ := blockScan_spec 9 0 b1
      rcases hbs : blockScan 9 0 b1 with ⟨_ | j, b2⟩
      · rw [hbs] at hb1
        simp only at hb1
        subst hb1
        simp only []
        obtain ⟨m, T', h, hm, hfin⟩ := searchLoop_spec b2 (orderMoves b2)
          (fun i hi => (mem_orderMoves.mp hi).2) (cleanTable T) Num.negInf (-1)
        refine ⟨m, T', h, ?_, fun h9 hT => ?_⟩
        · rcases hm with hm | ⟨i, hi, hm⟩
          · exact Or.inl hm
          · exact Or.inr ⟨i, hm, (mem_orderMoves.mp hi).2⟩
        · have h2 := hfin h9 (allFin_cleanTable hT)
          refine ⟨h2.1, fun hml => ?_⟩
          obtain ⟨i, _, hi⟩ := h2.2 rfl (orderMoves_ne_nil h9 hml)
          omega
      · rw [hbs] at hb1 hb2
        simp only at hb1 hb2
        subst hb1
        exact ⟨j, _, rfl, Or.inr ⟨j, rfl, (hb2 j rfl).1.1⟩,
          fun _ hT => ⟨allFin_cleanTable hT, fun _ => by omega⟩⟩
    · rw [hws] at hw1 hw2
      simp only at hw1 hw2
      subst hw1
      exact ⟨j, _, rfl, Or.inr ⟨j, rfl, (hw2 j rfl).1.1⟩,
        fun _ hT => ⟨allFin_cleanTable hT, fun _ => by omega⟩⟩

theorem reachable_allFin {T : Table} (h : Reachable T) : AllFin T := by
  induction h with
  | start => exact allFin_nil
  | clear => exact allFin_nil
  | call T b r _ hb hr ih =>
    obtain ⟨m, T', h, _, hfin⟩ := findBestMove_spec T b
    rw [hr] at h
    injection h with h
    subst h
    exact (hfin hb.1 ih).1

end MinimaxOptimizado

/-! ## The search and the selector of `src/test/MinimaxLogic.js` -/

namespace MinimaxLogic

theorem emptyCount_set {b : Board} {i x : Nat} (hx : x ≠ 0) (hi : b[i]? = some 0)
    (h9 : i < 9) : emptyCount (b.set i x) < emptyCount b := by
  have h : (List.range 9).filter (fun j => decide ((b.set i x)[j]? = some 0)) =
      ((List.range 9).filter (fun j => decide (b[j]? = some 0))).filter
        (fun j => decide (j ≠ i)) := by
    rw [List.filter_filter]
    apply List.filter_congr
    intro j _
    simp [getElem?_set_zero_iff hx hi]
  unfold emptyCount
  rw [h]
  exact List.length_filter_lt_length_iff_exists.mpr
    ⟨i, List.mem_filter.mpr ⟨List.mem_range.mpr h9, by simp [hi]⟩, by simp⟩

theorem exists_empty_of_isMovesLeft {b : Board} (h9 : b.length = 9)
    (hml : isMovesLeft b = true) : ∃ k, k < 9 ∧ b[k]? = some 0 := by
  have h0 : (0 : Nat) ∈ b := by simpa [isMovesLeft] using hml
  obtain ⟨n, hn⟩ := List.mem_iff_getElem?.mp h0
  exact ⟨n, h9 ▸ (List.getElem?_eq_some.mp hn).1, hn⟩

theorem logic_maxLoop_spec (call : Board → Int → Bool → Num → Num → Option Result) (d : Int)
    (b : Board)
    (hcall : ∀ j, b[j]? = some 0 → j < 9 → ∀ α β, ∃ v,
      call (b.set j BOT) (d + 1) false α β = some (v, b.set j BOT) ∧
      (b.length = 9 → v.isFin = true)) :
    ∀ (n i : Nat) (me α β : Num), i + n ≤ 9 → ∃ v,
      maxLoop call d n i b me α β = some (v, b) ∧
      (b.length = 9 → me ≠ Num.posInf →
        (me.isFin = true ∨ ∃ k, i ≤ k ∧ k < i + n ∧ b[k]? = some 0) → v.isFin = true) := by
  intro n
  induction n with
  | zero =>
    intro i me α β _
    refine ⟨me, rfl, fun _ _ h => ?_⟩
    rcases h with h | ⟨k, h1, h2, _⟩
    · exact h
    · omega
  | succ n ih =>
    intro i me α β hin
    unfold maxLoop
    by_cases hc : b[i]? = some 0
    · rw [if_pos hc]
      obtain ⟨v, hv, hfin⟩ := hcall i hc (by omega) α β
      simp only [hv, set_restore hc]
      split
      · exact ⟨_, rfl, fun h9 hme _ => Num.isFin_max hme (hfin h9)⟩
      · obtain ⟨v2, h2, hfin2⟩ := ih (i + 1) (Num.max me v) (Num.max α v) β (by omega)
        exact ⟨v2, h2, fun h9 hme _ =>
          hfin2 h9 (Num.ne_posInf_of_isFin (Num.isFin_max hme (hfin h9)))
            (Or.inl (Num.isFin_max hme (hfin h9)))⟩
    · rw [if_neg hc]
      obtain ⟨v2, h2, hfin2⟩ := ih (i + 1) me α β (by omega)
      refine ⟨v2, h2, fun h9 hme h => hfin2 h9 hme ?_⟩
      rcases h with h | ⟨k, h1, h2, h3⟩
      · exact Or.inl h
      · refine Or.inr ⟨k, ?_, by omega, h3⟩
        by_cases hki : k = i
        · subst hki; exact absurd h3 hc
        · omega

theorem logic_minLoop_spec (call : Board → Int → Bool → Num → Num → Option Result) (d : Int)
    (b : Board)
    (hcall : ∀ j, b[j]? = some 0 → j < 9 → ∀ α β, ∃ v,
      call (b.set j OPPONENT) (d + 1) true α β = some (v, b.set j OPPONENT) ∧
      (b.length = 9 → v.isFin = true)) :
    ∀ (n i : Nat) (me α β : Num), i + n ≤ 9 → ∃ v,
      minLoop call d n i b me α β = some (v, b) ∧
      (b.length = 9 → me ≠ Num.negInf →
        (me.isFin = true ∨ ∃ k, i ≤ k ∧ k < i + n ∧ b[k]? = some 0) → v.isFin = true) := by
  intro n
  induction n with
  | zero =>
    intro i me α β _
    refine ⟨me, rfl, fun _ _ h => ?_⟩
    rcases h with h | ⟨k, h1, h2, _⟩
    · exact h
    · omega
  | succ n ih =>
    intro i me α β hin
    unfold minLoop
    by_cases hc : b[i]? = some 0
    · rw [if_pos hc]
      obtain ⟨v, hv, hfin⟩ := hcall i hc (by omega) α β
      simp only [hv, set_restore hc]
      split
      · exact ⟨_, rfl, fun h9 hme _ => Num.isFin_min hme (hfin h9)⟩
      · obtain ⟨v2, h2, hfin2⟩ := ih (i + 1) (Num.min me v) α (Num.min β v) (by omega)
        exact ⟨v2, h2, fun h9 hme _ =>
          hfin2 h9 (Num.ne_negInf_of_isFin (Num.isFin_min hme (hfin h9)))
            (Or.inl (Num.isFin_min hme (hfin h9)))⟩
    · rw [if_neg hc]
      obtain ⟨v2, h2, hfin2⟩ := ih (i + 1) me α β (by omega)
      refine ⟨v2, h2, fun h9 hme h => hfin2 h9 hme ?_⟩
      rcases h with h | ⟨k, h1, h2, h3⟩
      · exact Or.inl h
      · refine Or.inr ⟨k, ?_, by omega, h3⟩
        by_cases hki : k = i
        · subst hki; exact absurd h3 hc
        · omega

theorem logic_minimaxFuel_spec : ∀ (fuel : Nat) (b : Board) (d : Int) (m : Bool) (α β : Num),
    emptyCount b < fuel →
    ∃ v, minimaxFuel fuel b d m α β = some (v, b) ∧ (b.length = 9 → v.isFin = true) := by
  intro fuel
  induction fuel with
  | zero => intro b d m α β h; omega
  | succ fuel ih =>
    intro b d m α β hfuel
    have hchild : ∀ (x : Nat), x ≠ 0 → ∀ j, b[j]? = some 0 → j < 9 → ∀ (m' : Bool) α β,
        ∃ v, minimaxFuel fuel (b.set j x) (d + 1) m' α β = some (v, b.set j x) ∧
        (b.length = 9 → v.isFin = true) := by
      intro x hx j hj h9 m' α β
      have hlt := emptyCount_set hx hj h9
      obtain ⟨v, h, hf⟩ := ih (b.set j x) (d + 1) m' α β (by omega)
      exact ⟨v, h, fun h9 => hf (by rw [List.length_set]; exact h9)⟩
    unfold minimaxFuel
    simp only []
    by_cases hs : evaluate b = 10 ∨ evaluate b = -10
    · rw [if_pos hs]
      exact ⟨_, rfl, fun _ => rfl⟩
    · rw [if_neg hs]
      cases hml : isMovesLeft b with
      | false => exact ⟨_, rfl, fun _ => rfl⟩
      | true =>
        simp only [Bool.not_true, Bool.false_eq_true, if_false]
        cases m with
        | true =>
          obtain ⟨v, hv, hfin⟩ := logic_maxLoop_spec (minimaxFuel fuel) d b
            (fun j hj h9 α β => hchild BOT (by decide) j hj h9 false α β)
            9 0 Num.negInf α β (by omega)
          simp only [if_true, hv]
          refine ⟨v, rfl, fun h9 => hfin h9 (by simp) (Or.inr ?_)⟩
          obtain ⟨k, hk, hk0⟩ := exists_empty_of_isMovesLeft h9 hml
          exact ⟨k, by omega, by omega, hk0⟩
        | false =>
          obtain ⟨v, hv, hfin⟩ := logic_minLoop_spec (minimaxFuel fuel) d b
            (fun j hj h9 α β => hchild OPPONENT (by decide) j hj h9 true α β)
            9 0 Num.posInf α β (by omega)
          simp only [Bool.false_eq_true, if_false, hv]
          refine ⟨v, rfl, fun h9 => hfin h9 (by simp) (Or.inr ?_)⟩
          obtain ⟨k, hk, hk0⟩ := exists_empty_of_isMovesLeft h9 hml
          exact ⟨k, by omega, by omega, hk0⟩

theorem logic_minimax_spec (b : Board) (d : Int) (m : Bool) (α β : Num) :
    ∃ v, minimax b d m α β = some (v, b) ∧ (b.length = 9 → v.isFin = true) :=
  logic_minimaxFuel_spec _ b d m α β (Nat.lt_succ_self _)

/-- The loop of the selector returns, restores the board, and returns either
the best move so far or an empty cell it tried; on a board of 9 cells, started
from `-Infinity`, it returns an empty cell when there is one to try. -/
theorem bestLoop_spec (b : Board) : ∀ (n i : Nat) (bv : Num) (bm : Int), ∃ m,
    bestLoop n i b bv bm = some (m, b) ∧
    (m = bm ∨ ∃ k : Nat, m = (k : Int) ∧ i ≤ k ∧ k < i + n ∧ b[k]? = some 0) ∧
    (b.length = 9 → bv = Num.negInf → (∃ k, i ≤ k ∧ k < i + n ∧ b[k]? = some 0) →
      ∃ k : Nat, m = (k : Int) ∧ i ≤ k ∧ k < i + n ∧ b[k]? = some 0) := by
  intro n
  induction n with
  | zero =>
    intro i bv bm
    exact ⟨bm, rfl, Or.inl rfl, fun _ _ ⟨k, h1, h2, _⟩ => by omega⟩
  | succ n ih =>
    intro i bv bm
    unfold bestLoop
    by_cases hc : b[i]? = some 0
    · rw [if_pos hc]
      obtain ⟨v, hv, hfin⟩ := logic_minimax_spec (b.set i BOT) 0 false Num.negInf Num.posInf
      simp only [hv, set_restore hc]
      have hself : ∃ k : Nat, (i : Int) = (k : Int) ∧ i ≤ k ∧ k < i + (n + 1) ∧
          b[k]? = some 0 := ⟨i, rfl, le_refl _, by omega, hc⟩
      have hshift : ∀ {m : Int}, (∃ k : Nat, m = (k : Int) ∧ i + 1 ≤ k ∧ k < i + 1 + n ∧
          b[k]? = some 0) → ∃ k : Nat, m = (k : Int) ∧ i ≤ k ∧ k < i + (n + 1) ∧
          b[k]? = some 0 := fun ⟨k, h1, h2, h3, h4⟩ => ⟨k, h1, by omega, by omega, h4⟩
      by_cases hlt : Num.lt bv v = true
      · rw [if_pos hlt]
        obtain ⟨m, hm, hor, _⟩ := ih (i + 1) v i
        have hres : ∃ k : Nat, m = (k : Int) ∧ i ≤ k ∧ k < i + (n + 1) ∧ b[k]? = some 0 := by
          rcases hor with h | h
          · rw [h]; exact hself
          · exact hshift h
        exact ⟨m, hm, Or.inr hres, fun _ _ _ => hres⟩
      · rw [if_neg hlt]
        obtain ⟨m, hm, hor, _⟩ := ih (i + 1) bv bm
        refine ⟨m, hm, ?_, fun h9 hbv _ => ?_⟩
        · rcases hor with h | h
          · exact Or.inl h
          · exact Or.inr (hshift h)
        · subst hbv
          have := Num.lt_negInf_of_isFin (hfin (by rw [List.length_set]; exact h9))
          exact absurd this hlt
    · rw [if_neg hc]
      obtain ⟨m, hm, hor, hex⟩ := ih (i + 1) bv bm
      have hshift : ∀ {m : Int}, (∃ k : Nat, m = (k : Int) ∧ i + 1 ≤ k ∧ k < i + 1 + n ∧
          b[k]? = some 0) → ∃ k : Nat, m = (k : Int) ∧ i ≤ k ∧ k < i + (n + 1) ∧
          b[k]? = some 0 := fun ⟨k, h1, h2, h3, h4⟩ => ⟨k, h1, by omega, by omega, h4⟩
      refine ⟨m, hm, ?_, fun h9 hbv ⟨k, h1, h2, h3⟩ => ?_⟩
      · rcases hor with h | h
        · exact Or.inl h
        · exact Or.inr (hshift h)
      · refine hshift (hex h9 hbv ⟨k, ?_, by omega, h3⟩)
        by_cases hki : k = i
        · subst hki; exact absurd h3 hc
        · omega

/-- The selector returns, restores the board, and returns -1 or an empty cell;
on a board of 9 cells it returns -1 only when no cell is empty. -/
theorem logic_findBestMove_spec (b : Board) : ∃ m,
    findBestMove b = some (m, b) ∧
    (m = -1 ∨ ∃ i : Nat, m = (i : Int) ∧ b[i]? = some 0) ∧
    (b.length = 9 → isMovesLeft b = true → m ≠ -1) := by
  obtain ⟨m, hm, hor, hex⟩ := bestLoop_spec b 9 0 Num.negInf (-1)
  refine ⟨m, hm, ?_, fun h9 hml => ?_⟩
  · rcases hor with h | ⟨k, h1, _, _, h4⟩
    · exact Or.inl h
    · exact Or.inr ⟨k, h1, h4⟩
  · obtain ⟨k, hk, hk0⟩ := exists_empty_of_isMovesLeft h9 hml
    obtain ⟨j, hj, _⟩ := hex h9 rfl ⟨k, by omega, by omega, hk0⟩
    omega

end MinimaxLogic

/-! ## The evaluator on boards without a completed line, the keys and the book -/

theorem validBoard_cases {b : Board} (hb : ValidBoard b) :
    ∃ a0 a1 a2 a3 a4 a5 a6 a7 a8 : Nat, b = [a0, a1, a2, a3, a4, a5, a6, a7, a8] ∧
      a0 ≤ 2 ∧ a1 ≤ 2 ∧ a2 ≤ 2 ∧ a3 ≤ 2 ∧ a4 ≤ 2 ∧ a5 ≤ 2 ∧ a6 ≤ 2 ∧ a7 ≤ 2 ∧ a8 ≤ 2 := by
  obtain ⟨hlen, hc⟩ := hb
  match b, hlen with
  | [a0, a1, a2, a3, a4, a5, a6, a7, a8], _ =>
    refine ⟨a0, a1, a2, a3, a4, a5, a6, a7, a8, rfl, ?_⟩
    simp only [List.mem_cons, List.mem_singleton, forall_eq_or_imp, forall_eq] at hc
    simp only [List.not_mem_nil, false_implies, implies_true, and_true] at hc
    exact hc

theorem lineDone_iff {b : Board} (hb : ValidBoard b) {l : Nat × Nat × Nat}
    (hl : l ∈ lines) :
    lineDone b l = true ↔ (lineOf b BOT l = true ∨ lineOf b OPPONENT l = true) := by
  obtain ⟨a0, a1, a2, a3, a4, a5, a6, a7, a8, rfl, h0, h1, h2, h3, h4, h5, h6, h7, h8⟩ :=
    validBoard_cases hb
  simp only [lines, List.mem_cons, List.mem_singleton, List.not_mem_nil, or_false] at hl
  rcases hl with rfl | rfl | rfl | rfl | rfl | rfl | rfl | rfl <;>
    simp [lineDone, lineOf, BOT, OPPONENT] <;> omega

theorem lineOf_first {b : Board} {p : Nat} {l : Nat × Nat × Nat}
    (h : lineOf b p l = true) : b[l.1]? = some p := by
  simp [lineOf] at h
  exact h.1.1

theorem lineOf_set_of_ne {b : Board} {i x p : Nat} {l : Nat × Nat × Nat} (hx : x ≠ p)
    (h : lineOf (b.set i x) p l = true) : lineOf b p l = true := by
  have key : ∀ j : Nat, (b.set i x)[j]? = some p → b[j]? = some p := by
    intro j hj
    rw [List.getElem?_set] at hj
    split at hj
    · split at hj
      · exact absurd (Option.some.inj hj) hx
      · exact absurd hj (by simp)
    · exact hj
  simp only [lineOf, Bool.and_eq_true, decide_eq_true_eq] at h ⊢
  exact ⟨⟨key _ h.1.1, key _ h.1.2⟩, key _ h.2⟩

theorem hasLine_set_of_ne {b : Board} {i x p : Nat} (hx : x ≠ p)
    (h : hasLine (b.set i x) p = true) : hasLine b p = true := by
  simp only [hasLine, List.any_eq_true] at h ⊢
  obtain ⟨l, hl, hl2⟩ := h
  exact ⟨l, hl, lineOf_set_of_ne hx hl2⟩

namespace MinimaxOptimizado

theorem evaluateLoop_of_noMin {b : Board} (hb : ValidBoard b) (d : Int) :
    ∀ ls : List (Nat × Nat × Nat), (∀ l ∈ ls, l ∈ lines) →
      (∀ l ∈ ls, lineOf b OPPONENT l = false) →
      evaluateLoop b d ls = if ls.any (lineOf b BOT) = true then 100 - d else 0 := by
  intro ls
  induction ls with
  | nil => intro _ _; rfl
  | cons l rest ih =>
    intro hsub hno
    have ih' := ih (fun x hx => hsub x (List.mem_cons_of_mem _ hx))
      (fun x hx => hno x (List.mem_cons_of_mem _ hx))
    have hiff := lineDone_iff hb (hsub l (List.mem_cons_self _ _))
    have hl2 := hno l (List.mem_cons_self _ _)
    unfold evaluateLoop
    by_cases hd : lineDone b l = true
    · have h1 : lineOf b BOT l = true := by
        rcases hiff.mp hd with h | h
        · exact h
        · rw [hl2] at h; exact absurd h (by simp)
      rw [if_pos hd, if_pos (lineOf_first h1)]
      simp [List.any_cons, h1]
    · have h1 : lineOf b BOT l = false := by
        cases h : lineOf b BOT l
        · rfl
        · exact absurd (hiff.mpr (Or.inl h)) hd
      rw [if_neg hd, ih', List.any_cons, h1, Bool.false_or]

theorem evaluateLoop_of_noMax {b : Board} (hb : ValidBoard b) (d : Int) :
    ∀ ls : List (Nat × Nat × Nat), (∀ l ∈ ls, l ∈ lines) →
      (∀ l ∈ ls, lineOf b BOT l = false) →
      evaluateLoop b d ls = if ls.any (lineOf b OPPONENT) = true then d - 100 else 0 := by
  intro ls
  induction ls with
  | nil => intro _ _; rfl
  | cons l rest ih =>
    intro hsub hno
    have ih' := ih (fun x hx => hsub x (List.mem_cons_of_mem _ hx))
      (fun x hx => hno x (List.mem_cons_of_mem _ hx))
    have hiff := lineDone_iff hb (hsub l (List.mem_cons_self _ _))
    have hl1 := hno l (List.mem_cons_self _ _)
    unfold evaluateLoop
    by_cases hd : lineDone b l = true
    · have h2 : lineOf b OPPONENT l = true := by
        rcases hiff.mp hd with h | h
        · rw [hl1] at h; exact absurd h (by simp)
        · exact h
      have hne : ¬ (b[l.1]? = some BOT) := by
        rw [lineOf_first h2]; simp [BOT, OPPONENT]
      rw [if_pos hd, if_neg hne]
      simp [List.any_cons, h2]
    · have h2 : lineOf b OPPONENT l = false := by
        cases h : lineOf b OPPONENT l
        · rfl
        · exact absurd (hiff.mpr (Or.inr h)) hd
      rw [if_neg hd, ih', List.any_cons, h2, Bool.false_or]

theorem evaluate_pos_iff {b : Board} (hb : ValidBoard b)
    (hno : hasLine b OPPONENT = false) : 0 < evaluate b 0 ↔ hasLine b BOT = true := by
  have h := evaluateLoop_of_noMin hb 0 lines (fun _ h => h) (by
    intro l hl
    cases hc : lineOf b OPPONENT l
    · rfl
    · have : hasLine b OPPONENT = true := List.any_eq_true.mpr ⟨l, hl, hc⟩
      rw [hno] at this; exact absurd this (by simp))
  unfold evaluate hasLine
  rw [h]
  by_cases ha : lines.any (lineOf b BOT) = true <;> simp [ha]

theorem evaluate_neg_iff {b : Board} (hb : ValidBoard b)
    (hno : hasLine b BOT = false) : evaluate b 0 < 0 ↔ hasLine b OPPONENT = true := by
  have h := evaluateLoop_of_noMax hb 0 lines (fun _ h => h) (by
    intro l hl
    cases hc : lineOf b BOT l
    · rfl
    · have : hasLine b BOT = true := List.any_eq_true.mpr ⟨l, hl, hc⟩
      rw [hno] at this; exact absurd this (by simp))
  unfold evaluate hasLine
  rw [h]
  by_cases ha : lines.any (lineOf b OPPONENT) = true <;> simp [ha]

/-- On a valid board without a completed line, the test of the first loop of
`findBestMove` holds exactly at the cells that complete a line of the engine. -/
theorem winTest_iff {b : Board} (hb : ValidBoard b) (hno : NoLine b) (i : Nat) :
    (b[i]? = some 0 ∧ 0 < evaluate (b.set i BOT) 0) ↔ completes b BOT i = true := by
  have h2 : hasLine (b.set i BOT) OPPONENT = false := by
    cases hc : hasLine (b.set i BOT) OPPONENT
    · rfl
    · have := hasLine_set_of_ne (by decide) hc
      rw [hno.2] at this; exact absurd this (by simp)
  rw [evaluate_pos_iff (validBoard_set hb (by decide)) h2]
  simp [completes]

/-- On a valid board without a completed line, the test of the second loop of
`findBestMove` holds exactly at the cells that complete a line of the opponent. -/
theorem blockTest_iff {b : Board} (hb : ValidBoard b) (hno : NoLine b) (i : Nat) :
    (b[i]? = some 0 ∧ evaluate (b.set i OPPONENT) 0 < 0) ↔
      completes b OPPONENT i = true := by
  have h1 : hasLine (b.set i OPPONENT) BOT = false := by
    cases hc : hasLine (b.set i OPPONENT) BOT
    · rfl
    · have := hasLine_set_of_ne (by decide) hc
      rw [hno.1] at this; exact absurd this (by simp)
  rw [evaluate_neg_iff (validBoard_set hb (by decide)) h1]
  simp [completes]

theorem toString_cell {c : Nat} (h : c ≤ 2) : (toString c).data = [digit c] := by
  interval_cases c <;> rfl

theorem digit_inj {c d : Nat} (hc : c ≤ 2) (hd : d ≤ 2) (h : digit c = digit d) :
    c = d := by
  unfold digit at h
  interval_cases c <;> interval_cases d <;> first | rfl | exact absurd h (by decide)

theorem joinBoard_data : ∀ (b : Board), (∀ c ∈ b, c ≤ 2) →
    (joinBoard b).data = b.map digit := by
  intro b
  induction b with
  | nil => intro _; rfl
  | cons c rest ih =>
    intro h
    unfold joinBoard
    rw [String.data_append, toString_cell (h c (List.mem_cons_self _ _)),
      ih (fun x hx => h x (List.mem_cons_of_mem _ hx))]
    rfl

theorem map_digit_inj : ∀ (b1 b2 : Board), (∀ c ∈ b1, c ≤ 2) → (∀ c ∈ b2, c ≤ 2) →
    b1.map digit = b2.map digit → b1 = b2 := by
  intro b1
  induction b1 with
  | nil =>
    intro b2 _ _ h
    cases b2 with
    | nil => rfl
    | cons _ _ => simp at h
  | cons c rest ih =>
    intro b2 h1 h2 h
    cases b2 with
    | nil => simp at h
    | cons c2 rest2 =>
      simp only [List.map_cons, List.cons.injEq] at h
      have hc := digit_inj (h1 c (List.mem_cons_self _ _)) (h2 c2 (List.mem_cons_self _ _)) h.1
      have hr := ih rest2 (fun x hx => h1 x (List.mem_cons_of_mem _ hx))
        (fun x hx => h2 x (List.mem_cons_of_mem _ hx)) h.2
      rw [hc, hr]

theorem joinBoard_inj {b1 b2 : Board} (h1 : ∀ c ∈ b1, c ≤ 2) (h2 : ∀ c ∈ b2, c ≤ 2)
    (h : joinBoard b1 = joinBoard b2) : b1 = b2 := by
  apply map_digit_inj b1 b2 h1 h2
  rw [← joinBoard_data b1 h1, ← joinBoard_data b2 h2, h]

/-- Two valid boards with sides to move get the same key only when they are
the same board with the same side to move. -/
theorem getBoardKey_inj {b1 b2 : Board} {m1 m2 : Bool} (h1 : ValidBoard b1)
    (h2 : ValidBoard b2) (h : getBoardKey b1 m1 = getBoardKey b2 m2) :
    b1 = b2 ∧ m1 = m2 := by
  unfold getBoardKey at h
  have hd := congrArg String.data h
  rw [String.data_append, String.data_append, joinBoard_data b1 h1.2,
    joinBoard_data b2 h2.2] at hd
  have hlen : (b1.map digit).length = (b2.map digit).length := by
    simp [h1.1, h2.1]
  obtain ⟨ha, hb⟩ := List.append_inj hd hlen
  refine ⟨map_digit_inj b1 b2 h1.2 h2.2 ha, ?_⟩
  cases m1 <;> cases m2 <;> first | rfl | exact absurd hb (by decide)

theorem bookBoard_of_getOpeningMove {b : Board} (hb : ValidBoard b) {m : Nat}
    (h : getOpeningMove b = some m) : b ∈ bookBoards := by
  have hkeys : joinBoard b = "000000000" ∨ joinBoard b = "000020000" ∨
      joinBoard b = "200000000" ∨ joinBoard b = "020000000" ∨
      joinBoard b = "000000002" ∨ joinBoard b = "000000020" := by
    by_contra hne
    simp only [not_or] at hne
    obtain ⟨n1, n2, n3, n4, n5, n6⟩ := hne
    have e1 : (joinBoard b == "000000000") = false := beq_eq_false_iff_ne.mpr n1
    have e2 : (joinBoard b == "000020000") = false := beq_eq_false_iff_ne.mpr n2
    have e3 : (joinBoard b == "200000000") = false := beq_eq_false_iff_ne.mpr n3
    have e4 : (joinBoard b == "020000000") = false := beq_eq_false_iff_ne.mpr n4
    have e5 : (joinBoard b == "000000002") = false := beq_eq_false_iff_ne.mpr n5
    have e6 : (joinBoard b == "000000020") = false := beq_eq_false_iff_ne.mpr n6
    simp only [getOpeningMove, OPENING_BOOK, List.lookup, e1, e2, e3, e4, e5, e6] at h
    exact absurd h (by simp)
  have hinj : ∀ b0 : Board, ValidBoard b0 → joinBoard b = joinBoard b0 → b = b0 :=
    fun b0 h0 he => joinBoard_inj hb.2 h0.2 he
  unfold bookBoards
  rcases hkeys with h | h | h | h | h | h
  · have := hinj [0, 0, 0, 0, 0, 0, 0, 0, 0] (by decide) (by rw [h]; rfl)
    simp [this]
  · have := hinj [0, 0, 0, 0, 2, 0, 0, 0, 0] (by decide) (by rw [h]; rfl)
    simp [this]
  · have := hinj [2, 0, 0, 0, 0, 0, 0, 0, 0] (by decide) (by rw [h]; rfl)
    simp [this]
  · have := hinj [0, 2, 0, 0, 0, 0, 0, 0, 0] (by decide) (by rw [h]; rfl)
    simp [this]
  · have := hinj [0, 0, 0, 0, 0, 0, 0, 0, 2] (by decide) (by rw [h]; rfl)
    simp [this]
  · have := hinj [0, 0, 0, 0, 0, 0, 0, 2, 0] (by decide) (by rw [h]; rfl)
    simp [this]

theorem bookBoards_no_completes :
    ∀ b ∈ bookBoards, ∀ i ∈ List.range 9,
      completes b BOT i = false ∧ completes b OPPONENT i = false := by
  decide

theorem completes_lt {b : Board} (hb : ValidBoard b) {p i : Nat}
    (h : completes b p i = true) : i ∈ List.range 9 := by
  simp only [completes, Bool.and_eq_true, decide_eq_true_eq] at h
  exact List.mem_range.mpr (hb.1 ▸ (List.getElem?_eq_some.mp h.1).1)

theorem getOpeningMove_none_of_completes {b : Board} (hb : ValidBoard b) {p i : Nat}
    (hp : p = BOT ∨ p = OPPONENT) (h : completes b p i = true) :
    getOpeningMove b = none := by
  cases hg : getOpeningMove b with
  | none => rfl
  | some m =>
    have h1 := bookBoards_no_completes b (bookBoard_of_getOpeningMove hb hg) i
      (completes_lt hb h)
    rcases hp with rfl | rfl
    · rw [h1.1] at h; exact absurd h (by simp)
    · rw [h1.2] at h; exact absurd h (by simp)

end MinimaxOptimizado

/-! ## The faster presentation agrees with the embedding -/

namespace MinimaxOptimizado

theorem table_size_set (T : Table) (k : String) (v : Num) :
    (T.set k v).size = match T.get k with
      | some _ => T.size
      | none => T.size + 1 := by
  induction T with
  | nil => simp [Table.set, Table.get, Table.size]
  | cons e rest ih =>
    obtain ⟨k0, v0⟩ := e
    by_cases h : k0 = k
    · simp [Table.set, Table.get, Table.size, h]
    · simp only [Table.size] at ih
      simp only [Table.set, Table.get, Table.size, h, if_false, List.length_cons, ih]
      split <;> rfl

theorem trie_get_set : ∀ (k : List Nat) (t : Fast.Trie) (k' : List Nat) (m m' : Bool)
    (v : Num), (∀ c ∈ k, c ≤ 2) → (∀ c ∈ k', c ≤ 2) →
    (t.set k m v).get k' m' = if k' = k ∧ m' = m then some v else t.get k' m' := by
  intro k
  induction k with
  | nil =>
    intro t k' m m' v _ _
    cases t <;> cases k' <;> cases m <;> cases m' <;>
      simp [Fast.Trie.set, Fast.Trie.get]
    all_goals (split <;> rfl)
  | cons c cs ih =>
    intro t k' m m' v hk hk'
    have hc : c ≤ 2 := hk c (List.mem_cons_self _ _)
    have hcs : ∀ x ∈ cs, x ≤ 2 := fun x hx => hk x (List.mem_cons_of_mem _ hx)
    cases k' with
    | nil =>
      cases t <;> interval_cases c <;> simp [Fast.Trie.set, Fast.Trie.get]
    | cons c' cs' =>
      have hc' : c' ≤ 2 := hk' c' (List.mem_cons_self _ _)
      have hcs' : ∀ x ∈ cs', x ≤ 2 := fun x hx => hk' x (List.mem_cons_of_mem _ hx)
      cases t <;> interval_cases c <;> interval_cases c' <;>
        simp [Fast.Trie.set, Fast.Trie.get, ih _ _ _ _ _ hcs hcs']

theorem tRel_empty : TRel [] Fast.FTable.empty :=
  ⟨rfl, fun _ _ _ => rfl⟩

theorem tRel_put {T : Table} {F : Fast.FTable} {b : Board} (h : TRel T F)
    (hb : ValidBoard b) (m : Bool) (v : Num) :
    TRel (T.set (getBoardKey b m) v) (F.put b m v) := by
  constructor
  · rw [table_size_set, h.2 b m hb, h.1]
    rfl
  · intro b' m' hb'
    rw [table_get_set, h.2 b' m' hb']
    show _ = (F.1.set b m v).get b' m'
    rw [trie_get_set b F.1 b' m m' v hb.2 hb'.2]
    by_cases hk : getBoardKey b' m' = getBoardKey b m
    · have := getBoardKey_inj hb' hb hk
      rw [if_pos hk, if_pos this]
    · have hne : ¬ (b' = b ∧ m' = m) := fun ⟨h1, h2⟩ => hk (by rw [h1, h2])
      rw [if_neg hk, if_neg hne]

theorem tRel_clean {T : Table} {F : Fast.FTable} (h : TRel T F) :
    TRel (cleanTable T) (Fast.cleanTable F) := by
  unfold cleanTable Fast.cleanTable
  rw [h.1]
  split
  · exact tRel_empty
  · exact h

theorem nat_beq_decide (a b : Nat) : Nat.beq a b = decide (a = b) := by
  cases h : Nat.beq a b
  · have := Nat.ne_of_beq_eq_false h
    simp [this]
  · have := Nat.eq_of_beq_eq_true h
    simp [this]

theorem fast_evaluate_eq (b : Board) (d : Int) :
    Fast.evaluate b d = MinimaxOptimizado.evaluate b d := by
  unfold Fast.evaluate
  split
  · simp [evaluate, evaluateLoop, lines, lineDone, Fast.line, Fast.score, nat_beq_decide, BOT]
  · rfl

theorem fast_orderMoves_eq (b : Board) :
    Fast.orderMoves b = MinimaxOptimizado.orderMoves b := by
  unfold Fast.orderMoves
  split
  · simp [orderMoves, priorities, Fast.pick, nat_beq_decide, List.filter_cons]
  · rfl

end MinimaxOptimizado

namespace MinimaxOptimizado

theorem sim_maxLoop (call : Search) (call' : Fast.Search) (d : Int) (b : Board)
    (ms : List Nat) (hms : ∀ i ∈ ms, b[i]? = some 0)
    (hcall : ∀ i ∈ ms, ∀ T F α β, TRel T F →
      Sim (b.set i BOT) (call T (b.set i BOT) (d + 1) false α β)
        (call' F (b.set i BOT) (d + 1) false α β)) :
    ∀ T F me α β, TRel T F →
      Sim b (maxLoop call d ms T b me α β) (Fast.maxLoop call' d b ms F me α β) := by
  induction ms with
  | nil =>
    intro T F me α β hrel
    exact ⟨rfl, rfl, hrel⟩
  | cons i rest ih =>
    intro T F me α β hrel
    have hc := hcall i (List.mem_cons_self _ _) T F α β hrel
    have hres : (b.set i BOT).set i 0 = b := set_restore (hms i (List.mem_cons_self _ _))
    have ih' := ih (fun j hj => hms j (List.mem_cons_of_mem _ hj))
      (fun j hj => hcall j (List.mem_cons_of_mem _ hj))
    unfold maxLoop Fast.maxLoop
    rcases h1 : call T (b.set i BOT) (d + 1) false α β with _ | ⟨v, b1, T1⟩ <;>
      rcases h2 : call' F (b.set i BOT) (d + 1) false α β with _ | ⟨w, F1⟩ <;>
      rw [h1, h2] at hc
    · trivial
    · exact hc.elim
    · exact hc.elim
    · obtain ⟨hv, hb1, hrel1⟩ := hc
      subst hv hb1
      simp only [hres]
      by_cases hcut : Num.le β (Num.max α v) = true
      · rw [if_pos hcut, if_pos hcut]
        exact ⟨rfl, rfl, hrel1⟩
      · rw [if_neg hcut, if_neg hcut]
        exact ih' T1 F1 _ _ _ hrel1

theorem sim_minLoop (call : Search) (call' : Fast.Search) (d : Int) (b : Board)
    (ms : List Nat) (hms : ∀ i ∈ ms, b[i]? = some 0)
    (hcall : ∀ i ∈ ms, ∀ T F α β, TRel T F →
      Sim (b.set i OPPONENT) (call T (b.set i OPPONENT) (d + 1) true α β)
        (call' F (b.set i OPPONENT) (d + 1) true α β)) :
    ∀ T F me α β, TRel T F →
      Sim b (minLoop call d ms T b me α β) (Fast.minLoop call' d b ms F me α β) := by
  induction ms with
  | nil =>
    intro T F me α β hrel
    exact ⟨rfl, rfl, hrel⟩
  | cons i rest ih =>
    intro T F me α β hrel
    have hc := hcall i (List.mem_cons_self _ _) T F α β hrel
    have hres : (b.set i OPPONENT).set i 0 = b :=
      set_restore (hms i (List.mem_cons_self _ _))
    have ih' := ih (fun j hj => hms j (List.mem_cons_of_mem _ hj))
      (fun j hj => hcall j (List.mem_cons_of_mem _ hj))
    unfold minLoop Fast.minLoop
    rcases h1 : call T (b.set i OPPONENT) (d + 1) true α β with _ | ⟨v, b1, T1⟩ <;>
      rcases h2 : call' F (b.set i OPPONENT) (d + 1) true α β with _ | ⟨w, F1⟩ <;>
      rw [h1, h2] at hc
    · trivial
    · exact hc.elim
    · exact hc.elim
    · obtain ⟨hv, hb1, hrel1⟩ := hc
      subst hv hb1
      simp only [hres]
      by_cases hcut : Num.le (Num.min β v) α = true
      · rw [if_pos hcut, if_pos hcut]
        exact ⟨rfl, rfl, hrel1⟩
      · rw [if_neg hcut, if_neg hcut]
        exact ih' T1 F1 _ _ _ hrel1

/-- On a valid board and agreeing tables, the search of the embedding and the
faster search agree, with any bound on the nesting. -/
theorem sim_minimaxFuel : ∀ (fuel : Nat) (T : Table) (F : Fast.FTable) (b : Board)
    (d : Int) (m : Bool) (α β : Num), ValidBoard b → TRel T F →
    Sim b (minimaxFuel fuel T b d m α β) (Fast.minimaxFuel fuel F b d m α β) := by
  intro fuel
  induction fuel with
  | zero =>
    intro T F b d m α β _ _
    trivial
  | succ fuel ih =>
    intro T F b d m α β hb hrel
    unfold minimaxFuel Fast.minimaxFuel
    simp only [hrel.2 b m hb, fast_evaluate_eq, fast_orderMoves_eq]
    cases hget : F.1.get b m with
    | some stored => exact ⟨rfl, rfl, hrel⟩
    | none =>
      simp only []
      by_cases hterm : evaluate b d ≠ 0 ∨ isMovesLeft b = false
      · rw [if_pos hterm, if_pos hterm]
        exact ⟨rfl, rfl, tRel_put hrel hb m _⟩
      · rw [if_neg hterm, if_neg hterm]
        have hms : ∀ i ∈ orderMoves b, b[i]? = some 0 :=
          fun i hi => (mem_orderMoves.mp hi).2
        cases m with
        | true =>
          have hs := sim_maxLoop (minimaxFuel fuel) (Fast.minimaxFuel fuel) d b
            (orderMoves b) hms
            (fun i _ T F α β hr => ih T F (b.set i BOT) (d + 1) false α β
              (validBoard_set hb (by decide)) hr) T F Num.negInf α β hrel
          simp only [if_true]
          rcases h1 : maxLoop (minimaxFuel fuel) d (orderMoves b) T b Num.negInf α β
            with _ | ⟨v, b1, T1⟩ <;>
          rcases h2 : Fast.maxLoop (Fast.minimaxFuel fuel) d b (orderMoves b) F
            Num.negInf α β with _ | ⟨w, F1⟩ <;>
          rw [h1, h2] at hs
          · trivial
          · exact hs.elim
          · exact hs.elim
          · obtain ⟨hv, hb1, hrel1⟩ := hs
            subst hv hb1
            exact ⟨rfl, rfl, tRel_put hrel1 hb true _⟩
        | false =>
          have hs := sim_minLoop (minimaxFuel fuel) (Fast.minimaxFuel fuel) d b
            (orderMoves b) hms
            (fun i _ T F α β hr => ih T F (b.set i OPPONENT) (d + 1) true α β
              (validBoard_set hb (by decide)) hr) T F Num.posInf α β hrel
          simp only [Bool.false_eq_true, if_false]
          rcases h1 : minLoop (minimaxFuel fuel) d (orderMoves b) T b Num.posInf α β
            with _ | ⟨v, b1, T1⟩ <;>
          rcases h2 : Fast.minLoop (Fast.minimaxFuel fuel) d b (orderMoves b) F
            Num.posInf α β with _ | ⟨w, F1⟩ <;>
          rw [h1, h2] at hs
          · trivial
          · exact hs.elim
          · exact hs.elim
          · obtain ⟨hv, hb1, hrel1⟩ := hs
            subst hv hb1
            exact ⟨rfl, rfl, tRel_put hrel1 hb false _⟩

theorem sim_minimax (T : Table) (F : Fast.FTable) (b : Board) (d : Int) (m : Bool)
    (α β : Num) (hb : ValidBoard b) (hrel : TRel T F) :
    Sim b (minimax T b d m α β) (Fast.minimax F b d m α β) := by
  unfold minimax Fast.minimax
  simp only [fast_orderMoves_eq]
  exact sim_minimaxFuel _ T F b d m α β hb hrel

theorem sim_searchLoop (b : Board) (hb : ValidBoard b) : ∀ (ms : List Nat),
    (∀ i ∈ ms, b[i]? = some 0) → ∀ (T : Table) (F : Fast.FTable) (bv : Num) (bm : Int),
    TRel T F → Sim b (searchLoop ms T b bv bm) (Fast.searchLoop b ms F bv bm) := by
  intro ms
  induction ms with
  | nil =>
    intro _ T F bv bm hrel
    exact ⟨rfl, rfl, hrel⟩
  | cons i rest ih =>
    intro hms T F bv bm hrel
    have hc := sim_minimax T F (b.set i BOT) 0 false Num.negInf Num.posInf
      (validBoard_set hb (by decide)) hrel
    have hres : (b.set i BOT).set i 0 = b := set_restore (hms i (List.mem_cons_self _ _))
    have ih' := ih (fun j hj => hms j (List.mem_cons_of_mem _ hj))
    unfold searchLoop Fast.searchLoop
    rcases h1 : minimax T (b.set i BOT) 0 false Num.negInf Num.posInf
      with _ | ⟨v, b1, T1⟩ <;>
    rcases h2 : Fast.minimax F (b.set i BOT) 0 false Num.negInf Num.posInf
      with _ | ⟨w, F1⟩ <;>
    rw [h1, h2] at hc
    · trivial
    · exact hc.elim
    · exact hc.elim
    · obtain ⟨hv, hb1, hrel1⟩ := hc
      subst hv hb1
      simp only [hres]
      by_cases hcut : Num.le (Num.fin 90) v = true
      · rw [if_pos hcut, if_pos hcut]
        exact ⟨rfl, rfl, hrel1⟩
      · rw [if_neg hcut, if_neg hcut]
        exact ih' T1 F1 _ _ hrel1

/-- On a valid board and agreeing tables, the selector of the embedding and the
faster selector agree. -/
theorem sim_findBestMove (T : Table) (F : Fast.FTable) (b : Board) (hb : ValidBoard b)
    (hrel : TRel T F) : Sim b (findBestMove T b) (Fast.findBestMove F b) := by
  unfold findBestMove Fast.findBestMove
  cases getOpeningMove b with
  | some om => exact ⟨rfl, rfl, tRel_clean hrel⟩
  | none =>
    simp only []
    have hw := (winScan_spec 9 0 b).1
    rcases hws : winScan 9 0 b with ⟨_ | j, b1⟩
    · rw [hws] at hw
      simp only at hw
      subst hw
      simp only []
      have hbl := (blockScan_spec 9 0 b1).1
      rcases hbs : blockScan 9 0 b1 with ⟨_ | j, b2⟩
      · rw [hbs] at hbl
        simp only at hbl
        subst hbl
        simp only [fast_orderMoves_eq]
        exact sim_searchLoop b2 hb (orderMoves b2) (fun i hi => (mem_orderMoves.mp hi).2)
          _ _ _ _ (tRel_clean hrel)
      · rw [hbs] at hbl
        simp only at hbl
        subst hbl
        exact ⟨rfl, rfl, tRel_clean hrel⟩
    · rw [hws] at hw
      simp only at hw
      subst hw
      exact ⟨rfl, rfl, tRel_clean hrel⟩

theorem sim_callSeq : ∀ (bs : List Board), (∀ b ∈ bs, ValidBoard b) →
    ∀ (T : Table) (F : Fast.FTable), TRel T F →
    SimSeq (callSeq T bs) (Fast.callSeq F bs) := by
  intro bs
  induction bs with
  | nil =>
    intro _ T F hrel
    exact ⟨rfl, hrel⟩
  | cons b rest ih =>
    intro hbs T F hrel
    have hc := sim_findBestMove T F b (hbs b (List.mem_cons_self _ _)) hrel
    unfold callSeq Fast.callSeq
    rcases h1 : findBestMove T b with _ | ⟨v, b1, T1⟩ <;>
    rcases h2 : Fast.findBestMove F b with _ | ⟨w, F1⟩ <;>
    rw [h1, h2] at hc
    · trivial
    · exact hc.elim
    · exact hc.elim
    · obtain ⟨hv, _, hrel1⟩ := hc
      subst hv
      have hr := ih (fun x hx => hbs x (List.mem_cons_of_mem _ hx)) T1 F1 hrel1
      simp only []
      rcases h3 : callSeq T1 rest with _ | ⟨vs, T2⟩ <;>
      rcases h4 : Fast.callSeq F1 rest with _ | ⟨ws, F2⟩ <;>
      rw [h3, h4] at hr
      · trivial
      · exact hr.elim
      · exact hr.elim
      · exact ⟨by rw [hr.1], hr.2⟩

theorem sim_simulateGame : ∀ (n : Nat) (T : Table) (F : Fast.FTable) (b : Board)
    (turn : Nat), ValidBoard b → turn ≤ 2 → TRel T F →
    SimSeq (simulateGame n T b turn) (Fast.simulateGame n F b turn) := by
  intro n
  induction n with
  | zero =>
    intro T F b turn _ _ hrel
    exact ⟨rfl, hrel⟩
  | succ n ih =>
    intro T F b turn hb hturn hrel
    have hc := sim_findBestMove T F b hb hrel
    unfold simulateGame Fast.simulateGame
    by_cases hgo : isMovesLeft b = true ∧ MinimaxLogic.evaluate b = 0
    · rw [if_pos hgo, if_pos hgo]
      rcases h1 : findBestMove T b with _ | ⟨v, b1, T1⟩ <;>
      rcases h2 : Fast.findBestMove F b with _ | ⟨w, F1⟩ <;>
      rw [h1, h2] at hc
      · trivial
      · exact hc.elim
      · exact hc.elim
      · obtain ⟨hv, _, hrel1⟩ := hc
        subst hv
        simp only []
        by_cases hbad : v < 0 ∨ 8 < v ∨ b[v.toNat]? ≠ some 0
        · rw [if_pos hbad, if_pos hbad]
          trivial
        · rw [if_neg hbad, if_neg hbad]
          refine ih T1 F1 _ _ (validBoard_set hb hturn) ?_ hrel1
          split <;> decide
    · rw [if_neg hgo, if_neg hgo]
      exact ⟨rfl, hrel⟩

theorem simSeq_map_fst {α : Type} {r : Option (α × Table)} {r' : Option (α × Fast.FTable)}
    (h : SimSeq r r') : r.map Prod.fst = r'.map Prod.fst := by
  rcases r with _ | ⟨v, T⟩ <;> rcases r' with _ | ⟨w, F⟩
  · rfl
  · exact h.elim
  · exact h.elim
  · simp [h.1]

theorem sim_map_fst {α : Type} {b : Board} {r : Option (α × Board × Table)}
    {r' : Option (α × Fast.FTable)} (h : Sim b r r') :
    r.map Prod.fst = r'.map Prod.fst := by
  rcases r with _ | ⟨v, b1, T⟩ <;> rcases r' with _ | ⟨w, F⟩
  · rfl
  · exact h.elim
  · exact h.elim
  · simp [h.1]

/-- From the empty table, a sequence of calls on valid boards returns the
moves that the faster presentation returns. -/
theorem callSeq_eq_fast (bs : List Board) (hbs : ∀ b ∈ bs, ValidBoard b) :
    (callSeq [] bs).map Prod.fst = (Fast.callSeq Fast.FTable.empty bs).map Prod.fst :=
  simSeq_map_fst (sim_callSeq bs hbs [] Fast.FTable.empty tRel_empty)

/-- From the empty table, the self-play game ends on the board on which the
faster presentation ends. -/
theorem simulateGame_eq_fast (n : Nat) (b : Board) (turn : Nat) (hb : ValidBoard b)
    (hturn : turn ≤ 2) :
    (simulateGame n [] b turn).map Prod.fst =
      (Fast.simulateGame n Fast.FTable.empty b turn).map Prod.fst :=
  simSeq_map_fst (sim_simulateGame n [] Fast.FTable.empty b turn hb hturn tRel_empty)

/-- From the empty table, the search on a valid board returns the score that
the faster presentation returns. -/
theorem minimax_eq_fast (b : Board) (d : Int) (m : Bool) (α β : Num) (hb : ValidBoard b) :
    (minimax [] b d m α β).map Prod.fst =
      (Fast.minimax Fast.FTable.empty b d m α β).map Prod.fst :=
  sim_map_fst (sim_minimax [] Fast.FTable.empty b d m α β hb tRel_empty)

end MinimaxOptimizado

/-! ## The evaluator by cases, the move order and the records of the search -/

namespace MinimaxOptimizado

/-- On a valid board on which at most one player holds a completed line,
`evaluate` is `100 - depth` when the engine holds one, `depth - 100` when the
opponent holds one, and 0 when nobody does. -/
theorem evaluate_cases {b : Board} (hb : ValidBoard b) (d : Int)
    (hone : ¬(hasLine b BOT = true ∧ hasLine b OPPONENT = true)) :
    (hasLine b BOT = true → evaluate b d = 100 - d) ∧
    (hasLine b OPPONENT = true → evaluate b d = d - 100) ∧
    (hasLine b BOT = false → hasLine b OPPONENT = false → evaluate b d = 0) := by
  have noLineOf : ∀ p, hasLine b p = false → ∀ l ∈ lines, lineOf b p l = false := by
    intro p hp l hl
    cases hc : lineOf b p l
    · rfl
    · have : hasLine b p = true := List.any_eq_true.mpr ⟨l, hl, hc⟩
      rw [hp] at this
      exact absurd this (by simp)
  refine ⟨fun h1 => ?_, fun h2 => ?_, fun h1 h2 => ?_⟩
  · have h2 : hasLine b OPPONENT = false := by
      cases hc : hasLine b OPPONENT
      · rfl
      · exact absurd ⟨h1, hc⟩ hone
    have h := evaluateLoop_of_noMin hb d lines (fun _ h => h) (noLineOf _ h2)
    unfold hasLine at h1
    unfold evaluate
    rw [h, if_pos h1]
  · have h1 : hasLine b BOT = false := by
      cases hc : hasLine b BOT
      · rfl
      · exact absurd ⟨hc, h2⟩ hone
    have h := evaluateLoop_of_noMax hb d lines (fun _ h => h) (noLineOf _ h1)
    unfold hasLine at h2
    unfold evaluate
    rw [h, if_pos h2]
  · have h := evaluateLoop_of_noMin hb d lines (fun _ h => h) (noLineOf _ h2)
    unfold hasLine at h1
    unfold evaluate
    rw [h, h1]
    rfl

theorem priorities_mem_iff (i : Nat) : i ∈ priorities ↔ i < 9 := by
  unfold priorities
  constructor
  · intro h
    simp only [List.mem_cons, List.mem_singleton, List.not_mem_nil, or_false] at h
    omega
  · intro h
    interval_cases i <;> simp

theorem mem_orderMoves_iff {b : Board} (hb : ValidBoard b) (i : Nat) :
    i ∈ orderMoves b ↔ b[i]? = some 0 := by
  rw [mem_orderMoves]
  constructor
  · exact fun h => h.2
  · intro h
    exact ⟨(priorities_mem_iff i).mpr (hb.1 ▸ (List.getElem?_eq_some.mp h).1), h⟩

theorem count_zero_set {b : Board} {i x : Nat} (hi : b[i]? = some 0) (hx : x ≠ 0) :
    (b.set i x).count 0 + 1 = b.count 0 := by
  obtain ⟨hlt, hv⟩ := List.getElem?_eq_some.mp hi
  have hpos : 0 < b.count 0 := List.count_pos_iff.mpr (List.mem_iff_getElem?.mpr ⟨i, hi⟩)
  rw [List.count_set x 0 b i hlt, hv]
  simp [hx]
  omega

theorem orderMoves_length {b : Board} (hb : ValidBoard b) :
    (orderMoves b).length = b.count 0 := by
  obtain ⟨a0, a1, a2, a3, a4, a5, a6, a7, a8, rfl, _⟩ := validBoard_cases hb
  unfold orderMoves priorities
  rw [← List.countP_eq_length_filter]
  simp only [List.countP_cons, List.countP_nil, List.count_cons, List.count_nil]
  simp
  ring

theorem firstEmpty_eq_find (b : Board) (cs : List Nat) :
    firstEmpty b cs = cs.find? (fun m => decide (b[m]? = some 0)) := by
  induction cs with
  | nil => rfl
  | cons c rest ih =>
    unfold firstEmpty
    rw [List.find?_cons]
    by_cases h : b[c]? = some 0
    · simp [h]
    · simp [h, ih]

theorem lookup_of_mem {β : Type} : ∀ (l : List (String × β)) (k : String) (v : β),
    (l.map Prod.fst).Nodup → (k, v) ∈ l → l.lookup k = some v := by
  intro l
  induction l with
  | nil => intro k v _ h; simp at h
  | cons e rest ih =>
    intro k v hnd h
    obtain ⟨k0, v0⟩ := e
    simp only [List.map_cons, List.nodup_cons] at hnd
    rw [List.lookup_cons]
    rcases List.mem_cons.mp h with hhead | htail
    · injection hhead with h1 h2
      subst h1 h2
      simp
    · have hne : k ≠ k0 := by
        intro heq
        subst heq
        exact hnd.1 (List.mem_map.mpr ⟨(k, v), htail, rfl⟩)
      have hb : (k == k0) = false := beq_eq_false_iff_ne.mpr hne
      rw [hb]
      exact ih k v hnd.2 htail

theorem lookup_none_of_not_mem {β : Type} : ∀ (l : List (String × β)) (k : String),
    (∀ v, (k, v) ∉ l) → l.lookup k = none := by
  intro l
  induction l with
  | nil => intro k _; rfl
  | cons e rest ih =>
    intro k h
    obtain ⟨k0, v0⟩ := e
    rw [List.lookup_cons]
    have hne : k ≠ k0 := by
      intro heq
      subst heq
      exact h v0 (List.mem_cons_self _ _)
    have hb : (k == k0) = false := beq_eq_false_iff_ne.mpr hne
    rw [hb]
    exact ih k (fun v hv => h v (List.mem_cons_of_mem _ hv))

/-- Whatever the bound on the nesting, a search that returns has recorded the
score it returns under the key of its board and side. -/
theorem minimaxFuel_records {fuel : Nat} {T : Table} {b : Board} {d : Int} {m : Bool}
    {α β : Num} {v : Num} {b' : Board} {T' : Table}
    (h : minimaxFuel fuel T b d m α β = some (v, b', T')) :
    T'.get (getBoardKey b m) = some v := by
  cases fuel with
  | zero => simp [minimaxFuel] at h
  | succ fuel =>
    unfold minimaxFuel at h
    cases hget : T.get (getBoardKey b m) with
    | some stored =>
      rw [hget] at h
      simp only [Option.some.injEq, Prod.mk.injEq] at h
      obtain ⟨h1, _, h3⟩ := h
      subst h1 h3
      exact hget
    | none =>
      rw [hget] at h
      simp only [] at h
      split at h
      · simp only [Option.some.injEq, Prod.mk.injEq] at h
        obtain ⟨h1, _, h3⟩ := h
        subst h1 h3
        rw [table_get_set]
        simp
      · split at h
        · split at h
          · exact absurd h (by simp)
          · simp only [Option.some.injEq, Prod.mk.injEq] at h
            obtain ⟨h1, _, h3⟩ := h
            subst h1 h3
            rw [table_get_set]
            simp
        · split at h
          · exact absurd h (by simp)
          · simp only [Option.some.injEq, Prod.mk.injEq] at h
            obtain ⟨h1, _, h3⟩ := h
            subst h1 h3
            rw [table_get_set]
            simp

/-- A search that finds its key in the table returns the stored score without
any nested call (a bound of one level suffices) and leaves the table as it
was. -/
theorem minimaxFuel_hit {fuel : Nat} {T : Table} {b : Board} {d : Int} {m : Bool}
    {α β : Num} {s : Num} (h : T.get (getBoardKey b m) = some s) :
    minimaxFuel (fuel + 1) T b d m α β = some (s, b, T) := by
  unfold minimaxFuel
  rw [h]

end MinimaxOptimizado

/-! ## The bound on the nesting of the search -/

namespace MinimaxOptimizado

theorem maxLoop_mono (call call' : Search)
    (hmono : ∀ T b d m α β r, call T b d m α β = some r → call' T b d m α β = some r)
    (d : Int) : ∀ (ms : List Nat) (T : Table) (b : Board) (me α β : Num) (r : Result),
    maxLoop call d ms T b me α β = some r → maxLoop call' d ms T b me α β = some r := by
  intro ms
  induction ms with
  | nil => intro T b me α β r h; exact h
  | cons i rest ih =>
    intro T b me α β r h
    unfold maxLoop at h ⊢
    rcases hc : call T (b.set i BOT) (d + 1) false α β with _ | ⟨v, b1, T1⟩
    · rw [hc] at h
      exact absurd h (by simp)
    · rw [hc] at h
      rw [hmono _ _ _ _ _ _ _ hc]
      simp only [] at h ⊢
      split
      · rename_i hcut
        rw [if_pos hcut] at h
        exact h
      · rename_i hcut
        rw [if_neg hcut] at h
        exact ih _ _ _ _ _ _ h

theorem minLoop_mono (call call' : Search)
    (hmono : ∀ T b d m α β r, call T b d m α β = some r → call' T b d m α β = some r)
    (d : Int) : ∀ (ms : List Nat) (T : Table) (b : Board) (me α β : Num) (r : Result),
    minLoop call d ms T b me α β = some r → minLoop call' d ms T b me α β = some r := by
  intro ms
  induction ms with
  | nil => intro T b me α β r h; exact h
  | cons i rest ih =>
    intro T b me α β r h
    unfold minLoop at h ⊢
    rcases hc : call T (b.set i OPPONENT) (d + 1) true α β with _ | ⟨v, b1, T1⟩
    · rw [hc] at h
      exact absurd h (by simp)
    · rw [hc] at h
      rw [hmono _ _ _ _ _ _ _ hc]
      simp only [] at h ⊢
      split
      · rename_i hcut
        rw [if_pos hcut] at h
        exact h
      · rename_i hcut
        rw [if_neg hcut] at h
        exact ih _ _ _ _ _ _ h

/-- A search that returns within a bound on the nesting returns the same
within the next bound. -/
theorem minimaxFuel_succ : ∀ (fuel : Nat) (T : Table) (b : Board) (d : Int) (m : Bool)
    (α β : Num) (r : Result), minimaxFuel fuel T b d m α β = some r →
    minimaxFuel (fuel + 1) T b d m α β = some r := by
  intro fuel
  induction fuel with
  | zero => intro T b d m α β r h; simp [minimaxFuel] at h
  | succ fuel ih =>
    intro T b d m α β r h
    unfold minimaxFuel at h ⊢
    cases hget : T.get (getBoardKey b m) with
    | some stored => rw [hget] at h; exact h
    | none =>
      rw [hget] at h
      simp only [] at h ⊢
      split
      · rename_i hterm
        rw [if_pos hterm] at h
        exact h
      · rename_i hterm
        rw [if_neg hterm] at h
        cases m with
        | true =>
          simp only [if_true] at h ⊢
          rcases hl : maxLoop (minimaxFuel fuel) d (orderMoves b) T b Num.negInf α β
            with _ | ⟨v, b1, T1⟩
          · rw [hl] at h
            exact absurd h (by simp)
          · rw [hl] at h
            rw [maxLoop_mono _ _ ih d _ _ _ _ _ _ _ hl]
            exact h
        | false =>
          simp only [Bool.false_eq_true, if_false] at h ⊢
          rcases hl : minLoop (minimaxFuel fuel) d (orderMoves b) T b Num.posInf α β
            with _ | ⟨v, b1, T1⟩
          · rw [hl] at h
            exact absurd h (by simp)
          · rw [hl] at h
            rw [minLoop_mono _ _ ih d _ _ _ _ _ _ _ hl]
            exact h

theorem minimaxFuel_le {fuel fuel' : Nat} (hle : fuel ≤ fuel') (T : Table) (b : Board)
    (d : Int) (m : Bool) (α β : Num) (r : Result)
    (h : minimaxFuel fuel T b d m α β = some r) :
    minimaxFuel fuel' T b d m α β = some r := by
  induction hle with
  | refl => exact h
  | step _ ih => exact minimaxFuel_succ _ _ _ _ _ _ _ _ ih

/-- Any bound on the nesting above the number of cells listed by `orderMoves`
gives the result of `minimax`. -/
theorem minimaxFuel_eq_minimax {fuel : Nat} (T : Table) (b : Board) (d : Int) (m : Bool)
    (α β : Num) (hfuel : (orderMoves b).length < fuel) :
    minimaxFuel fuel T b d m α β = minimax T b d m α β := by
  obtain ⟨v, T', h, _⟩ := minimax_spec T b d m α β
  rw [h]
  exact minimaxFuel_le (by omega) T b d m α β _ h

end MinimaxOptimizado

namespace MinimaxLogic

theorem logic_maxLoop_mono (call call' : Board → Int → Bool → Num → Num → Option Result)
    (hmono : ∀ b d m α β r, call b d m α β = some r → call' b d m α β = some r)
    (d : Int) : ∀ (n i : Nat) (b : Board) (me α β : Num) (r : Result),
    maxLoop call d n i b me α β = some r → maxLoop call' d n i b me α β = some r := by
  intro n
  induction n with
  | zero => intro i b me α β r h; exact h
  | succ n ih =>
    intro i b me α β r h
    unfold maxLoop at h ⊢
    by_cases hc0 : b[i]? = some 0
    · rw [if_pos hc0] at h ⊢
      rcases hc : call (b.set i BOT) (d + 1) false α β with _ | ⟨v, b1⟩
      · rw [hc] at h
        exact absurd h (by simp)
      · rw [hc] at h
        rw [hmono _ _ _ _ _ _ hc]
        simp only [] at h ⊢
        split
        · rename_i hcut
          rw [if_pos hcut] at h
          exact h
        · rename_i hcut
          rw [if_neg hcut] at h
          exact ih _ _ _ _ _ _ h
    · rw [if_neg hc0] at h ⊢
      exact ih _ _ _ _ _ _ h

theorem logic_minLoop_mono (call call' : Board → Int → Bool → Num → Num → Option Result)
    (hmono : ∀ b d m α β r, call b d m α β = some r → call' b d m α β = some r)
    (d : Int) : ∀ (n i : Nat) (b : Board) (me α β : Num) (r : Result),
    minLoop call d n i b me α β = some r → minLoop call' d n i b me α β = some r := by
  intro n
  induction n with
  | zero => intro i b me α β r h; exact h
  | succ n ih =>
    intro i b me α β r h
    unfold minLoop at h ⊢
    by_cases hc0 : b[i]? = some 0
    · rw [if_pos hc0] at h ⊢
      rcases hc : call (b.set i OPPONENT) (d + 1) true α β with _ | ⟨v, b1⟩
      · rw [hc] at h
        exact absurd h (by simp)
      · rw [hc] at h
        rw [hmono _ _ _ _ _ _ hc]
        simp only [] at h ⊢
        split
        · rename_i hcut
          rw [if_pos hcut] at h
          exact h
        · rename_i hcut
          rw [if_neg hcut] at h
          exact ih _ _ _ _ _ _ h
    · rw [if_neg hc0] at h ⊢
      exact ih _ _ _ _ _ _ h

theorem logic_minimaxFuel_succ : ∀ (fuel : Nat) (b : Board) (d : Int) (m : Bool)
    (α β : Num) (r : Result), minimaxFuel fuel b d m α β = some r →
    minimaxFuel (fuel + 1) b d m α β = some r := by
  intro fuel
  induction fuel with
  | zero => intro b d m α β r h; simp [minimaxFuel] at h
  | succ fuel ih =>
    intro b d m α β r h
    unfold minimaxFuel at h ⊢
    simp only [] at h ⊢
    split
    · rename_i hs
      rw [if_pos hs] at h
      exact h
    · rename_i hs
      rw [if_neg hs] at h
      split
      · rename_i hml
        rw [if_pos hml] at h
        exact h
      · rename_i hml
        rw [if_neg hml] at h
        cases m with
        | true =>
          simp only [if_true] at h ⊢
          exact logic_maxLoop_mono _ _ ih d _ _ _ _ _ _ _ h
        | false =>
          simp only [Bool.false_eq_true, if_false] at h ⊢
          exact logic_minLoop_mono _ _ ih d _ _ _ _ _ _ _ h

theorem logic_minimaxFuel_le {fuel fuel' : Nat} (hle : fuel ≤ fuel') (b : Board)
    (d : Int) (m : Bool) (α β : Num) (r : Result)
    (h : minimaxFuel fuel b d m α β = some r) :
    minimaxFuel fuel' b d m α β = some r := by
  induction hle with
  | refl => exact h
  | step _ ih => exact logic_minimaxFuel_succ _ _ _ _ _ _ _ ih

theorem logic_minimaxFuel_eq_minimax {fuel : Nat} (b : Board) (d : Int) (m : Bool)
    (α β : Num) (hfuel : emptyCount b < fuel) :
    minimaxFuel fuel b d m α β = minimax b d m α β := by
  obtain ⟨v, h, _⟩ := logic_minimax_spec b d m α β
  rw [h]
  exact logic_minimaxFuel_le (by omega) b d m α β _ h

theorem emptyCount_eq_count {b : Board} (hb : ValidBoard b) :
    emptyCount b = b.count 0 := by
  obtain ⟨a0, a1, a2, a3, a4, a5, a6, a7, a8, rfl, _⟩ := validBoard_cases hb
  unfold emptyCount
  rw [← List.countP_eq_length_filter]
  simp only [List.range, List.range.loop, List.countP_cons, List.countP_nil,
    List.count_cons, List.count_nil]
  simp

end MinimaxLogic

/-! ## The table left by a call of the selector -/

namespace MinimaxOptimizado

/-- From the empty table, the table left by `findBestMove` on a valid board
holds for a valid board and a side what the table of the faster presentation
holds. -/
theorem findBestMove_get_fast (a b : Board) (m : Bool) (ha : ValidBoard a)
    (hb : ValidBoard b) :
    (findBestMove [] a).map (fun r => r.2.2.get (getBoardKey b m)) =
      (Fast.findBestMove Fast.FTable.empty a).map (fun r => r.2.1.get b m) := by
  have hs := sim_findBestMove [] Fast.FTable.empty a ha tRel_empty
  rcases h1 : findBestMove [] a with _ | ⟨v, b1, T1⟩ <;>
    rcases h2 : Fast.findBestMove Fast.FTable.empty a with _ | ⟨w, F1⟩ <;>
    rw [h1, h2] at hs
  · rfl
  · exact hs.elim
  · exact hs.elim
  · simp only [Option.map_some']
    rw [hs.2.2.2 b m hb]

end MinimaxOptimizado

/-! ## The range of the scores and the last loop of the selector -/

namespace Num

theorem lt_trans {a b c : Num} (h1 : lt a b = true) (h2 : lt b c = true) :
    lt a c = true := by
  cases a <;> cases b <;> cases c <;> simp_all [lt, le]
  omega

theorem lt_of_le_of_lt {a b c : Num} (h1 : le a b = true) (h2 : lt b c = true) :
    lt a c = true := by
  cases a <;> cases b <;> cases c <;> simp_all [lt, le]
  omega

theorem lt_of_lt_of_le {a b c : Num} (h1 : lt a b = true) (h2 : le b c = true) :
    lt a c = true := by
  cases a <;> cases b <;> cases c <;> simp_all [lt, le]
  omega

theorem le_of_not_lt {a b : Num} (h : ¬(lt a b = true)) : le b a = true := by
  cases hle : le b a
  · exact absurd (by simp [lt, hle]) h
  · rfl

theorem isFin_of_inRange {a : Num} (h : a.inRange = true) : a.isFin = true := by
  cases a <;> simp_all [inRange, isFin]

theorem inRange_max {a b : Num} (ha : a = negInf ∨ a.inRange = true)
    (hb : b.inRange = true) : (max a b).inRange = true := by
  rcases ha with ha | ha
  · subst ha
    simp [max, le, hb]
  · unfold max
    split <;> assumption

theorem inRange_min {a b : Num} (ha : a = posInf ∨ a.inRange = true)
    (hb : b.inRange = true) : (min a b).inRange = true := by
  rcases ha with ha | ha
  · subst ha
    cases b <;> simp_all [min, le, inRange]
  · unfold min
    split <;> assumption

theorem inRange_iff {a : Num} : a.inRange = true ↔
    ∃ n : Int, a = fin n ∧ (n = 0 ∨ (92 ≤ |n| ∧ |n| ≤ 100)) := by
  cases a with
  | negInf => simp [inRange]
  | posInf => simp [inRange]
  | fin n =>
    simp only [inRange, Bool.or_eq_true, Bool.and_eq_true, decide_eq_true_eq, fin.injEq,
      exists_eq_left']
    constructor
    · intro h
      rcases h with (h | h) | h
      · exact Or.inl h
      · exact Or.inr ⟨by rw [abs_of_nonneg (by omega)]; exact h.1,
          by rw [abs_of_nonneg (by omega)]; exact h.2⟩
      · exact Or.inr ⟨by rw [abs_of_nonpos (by omega)]; omega,
          by rw [abs_of_nonpos (by omega)]; omega⟩
    · intro h
      rcases h with h | ⟨h1, h2⟩
      · exact Or.inl (Or.inl h)
      · rcases abs_cases n with ⟨he, _⟩ | ⟨he, _⟩
        · rw [he] at h1 h2
          exact Or.inl (Or.inr ⟨h1, h2⟩)
        · rw [he] at h1 h2
          exact Or.inr ⟨by omega, by omega⟩

theorem le_ninety_iff {a : Num} (h : a.inRange = true) :
    le (fin 90) a = true ↔ lt (fin 0) a = true := by
  cases a with
  | negInf => simp [inRange] at h
  | posInf => simp [inRange] at h
  | fin n =>
    simp only [inRange, Bool.or_eq_true, Bool.and_eq_true, decide_eq_true_eq] at h
    simp only [le, lt, decide_eq_true_eq, Bool.not_eq_true', decide_eq_false_iff_not]
    omega

end Num

namespace MinimaxOptimizado

theorem evaluateLoop_three (b : Board) (d : Int) : ∀ ls : List (Nat × Nat × Nat),
    evaluateLoop b d ls = 0 ∨ evaluateLoop b d ls = 100 - d ∨
      evaluateLoop b d ls = d - 100 := by
  intro ls
  induction ls with
  | nil => exact Or.inl rfl
  | cons l rest ih =>
    unfold evaluateLoop
    split
    · split
      · exact Or.inr (Or.inl rfl)
      · exact Or.inr (Or.inr rfl)
    · exact ih

theorem evaluate_inRange (b : Board) {d : Int} (h0 : 0 ≤ d) (h8 : d ≤ 8) :
    (Num.fin (evaluate b d)).inRange = true := by
  simp only [Num.inRange, Bool.or_eq_true, Bool.and_eq_true, decide_eq_true_eq]
  rcases evaluateLoop_three b d lines with h | h | h <;> unfold evaluate <;> rw [h] <;> omega

theorem allInRange_nil : AllInRange [] := by
  intro k v h
  simp [Table.get] at h

theorem allInRange_set {T : Table} {k : String} {v : Num} (hT : AllInRange T)
    (hv : v.inRange = true) : AllInRange (T.set k v) := by
  intro k' v' h
  rw [table_get_set] at h
  by_cases hk : k' = k
  · simp [hk] at h; subst h; exact hv
  · simp [hk] at h; exact hT k' v' h

theorem allInRange_cleanTable {T : Table} (h : AllInRange T) :
    AllInRange (cleanTable T) := by
  unfold cleanTable
  split
  · exact allInRange_nil
  · exact h

theorem allFin_of_allInRange {T : Table} (h : AllInRange T) : AllFin T :=
  fun k v hk => Num.isFin_of_inRange (h k v hk)

theorem orderMoves_length_le (b : Board) : (orderMoves b).length ≤ 9 :=
  List.length_filter_le _ _

theorem maxLoop_range (call : Search) (d : Int) (b : Board) (ms : List Nat)
    (hms : ∀ i ∈ ms, b[i]? = some 0)
    (hcall : ∀ i ∈ ms, ∀ T α β, ∃ v T',
      call T (b.set i BOT) (d + 1) false α β = some (v, b.set i BOT, T') ∧
      (AllInRange T → v.inRange = true ∧ AllInRange T')) :
    ∀ T me α β, ∃ v T', maxLoop call d ms T b me α β = some (v, b, T') ∧
      (AllInRange T → (me = Num.negInf ∨ me.inRange = true) →
        (me.inRange = true ∨ ms ≠ []) → v.inRange = true ∧ AllInRange T') := by
  induction ms with
  | nil =>
    intro T me α β
    exact ⟨me, T, rfl, fun hT _ h => ⟨by simpa using h, hT⟩⟩
  | cons i rest ih =>
    intro T me α β
    obtain ⟨v, T1, hv, hr⟩ := hcall i (List.mem_cons_self _ _) T α β
    have hres : (b.set i BOT).set i 0 = b := set_restore (hms i (List.mem_cons_self _ _))
    have ih' := ih (fun j hj => hms j (List.mem_cons_of_mem _ hj))
      (fun j hj => hcall j (List.mem_cons_of_mem _ hj))
    simp only [maxLoop, hv, hres]
    split
    · exact ⟨_, _, rfl, fun hT hme _ => ⟨Num.inRange_max hme (hr hT).1, (hr hT).2⟩⟩
    · obtain ⟨v2, T2, h2, hr2⟩ := ih' T1 (Num.max me v) (Num.max α v) β
      exact ⟨v2, T2, h2, fun hT hme _ =>
        hr2 (hr hT).2 (Or.inr (Num.inRange_max hme (hr hT).1))
          (Or.inl (Num.inRange_max hme (hr hT).1))⟩

theorem minLoop_range (call : Search) (d : Int) (b : Board) (ms : List Nat)
    (hms : ∀ i ∈ ms, b[i]? = some 0)
    (hcall : ∀ i ∈ ms, ∀ T α β, ∃ v T',
      call T (b.set i OPPONENT) (d + 1) true α β = some (v, b.set i OPPONENT, T') ∧
      (AllInRange T → v.inRange = true ∧ AllInRange T')) :
    ∀ T me α β, ∃ v T', minLoop call d ms T b me α β = some (v, b, T') ∧
      (AllInRange T → (me = Num.posInf ∨ me.inRange = true) →
        (me.inRange = true ∨ ms ≠ []) → v.inRange = true ∧ AllInRange T') := by
  induction ms with
  | nil =>
    intro T me α β
    exact ⟨me, T, rfl, fun hT _ h => ⟨by simpa using h, hT⟩⟩
  | cons i rest ih =>
    intro T me α β
    obtain ⟨v, T1, hv, hr⟩ := hcall i (List.mem_cons_self _ _) T α β
    have hres : (b.set i OPPONENT).set i 0 = b :=
      set_restore (hms i (List.mem_cons_self _ _))
    have ih' := ih (fun j hj => hms j (List.mem_cons_of_mem _ hj))
      (fun j hj => hcall j (List.mem_cons_of_mem _ hj))
    simp only [minLoop, hv, hres]
    split
    · exact ⟨_, _, rfl, fun hT hme _ => ⟨Num.inRange_min hme (hr hT).1, (hr hT).2⟩⟩
    · obtain ⟨v2, T2, h2, hr2⟩ := ih' T1 (Num.min me v) α (Num.min β v)
      exact ⟨v2, T2, h2, fun hT hme _ =>
        hr2 (hr hT).2 (Or.inr (Num.inRange_min hme (hr hT).1))
          (Or.inl (Num.inRange_min hme (hr hT).1))⟩

/-- At a depth from 0 on a board of 9 cells whose empty cells leave the depth at
most 8, the search returns a score in the range and keeps the stored scores in
the range. -/
theorem minimaxFuel_range : ∀ (fuel : Nat) (T : Table) (b : Board) (d : Int) (m : Bool)
    (α β : Num), (orderMoves b).length < fuel → b.length = 9 → 0 ≤ d →
    d + (orderMoves b).length ≤ 8 →
    ∃ v T', minimaxFuel fuel T b d m α β = some (v, b, T') ∧
      (AllInRange T → v.inRange = true ∧ AllInRange T') := by
  intro fuel
  induction fuel with
  | zero => intro T b d m α β h; omega
  | succ fuel ih =>
    intro T b d m α β hfuel h9 h0 h8
    have hchild : ∀ (x : Nat), x ≠ 0 → ∀ i ∈ orderMoves b, ∀ (m' : Bool) T α β, ∃ v T',
        minimaxFuel fuel T (b.set i x) (d + 1) m' α β = some (v, b.set i x, T') ∧
        (AllInRange T → v.inRange = true ∧ AllInRange T') := by
      intro x hx i hi m' T α β
      have hlt := orderMoves_set_length hx hi
      exact ih T (b.set i x) (d + 1) m' α β (by omega)
        (by rw [List.length_set]; exact h9) (by omega) (by omega)
    unfold minimaxFuel
    cases hget : T.get (getBoardKey b m) with
    | some stored => exact ⟨stored, T, rfl, fun hT => ⟨hT _ _ hget, hT⟩⟩
    | none =>
      simp only []
      by_cases hterm : evaluate b d ≠ 0 ∨ isMovesLeft b = false
      · rw [if_pos hterm]
        have hin := evaluate_inRange b h0 (by omega : d ≤ 8)
        exact ⟨_, _, rfl, fun hT => ⟨hin, allInRange_set hT hin⟩⟩
      · rw [if_neg hterm]
        have hml : isMovesLeft b = true := by
          cases h : isMovesLeft b
          · exact absurd (Or.inr h) hterm
          · rfl
        cases m with
        | true =>
          obtain ⟨v, T1, hv, hr⟩ := maxLoop_range (minimaxFuel fuel) d b (orderMoves b)
            (fun i hi => (mem_orderMoves.mp hi).2)
            (fun i hi T α β => hchild BOT (by decide) i hi false T α β) T Num.negInf α β
          simp only [if_true, hv]
          refine ⟨v, _, rfl, fun hT => ?_⟩
          have h := hr hT (Or.inl rfl) (Or.inr (orderMoves_ne_nil h9 hml))
          exact ⟨h.1, allInRange_set h.2 h.1⟩
        | false =>
          obtain ⟨v, T1, hv, hr⟩ := minLoop_range (minimaxFuel fuel) d b (orderMoves b)
            (fun i hi => (mem_orderMoves.mp hi).2)
            (fun i hi T α β => hchild OPPONENT (by decide) i hi true T α β) T Num.posInf α β
          simp only [Bool.false_eq_true, if_false, hv]
          refine ⟨v, _, rfl, fun hT => ?_⟩
          have h := hr hT (Or.inl rfl) (Or.inr (orderMoves_ne_nil h9 hml))
          exact ⟨h.1, allInRange_set h.2 h.1⟩

/-- The call that the last loop of `findBestMove` makes for an empty cell of a
board of 9 cells returns a score in the range. -/
theorem minimax_candidate_range (T : Table) {b : Board} (h9 : b.length = 9) {i : Nat}
    (hi : i ∈ orderMoves b) :
    ∃ v T', minimax T (b.set i BOT) 0 false Num.negInf Num.posInf =
        some (v, b.set i BOT, T') ∧
      (AllInRange T → v.inRange = true ∧ AllInRange T') := by
  have hlt := orderMoves_set_length (x := BOT) (by decide) hi
  have hle := orderMoves_length_le b
  exact minimaxFuel_range _ T (b.set i BOT) 0 false Num.negInf Num.posInf
    (Nat.lt_succ_self _) (by rw [List.length_set]; exact h9) (le_refl _) (by omega)

theorem scoredMoves_cons (T : Table) {b : Board} {i : Nat} (rest : List Nat) {v : Num}
    {T1 : Table} (hi : b[i]? = some 0)
    (hv : minimax T (b.set i BOT) 0 false Num.negInf Num.posInf =
      some (v, b.set i BOT, T1)) :
    scoredMoves (i :: rest) T b =
      (i, v) :: (if Num.le (Num.fin 90) v = true then [] else scoredMoves rest T1 b) := by
  rw [scoredMoves, hv]
  simp only [set_restore hi]

theorem searchLoop_cons (T : Table) {b : Board} {i : Nat} (rest : List Nat) {v : Num}
    {T1 : Table} (bv : Num) (bm : Int) (hi : b[i]? = some 0)
    (hv : minimax T (b.set i BOT) 0 false Num.negInf Num.posInf =
      some (v, b.set i BOT, T1)) :
    searchLoop (i :: rest) T b bv bm =
      if Num.le (Num.fin 90) v = true then
        some (if Num.lt bv v = true then (i : Int) else bm, b, T1)
      else searchLoop rest T1 b (if Num.lt bv v = true then v else bv)
        (if Num.lt bv v = true then (i : Int) else bm) := by
  rw [searchLoop, hv]
  simp only [set_restore hi]

/-- With stored scores in the range and a best score so far below 90, the last
loop of `findBestMove` keeps the stored scores in the range, obtains scores in
the range, and on a score of at least 90 returns the cell just scored. -/
theorem searchLoop_range {b : Board} (h9 : b.length = 9) : ∀ (ms : List Nat),
    (∀ i ∈ ms, i ∈ orderMoves b) → ∀ (T : Table) (bv : Num) (bm : Int),
    AllInRange T → ¬(Num.le (Num.fin 90) bv = true) →
    ∃ m T', searchLoop ms T b bv bm = some (m, b, T') ∧ AllInRange T' ∧
      ∀ i v, (i, v) ∈ scoredMoves ms T b →
        v.inRange = true ∧ (Num.le (Num.fin 90) v = true → m = (i : Int)) := by
  intro ms
  induction ms with
  | nil =>
    intro _ T bv bm hT _
    exact ⟨bm, T, rfl, hT, fun i v h => by simp [scoredMoves] at h⟩
  | cons i rest ih =>
    intro hms T bv bm hT hbv
    have hi := hms i (List.mem_cons_self _ _)
    have hi0 := (mem_orderMoves.mp hi).2
    obtain ⟨v, T1, hv, hr⟩ := minimax_candidate_range T h9 hi
    obtain ⟨hvr, hT1⟩ := hr hT
    rw [searchLoop_cons T rest bv bm hi0 hv, scoredMoves_cons T rest hi0 hv]
    by_cases hcut : Num.le (Num.fin 90) v = true
    · rw [if_pos hcut, if_pos hcut]
      have hlt : Num.lt bv v = true :=
        Num.lt_of_lt_of_le (by simpa [Num.lt] using hbv) hcut
      rw [if_pos hlt]
      refine ⟨_, _, rfl, hT1, fun j w hjw => ?_⟩
      simp only [List.mem_singleton, Prod.mk.injEq] at hjw
      obtain ⟨hj, hw⟩ := hjw
      subst hj hw
      exact ⟨hvr, fun _ => rfl⟩
    · rw [if_neg hcut, if_neg hcut]
      have hbv' : ¬(Num.le (Num.fin 90) (if Num.lt bv v = true then v else bv) = true) := by
        split
        · exact hcut
        · exact hbv
      obtain ⟨m, T2, h2, hT2, hall⟩ := ih (fun j hj => hms j (List.mem_cons_of_mem _ hj))
        T1 _ (if Num.lt bv v = true then (i : Int) else bm) hT1 hbv'
      refine ⟨m, T2, h2, hT2, fun j w hjw => ?_⟩
      rcases List.mem_cons.mp hjw with hhead | htail
      · simp only [Prod.mk.injEq] at hhead
        obtain ⟨hj, hw⟩ := hhead
        subst hj hw
        exact ⟨hvr, fun h => absurd h hcut⟩
      · exact hall j w htail

/-- The selector keeps the stored scores in the range. -/
theorem findBestMove_range {T : Table} {b : Board} (hb : ValidBoard b) (hT : AllInRange T)
    {r : MoveResult} (h : findBestMove T b = some r) : AllInRange r.2.2 := by
  unfold findBestMove at h
  cases hbook : getOpeningMove b with
  | some om =>
    rw [hbook] at h
    simp only [Option.some.injEq] at h
    subst h
    exact allInRange_cleanTable hT
  | none =>
    rw [hbook] at h
    simp only [] at h
    have hw := (winScan_spec 9 0 b).1
    rcases hws : winScan 9 0 b with ⟨_ | j, b1⟩
    · rw [hws] at hw h
      simp only at hw h
      subst hw
      have hbl := (blockScan_spec 9 0 b1).1
      rcases hbs : blockScan 9 0 b1 with ⟨_ | j, b2⟩
      · rw [hbs] at hbl h
        simp only at hbl h
        subst hbl
        obtain ⟨m, T', h2, hT', _⟩ := searchLoop_range hb.1 (orderMoves b2)
          (fun i hi => hi) (cleanTable T) Num.negInf (-1) (allInRange_cleanTable hT)
          (by simp [Num.le])
        rw [h2] at h
        simp only [Option.some.injEq] at h
        subst h
        exact hT'
      · rw [hbs] at h
        simp only [Option.some.injEq] at h
        subst h
        exact allInRange_cleanTable hT
    · rw [hws] at h
      simp only [Option.some.injEq] at h
      subst h
      exact allInRange_cleanTable hT

theorem reachable_allInRange {T : Table} (h : Reachable T) : AllInRange T := by
  induction h with
  | start => exact allInRange_nil
  | clear => exact allInRange_nil
  | call T b r _ hb hr ih => exact findBestMove_range hb ih hr

/-- On a valid board and agreeing tables, the last loop of the selector obtains
the same scores in the embedding and in the faster presentation. -/
theorem scoredMoves_eq_fast (b : Board) (hb : ValidBoard b) : ∀ (ms : List Nat),
    (∀ i ∈ ms, b[i]? = some 0) → ∀ (T : Table) (F : Fast.FTable), TRel T F →
    scoredMoves ms T b = Fast.scoredMoves b ms F := by
  intro ms
  induction ms with
  | nil =>
    intro _ T F _
    rfl
  | cons i rest ih =>
    intro hms T F hrel
    have hc := sim_minimax T F (b.set i BOT) 0 false Num.negInf Num.posInf
      (validBoard_set hb (by decide)) hrel
    have hres : (b.set i BOT).set i 0 = b := set_restore (hms i (List.mem_cons_self _ _))
    have ih' := ih (fun j hj => hms j (List.mem_cons_of_mem _ hj))
    rw [scoredMoves, Fast.scoredMoves]
    rcases h1 : minimax T (b.set i BOT) 0 false Num.negInf Num.posInf
      with _ | ⟨v, b1, T1⟩ <;>
    rcases h2 : Fast.minimax F (b.set i BOT) 0 false Num.negInf Num.posInf
      with _ | ⟨w, F1⟩ <;>
    simp only [h1, h2] at hc ⊢
    · exact hc.elim
    · exact hc.elim
    · obtain ⟨hv, hb1, hrel1⟩ := hc
      subst hv hb1
      simp only [hres]
      rw [ih' T1 F1 hrel1]

end MinimaxOptimizado

/-! ## The choice of the last loop of the selector -/

namespace Num

theorem le_trans {a b c : Num} (h1 : le a b = true) (h2 : le b c = true) :
    le a c = true := by
  cases a <;> cases b <;> cases c <;> simp_all [le]
  omega

end Num

theorem getElem?_set_same {b : Board} {i c p : Nat} (h : b[c]? = some p) :
    (b.set i p)[c]? = some p := by
  rw [List.getElem?_set]
  split
  · rename_i hic
    subst hic
    simp [h, (List.getElem?_eq_some.mp h).1]
  · exact h

theorem hasLine_set_same {b : Board} (i : Nat) {p : Nat} (h : hasLine b p = true) :
    hasLine (b.set i p) p = true := by
  simp only [hasLine, List.any_eq_true] at h ⊢
  obtain ⟨l, hl, hline⟩ := h
  refine ⟨l, hl, ?_⟩
  simp only [lineOf, Bool.and_eq_true, decide_eq_true_eq] at hline ⊢
  exact ⟨⟨getElem?_set_same hline.1.1, getElem?_set_same hline.1.2⟩,
    getElem?_set_same hline.2⟩

/-- A board with an empty cell on which neither player completes a line in one
move holds no completed line. -/
theorem noLine_of_no_completes {b : Board} (hempty : (0 : Nat) ∈ b)
    (hwin : ∀ i, completes b BOT i = false)
    (hblock : ∀ i, completes b OPPONENT i = false) : NoLine b := by
  obtain ⟨i, hi⟩ := List.mem_iff_getElem?.mp hempty
  constructor
  · cases h : hasLine b BOT
    · rfl
    · have := hwin i
      simp [completes, hi, hasLine_set_same i h] at this
  · cases h : hasLine b OPPONENT
    · rfl
    · have := hblock i
      simp [completes, hi, hasLine_set_same i h] at this

namespace MinimaxOptimizado

theorem cleanTable_nil : cleanTable [] = [] := rfl

/-- The scores of the last loop of `findBestMove` are taken in the order of the
list of moves; only the last one can be 90 or more, and when none is, every
move of the list is scored. -/
theorem scoredMoves_shape {b : Board} (h9 : b.length = 9) : ∀ (ms : List Nat),
    (∀ i ∈ ms, i ∈ orderMoves b) → ∀ (T : Table),
    (scoredMoves ms T b).map Prod.fst <+: ms ∧
    ((∀ e ∈ scoredMoves ms T b, Num.le (Num.fin 90) e.2 = false) →
      (scoredMoves ms T b).map Prod.fst = ms) ∧
    (∀ pre e post, scoredMoves ms T b = pre ++ e :: post → post ≠ [] →
      Num.le (Num.fin 90) e.2 = false) ∧
    (ms ≠ [] → scoredMoves ms T b ≠ []) := by
  intro ms
  induction ms with
  | nil =>
    intro _ T
    refine ⟨by simp [scoredMoves], fun _ => by simp [scoredMoves], ?_, fun h => absurd rfl h⟩
    intro pre e post h
    simp [scoredMoves] at h
  | cons i rest ih =>
    intro hms T
    have hi := hms i (List.mem_cons_self _ _)
    have hi0 := (mem_orderMoves.mp hi).2
    obtain ⟨v, T1, hv, _⟩ := minimax_candidate_range T h9 hi
    rw [scoredMoves_cons T rest hi0 hv]
    by_cases hcut : Num.le (Num.fin 90) v = true
    · rw [if_pos hcut]
      refine ⟨⟨rest, rfl⟩, fun h => ?_, fun pre e post h hpost => ?_, fun _ => by simp⟩
      · have := h (i, v) (List.mem_singleton.mpr rfl)
        rw [hcut] at this
        exact absurd this (by simp)
      · cases pre with
        | nil =>
          simp only [List.nil_append, List.cons.injEq] at h
          exact absurd h.2.symm hpost
        | cons x pre1 =>
          simp at h
    · rw [if_neg hcut]
      obtain ⟨ih1, ih2, ih3, _⟩ := ih (fun j hj => hms j (List.mem_cons_of_mem _ hj)) T1
      refine ⟨?_, fun h => ?_, fun pre e post h hpost => ?_, fun _ => by simp⟩
      · simp only [List.map_cons]
        exact (List.prefix_cons_inj i).mpr ih1
      · simp only [List.map_cons]
        rw [ih2 (fun e he => h e (List.mem_cons_of_mem _ he))]
      · cases pre with
        | nil =>
          simp only [List.nil_append, List.cons.injEq] at h
          rw [← h.1]
          simpa using hcut
        | cons x pre1 =>
          simp only [List.cons_append, List.cons.injEq] at h
          exact ih3 pre1 e post h.2 hpost

/-- The last loop of `findBestMove` returns either the move it started with,
no score being above the score it started with, or the cell of the first of
the highest scores it obtained. -/
theorem searchLoop_best {b : Board} (h9 : b.length = 9) : ∀ (ms : List Nat),
    (∀ i ∈ ms, i ∈ orderMoves b) → ∀ (T : Table) (bv : Num) (bm : Int),
    ∃ m T', searchLoop ms T b bv bm = some (m, b, T') ∧
      ((m = bm ∧ ∀ e ∈ scoredMoves ms T b, Num.le e.2 bv = true) ∨
       (∃ (i : Nat) (v : Num) (pre post : List (Nat × Num)), m = (i : Int) ∧
          scoredMoves ms T b = pre ++ (i, v) :: post ∧ Num.lt bv v = true ∧
          (∀ e ∈ pre, Num.lt e.2 v = true) ∧ (∀ e ∈ post, Num.le e.2 v = true))) := by
  intro ms
  induction ms with
  | nil =>
    intro _ T bv bm
    exact ⟨bm, T, rfl, Or.inl ⟨rfl, fun e he => by simp [scoredMoves] at he⟩⟩
  | cons i rest ih =>
    intro hms T bv bm
    have hi := hms i (List.mem_cons_self _ _)
    have hi0 := (mem_orderMoves.mp hi).2
    obtain ⟨v, T1, hv, _⟩ := minimax_candidate_range T h9 hi
    have ih' := ih (fun j hj => hms j (List.mem_cons_of_mem _ hj)) T1
    rw [searchLoop_cons T rest bv bm hi0 hv, scoredMoves_cons T rest hi0 hv]
    by_cases hcut : Num.le (Num.fin 90) v = true
    · rw [if_pos hcut, if_pos hcut]
      refine ⟨_, _, rfl, ?_⟩
      by_cases hlt : Num.lt bv v = true
      · rw [if_pos hlt]
        exact Or.inr ⟨i, v, [], [], rfl, rfl, hlt, fun e he => by simp at he,
          fun e he => by simp at he⟩
      · rw [if_neg hlt]
        refine Or.inl ⟨rfl, fun e he => ?_⟩
        rw [List.mem_singleton.mp he]
        exact Num.le_of_not_lt hlt
    · rw [if_neg hcut, if_neg hcut]
      by_cases hlt : Num.lt bv v = true
      · rw [if_pos hlt, if_pos hlt]
        obtain ⟨m, T2, h2, hcase⟩ := ih' v (i : Int)
        refine ⟨m, T2, h2, Or.inr ?_⟩
        rcases hcase with ⟨hm, hall⟩ | ⟨j, w, pre, post, hm, htr, hvw, hpre, hpost⟩
        · exact ⟨i, v, [], _, hm, rfl, hlt, fun e he => by simp at he, hall⟩
        · refine ⟨j, w, (i, v) :: pre, post, hm, by rw [htr]; rfl,
            Num.lt_trans hlt hvw, fun e he => ?_, hpost⟩
          rcases List.mem_cons.mp he with hhead | htail
          · rw [hhead]; exact hvw
          · exact hpre e htail
      · rw [if_neg hlt, if_neg hlt]
        obtain ⟨m, T2, h2, hcase⟩ := ih' bv bm
        refine ⟨m, T2, h2, ?_⟩
        rcases hcase with ⟨hm, hall⟩ | ⟨j, w, pre, post, hm, htr, hvw, hpre, hpost⟩
        · refine Or.inl ⟨hm, fun e he => ?_⟩
          rcases List.mem_cons.mp he with hhead | htail
          · rw [hhead]; exact Num.le_of_not_lt hlt
          · exact hall e htail
        · refine Or.inr ⟨j, w, (i, v) :: pre, post, hm, by rw [htr]; rfl, hvw,
            fun e he => ?_, hpost⟩
          rcases List.mem_cons.mp he with hhead | htail
          · rw [hhead]; exact Num.lt_of_le_of_lt (Num.le_of_not_lt hlt) hvw
          · exact hpre e htail

/-- The move of one call follows from the moves of a sequence of one call. -/
theorem findBestMove_of_callSeq {T : Table} {b : Board} {m : Int}
    (h : (callSeq T [b]).map Prod.fst = some [m]) :
    (findBestMove T b).map Prod.fst = some m := by
  unfold callSeq at h
  rcases h1 : findBestMove T b with _ | ⟨m1, b1, T1⟩
  · rw [h1] at h
    exact absurd h (by simp)
  · rw [h1] at h
    simp [callSeq] at h
    simp [h]

end MinimaxOptimizado

/-! ## The entries of the table persist, and the book's boards -/

namespace MinimaxOptimizado

theorem key_ne_of_get {T : Table} {key k : String} {s : Num}
    (hnone : T.get key = none) (hk : T.get k = some s) : k ≠ key := by
  intro h
  subst h
  rw [hnone] at hk
  exact absurd hk (by simp)

theorem maxLoop_keeps (call : Search) (d : Int)
    (hcall : ∀ T b d m α β r, call T b d m α β = some r →
      ∀ k s, T.get k = some s → r.2.2.get k = some s) :
    ∀ (ms : List Nat) (T : Table) (b : Board) (me α β : Num) (r : Result),
      maxLoop call d ms T b me α β = some r →
      ∀ k s, T.get k = some s → r.2.2.get k = some s := by
  intro ms
  induction ms with
  | nil =>
    intro T b me α β r h k s hk
    simp only [maxLoop, Option.some.injEq] at h
    subst h
    exact hk
  | cons i rest ih =>
    intro T b me α β r h k s hk
    rw [maxLoop] at h
    rcases hc : call T (b.set i BOT) (d + 1) false α β with _ | ⟨v, b1, T1⟩
    · rw [hc] at h
      exact absurd h (by simp)
    · rw [hc] at h
      have h1 := hcall _ _ _ _ _ _ _ hc k s hk
      simp only [] at h h1
      split at h
      · simp only [Option.some.injEq] at h
        subst h
        exact h1
      · exact ih _ _ _ _ _ _ h k s h1

theorem minLoop_keeps (call : Search) (d : Int)
    (hcall : ∀ T b d m α β r, call T b d m α β = some r →
      ∀ k s, T.get k = some s → r.2.2.get k = some s) :
    ∀ (ms : List Nat) (T : Table) (b : Board) (me α β : Num) (r : Result),
      minLoop call d ms T b me α β = some r →
      ∀ k s, T.get k = some s → r.2.2.get k = some s := by
  intro ms
  induction ms with
  | nil =>
    intro T b me α β r h k s hk
    simp only [minLoop, Option.some.injEq] at h
    subst h
    exact hk
  | cons i rest ih =>
    intro T b me α β r h k s hk
    rw [minLoop] at h
    rcases hc : call T (b.set i OPPONENT) (d + 1) true α β with _ | ⟨v, b1, T1⟩
    · rw [hc] at h
      exact absurd h (by simp)
    · rw [hc] at h
      have h1 := hcall _ _ _ _ _ _ _ hc k s hk
      simp only [] at h h1
      split at h
      · simp only [Option.some.injEq] at h
        subst h
        exact h1
      · exact ih _ _ _ _ _ _ h k s h1

/-- The search keeps every entry that the table holds when it is called. -/
theorem minimaxFuel_keeps : ∀ (fuel : Nat) (T : Table) (b : Board) (d : Int) (m : Bool)
    (α β : Num) (r : Result), minimaxFuel fuel T b d m α β = some r →
    ∀ k s, T.get k = some s → r.2.2.get k = some s := by
  intro fuel
  induction fuel with
  | zero => intro T b d m α β r h; simp [minimaxFuel] at h
  | succ fuel ih =>
    intro T b d m α β r h k s hk
    rw [minimaxFuel] at h
    cases hget : T.get (getBoardKey b m) with
    | some stored =>
      rw [hget] at h
      simp only [Option.some.injEq] at h
      subst h
      exact hk
    | none =>
      have hne := key_ne_of_get hget hk
      rw [hget] at h
      simp only [] at h
      split at h
      · simp only [Option.some.injEq] at h
        subst h
        simp only []
        rw [table_get_set, if_neg hne]
        exact hk
      · split at h
        · rcases hl : maxLoop (minimaxFuel fuel) d (orderMoves b) T b Num.negInf α β
            with _ | ⟨v, b1, T1⟩
          · rw [hl] at h
            exact absurd h (by simp)
          · rw [hl] at h
            simp only [Option.some.injEq] at h
            subst h
            simp only []
            rw [table_get_set, if_neg hne]
            exact maxLoop_keeps _ d ih _ _ _ _ _ _ _ hl k s hk
        · rcases hl : minLoop (minimaxFuel fuel) d (orderMoves b) T b Num.posInf α β
            with _ | ⟨v, b1, T1⟩
          · rw [hl] at h
            exact absurd h (by simp)
          · rw [hl] at h
            simp only [Option.some.injEq] at h
            subst h
            simp only []
            rw [table_get_set, if_neg hne]
            exact minLoop_keeps _ d ih _ _ _ _ _ _ _ hl k s hk

theorem searchLoop_keeps : ∀ (ms : List Nat) (T : Table) (b : Board) (bv : Num) (bm : Int)
    (r : MoveResult), searchLoop ms T b bv bm = some r →
    ∀ k s, T.get k = some s → r.2.2.get k = some s := by
  intro ms
  induction ms with
  | nil =>
    intro T b bv bm r h k s hk
    simp only [searchLoop, Option.some.injEq] at h
    subst h
    exact hk
  | cons i rest ih =>
    intro T b bv bm r h k s hk
    rw [searchLoop] at h
    rcases hc : minimax T (b.set i BOT) 0 false Num.negInf Num.posInf with _ | ⟨v, b1, T1⟩
    · rw [hc] at h
      exact absurd h (by simp)
    · rw [hc] at h
      have h1 := minimaxFuel_keeps _ _ _ _ _ _ _ _ hc k s hk
      simp only [] at h h1
      split at h
      · simp only [Option.some.injEq] at h
        subst h
        exact h1
      · exact ih _ _ _ _ _ h k s h1

/-- The selector keeps every entry of the table as it is after the clean-up at
entry. -/
theorem findBestMove_keeps {T : Table} {b : Board} {r : MoveResult}
    (h : findBestMove T b = some r) :
    ∀ k s, (cleanTable T).get k = some s → r.2.2.get k = some s := by
  intro k s hk
  unfold findBestMove at h
  split at h
  · simp only [Option.some.injEq] at h
    subst h
    exact hk
  · split at h
    · simp only [Option.some.injEq] at h
      subst h
      exact hk
    · split at h
      · simp only [Option.some.injEq] at h
        subst h
        exact hk
      · exact searchLoop_keeps _ _ _ _ _ _ h k s hk

theorem findBestMove_cleanTable (T : Table) (b : Board) :
    findBestMove T b = findBestMove (cleanTable T) b := by
  have h : cleanTable (cleanTable T) = cleanTable T := by
    by_cases hs : 10000 < T.size
    · have h1 : cleanTable T = [] := by
        unfold cleanTable
        rw [if_pos hs]
      rw [h1]
      rfl
    · have h1 : cleanTable T = T := by
        unfold cleanTable
        rw [if_neg hs]
      rw [h1, h1]
  unfold findBestMove
  rw [h]

theorem bookBoards_shape : ∀ b ∈ bookBoards,
    b = [0, 0, 0, 0, 0, 0, 0, 0, 0] ∨ (b.count 2 = 1 ∧ b.count 1 = 0) := by
  decide

/-- The first move of a sequence of calls is the move of the first call. -/
theorem findBestMove_of_callSeq_cons {T : Table} {b : Board} {rest : List Board} {m : Int}
    {ms : List Int} (h : (callSeq T (b :: rest)).map Prod.fst = some (m :: ms)) :
    (findBestMove T b).map Prod.fst = some m := by
  rw [callSeq] at h
  rcases h1 : findBestMove T b with _ | ⟨m1, b1, T1⟩
  · rw [h1] at h
    exact absurd h (by simp)
  · rw [h1] at h
    simp only [] at h
    rcases h2 : callSeq T1 rest with _ | ⟨ms2, T2⟩
    · rw [h2] at h
      exact absurd h (by simp)
    · rw [h2] at h
      simp only [Option.map_some', Option.some.injEq, List.cons.injEq] at h
      simp [h.1]

end MinimaxOptimizado

/-! ## Alpha-beta pruning in `src/test/MinimaxLogic.js` returns the minimax value -/

namespace Num

theorem le_refl (a : Num) : le a a = true := by
  cases a <;> simp [le]

theorem max_negInf (a : Num) : max a negInf = a := by
  cases a <;> simp [max, le]

theorem min_posInf (a : Num) : min a posInf = a := by
  cases a <;> simp [min, le]

theorem max_assoc (a b c : Num) : max (max a b) c = max a (max b c) := by
  cases a <;> cases b <;> cases c <;> simp only [max, le] <;>
    (try split_ifs) <;> (try simp_all [le]) <;> (try omega)

theorem min_assoc (a b c : Num) : min (min a b) c = min a (min b c) := by
  cases a <;> cases b <;> cases c <;> simp only [min, le] <;>
    (try split_ifs) <;> (try simp_all [le]) <;> (try omega)

theorem le_max_left (a b : Num) : le a (max a b) = true := by
  cases a <;> cases b <;> simp only [max, le] <;> (try split_ifs) <;> (try simp_all [le])

theorem min_le_left (a b : Num) : le (min a b) a = true := by
  cases a <;> cases b <;> simp only [min, le] <;> (try split_ifs) <;>
    (try simp_all [le]) <;> omega

theorem max_fin (a b : Int) : max (fin a) (fin b) = fin (Max.max a b) := by
  simp only [max, le]
  rcases Int.le_total a b with h | h
  · simp [h]
  · by_cases hab : a ≤ b
    · have : a = b := Int.le_antisymm hab h
      simp [this]
    · simp [hab, h]

theorem min_fin (a b : Int) : min (fin a) (fin b) = fin (Min.min a b) := by
  simp only [min, le]
  rcases Int.le_total a b with h | h
  · simp [h]
  · by_cases hab : a ≤ b
    · have : a = b := Int.le_antisymm hab h
      simp [this]
    · simp [hab, h]

theorem lt_of_not_le {a b : Num} (h : ¬(le b a = true)) : lt a b = true := by
  simpa [lt] using h

end Num

theorem bounds_refl (α β v : Num) : Bounds α β v v :=
  ⟨fun _ => Num.le_refl v, fun _ => Num.le_refl v, fun _ _ => rfl⟩

theorem bounds_full {v : Num} {w : Int} (h : Bounds Num.negInf Num.posInf v (Num.fin w)) :
    v = Num.fin w := by
  unfold Bounds at h
  cases v <;> simp_all [Num.le, Num.lt]

/-- One round of the loop of the maximizer: the maximum so far keeps bounding
the maximum of the values so far. -/
theorem bounds_max_step {α0 β me M e : Num} {wc : Int}
    (hwin : Num.lt (Num.max α0 me) β = true)
    (hme : Bounds α0 β me M) (he : Bounds (Num.max α0 me) β e (Num.fin wc)) :
    Bounds α0 β (Num.max me e) (Num.max M (Num.fin wc)) := by
  unfold Bounds at *
  cases α0 <;> cases β <;> cases me <;> cases M <;> cases e <;>
    simp only [Num.le, Num.lt, Num.max, decide_eq_true_eq, Bool.not_eq_true',
      decide_eq_false_iff_not, Bool.not_true, Bool.not_false, Bool.false_eq_true,
      Bool.true_eq_false, if_true, if_false, ite_true, ite_false, Num.fin.injEq,
      false_implies, true_implies, implies_true, and_true, true_and, reduceCtorEq,
      not_le, not_lt, not_true_eq_false, not_false_eq_true, and_self] at * <;>
    (try split_ifs at * ) <;>
    (try simp only [Num.le, Num.lt, Num.max, decide_eq_true_eq, Bool.not_eq_true',
      decide_eq_false_iff_not, Bool.not_true, Bool.not_false, Bool.false_eq_true,
      Bool.true_eq_false, if_true, if_false, ite_true, ite_false, Num.fin.injEq,
      false_implies, true_implies, implies_true, and_true, true_and, reduceCtorEq,
      not_le, not_lt, not_true_eq_false, not_false_eq_true, and_self] at * ) <;>
    (try simp only [imp_false, not_le, not_lt] at * ) <;> (try omega)

/-- One round of the loop of the minimizer. -/
theorem bounds_min_step {α β0 me M e : Num} {wc : Int}
    (hwin : Num.lt α (Num.min β0 me) = true)
    (hme : Bounds α β0 me M) (he : Bounds α (Num.min β0 me) e (Num.fin wc)) :
    Bounds α β0 (Num.min me e) (Num.min M (Num.fin wc)) := by
  unfold Bounds at *
  cases α <;> cases β0 <;> cases me <;> cases M <;> cases e <;>
    simp only [Num.le, Num.lt, Num.min, decide_eq_true_eq, Bool.not_eq_true',
      decide_eq_false_iff_not, Bool.not_true, Bool.not_false, Bool.false_eq_true,
      Bool.true_eq_false, if_true, if_false, ite_true, ite_false, Num.fin.injEq,
      false_implies, true_implies, implies_true, and_true, true_and, reduceCtorEq,
      not_le, not_lt, not_true_eq_false, not_false_eq_true, and_self] at * <;>
    (try split_ifs at * ) <;>
    (try simp only [Num.le, Num.lt, Num.min, decide_eq_true_eq, Bool.not_eq_true',
      decide_eq_false_iff_not, Bool.not_true, Bool.not_false, Bool.false_eq_true,
      Bool.true_eq_false, if_true, if_false, ite_true, ite_false, Num.fin.injEq,
      false_implies, true_implies, implies_true, and_true, true_and, reduceCtorEq,
      not_le, not_lt, not_true_eq_false, not_false_eq_true, and_self] at * ) <;>
    (try simp only [imp_false, not_le, not_lt] at * ) <;> (try omega)

/-- After a cut-off of the maximizer the maximum so far bounds every value that
is at least the maximum of the values so far. -/
theorem bounds_max_cut {α0 β v M R : Num} (hwin : Num.lt α0 β = true)
    (hcut : Num.le β (Num.max α0 v) = true) (hv : Bounds α0 β v M)
    (hR : Num.le M R = true) : Bounds α0 β v R := by
  unfold Bounds at *
  cases α0 <;> cases β <;> cases v <;> cases M <;> cases R <;>
    simp only [Num.le, Num.lt, Num.max, decide_eq_true_eq, Bool.not_eq_true',
      decide_eq_false_iff_not, Bool.not_true, Bool.not_false, Bool.false_eq_true,
      Bool.true_eq_false, if_true, if_false, ite_true, ite_false, Num.fin.injEq,
      false_implies, true_implies, implies_true, and_true, true_and, reduceCtorEq,
      not_le, not_lt, not_true_eq_false, not_false_eq_true, and_self] at * <;>
    (try split_ifs at * ) <;>
    (try simp only [Num.le, Num.lt, Num.max, decide_eq_true_eq, Bool.not_eq_true',
      decide_eq_false_iff_not, Bool.not_true, Bool.not_false, Bool.false_eq_true,
      Bool.true_eq_false, if_true, if_false, ite_true, ite_false, Num.fin.injEq,
      false_implies, true_implies, implies_true, and_true, true_and, reduceCtorEq,
      not_le, not_lt, not_true_eq_false, not_false_eq_true, and_self] at * ) <;>
    (try simp only [imp_false, not_le, not_lt] at * ) <;> (try omega)

/-- After a cut-off of the minimizer. -/
theorem bounds_min_cut {α β0 v M R : Num} (hwin : Num.lt α β0 = true)
    (hcut : Num.le (Num.min β0 v) α = true) (hv : Bounds α β0 v M)
    (hR : Num.le R M = true) : Bounds α β0 v R := by
  unfold Bounds at *
  cases α <;> cases β0 <;> cases v <;> cases M <;> cases R <;>
    simp only [Num.le, Num.lt, Num.min, decide_eq_true_eq, Bool.not_eq_true',
      decide_eq_false_iff_not, Bool.not_true, Bool.not_false, Bool.false_eq_true,
      Bool.true_eq_false, if_true, if_false, ite_true, ite_false, Num.fin.injEq,
      false_implies, true_implies, implies_true, and_true, true_and, reduceCtorEq,
      not_le, not_lt, not_true_eq_false, not_false_eq_true, and_self] at * <;>
    (try split_ifs at * ) <;>
    (try simp only [Num.le, Num.lt, Num.min, decide_eq_true_eq, Bool.not_eq_true',
      decide_eq_false_iff_not, Bool.not_true, Bool.not_false, Bool.false_eq_true,
      Bool.true_eq_false, if_true, if_false, ite_true, ite_false, Num.fin.injEq,
      false_implies, true_implies, implies_true, and_true, true_and, reduceCtorEq,
      not_le, not_lt, not_true_eq_false, not_false_eq_true, and_self] at * ) <;>
    (try simp only [imp_false, not_le, not_lt] at * ) <;> (try omega)

theorem lt_of_max_lt {α0 me β : Num} (h : Num.lt (Num.max α0 me) β = true) :
    Num.lt α0 β = true :=
  Num.lt_of_le_of_lt (Num.le_max_left α0 me) h

theorem lt_of_lt_min {α β0 me : Num} (h : Num.lt α (Num.min β0 me) = true) :
    Num.lt α β0 = true :=
  Num.lt_of_lt_of_le h (Num.min_le_left β0 me)

theorem le_foldl_max (w : Nat → Int) : ∀ (cs : List Nat) (M : Num),
    Num.le M (cs.foldl (fun a c => Num.max a (Num.fin (w c))) M) = true := by
  intro cs
  induction cs with
  | nil => intro M; exact Num.le_refl M
  | cons c rest ih =>
    intro M
    exact Num.le_trans (Num.le_max_left M _) (ih _)

theorem foldl_min_le (w : Nat → Int) : ∀ (cs : List Nat) (M : Num),
    Num.le (cs.foldl (fun a c => Num.min a (Num.fin (w c))) M) M = true := by
  intro cs
  induction cs with
  | nil => intro M; exact Num.le_refl M
  | cons c rest ih =>
    intro M
    exact Num.le_trans (ih _) (Num.min_le_left M _)

theorem foldl_max_fin (w : Nat → Int) : ∀ (cs : List Nat) (x : Int),
    cs.foldl (fun a c => Num.max a (Num.fin (w c))) (Num.fin x) =
      Num.fin ((cs.map w).foldl max x) := by
  intro cs
  induction cs with
  | nil => intro x; rfl
  | cons c rest ih =>
    intro x
    simp only [List.foldl_cons, List.map_cons]
    rw [Num.max_fin, ih]

theorem foldl_min_fin (w : Nat → Int) : ∀ (cs : List Nat) (x : Int),
    cs.foldl (fun a c => Num.min a (Num.fin (w c))) (Num.fin x) =
      Num.fin ((cs.map w).foldl min x) := by
  intro cs
  induction cs with
  | nil => intro x; rfl
  | cons c rest ih =>
    intro x
    simp only [List.foldl_cons, List.map_cons]
    rw [Num.min_fin, ih]

namespace MinimaxLogic

/-- The loop of the maximizer over the cells from `i` on returns a score that
bounds the maximum of `M` and the values `w` of the empty cells it ranges
over, when its maximum so far bounds `M`. -/
theorem logic_maxLoop_bounds (call : Board → Int → Bool → Num → Num → Option Result)
    (d : Int) (b : Board) (w : Nat → Int) (β : Num)
    (hcall : ∀ j, b[j]? = some 0 → j < 9 → ∀ α, Num.lt α β = true → ∃ v,
      call (b.set j BOT) (d + 1) false α β = some (v, b.set j BOT) ∧
      Bounds α β v (Num.fin (w j))) :
    ∀ (n i : Nat) (me M α0 : Num), i + n ≤ 9 → Num.lt (Num.max α0 me) β = true →
      Bounds α0 β me M → ∃ v,
      maxLoop call d n i b me (Num.max α0 me) β = some (v, b) ∧
      Bounds α0 β v
        (((List.range' i n).filter (fun c => decide (b[c]? = some 0))).foldl
          (fun a c => Num.max a (Num.fin (w c))) M) := by
  intro n
  induction n with
  | zero =>
    intro i me M α0 _ _ hme
    exact ⟨me, rfl, hme⟩
  | succ n ih =>
    intro i me M α0 hin hwin hme
    rw [maxLoop, List.range'_succ]
    by_cases hc : b[i]? = some 0
    · rw [if_pos hc, List.filter_cons_of_pos (by simpa using hc), List.foldl_cons]
      obtain ⟨e, he, hbe⟩ := hcall i hc (by omega) _ hwin
      rw [he]
      simp only [set_restore hc]
      have hstep := bounds_max_step hwin hme hbe
      rw [Num.max_assoc]
      by_cases hcut : Num.le β (Num.max α0 (Num.max me e)) = true
      · rw [if_pos hcut]
        exact ⟨_, rfl, bounds_max_cut (lt_of_max_lt hwin) hcut hstep (le_foldl_max w _ _)⟩
      · rw [if_neg hcut]
        exact ih (i + 1) _ _ α0 (by omega) (Num.lt_of_not_le hcut) hstep
    · rw [if_neg hc, List.filter_cons_of_neg (by simpa using hc)]
      exact ih (i + 1) me M α0 (by omega) hwin hme

/-- The loop of the minimizer, likewise. -/
theorem logic_minLoop_bounds (call : Board → Int → Bool → Num → Num → Option Result)
    (d : Int) (b : Board) (w : Nat → Int) (α : Num)
    (hcall : ∀ j, b[j]? = some 0 → j < 9 → ∀ β, Num.lt α β = true → ∃ v,
      call (b.set j OPPONENT) (d + 1) true α β = some (v, b.set j OPPONENT) ∧
      Bounds α β v (Num.fin (w j))) :
    ∀ (n i : Nat) (me M β0 : Num), i + n ≤ 9 → Num.lt α (Num.min β0 me) = true →
      Bounds α β0 me M → ∃ v,
      minLoop call d n i b me α (Num.min β0 me) = some (v, b) ∧
      Bounds α β0 v
        (((List.range' i n).filter (fun c => decide (b[c]? = some 0))).foldl
          (fun a c => Num.min a (Num.fin (w c))) M) := by
  intro n
  induction n with
  | zero =>
    intro i me M β0 _ _ hme
    exact ⟨me, rfl, hme⟩
  | succ n ih =>
    intro i me M β0 hin hwin hme
    rw [minLoop, List.range'_succ]
    by_cases hc : b[i]? = some 0
    · rw [if_pos hc, List.filter_cons_of_pos (by simpa using hc), List.foldl_cons]
      obtain ⟨e, he, hbe⟩ := hcall i hc (by omega) _ hwin
      rw [he]
      simp only [set_restore hc]
      have hstep := bounds_min_step hwin hme hbe
      rw [Num.min_assoc]
      by_cases hcut : Num.le (Num.min β0 (Num.min me e)) α = true
      · rw [if_pos hcut]
        exact ⟨_, rfl, bounds_min_cut (lt_of_lt_min hwin) hcut hstep (foldl_min_le w _ _)⟩
      · rw [if_neg hcut]
        exact ih (i + 1) _ _ β0 (by omega) (Num.lt_of_not_le hcut) hstep
    · rw [if_neg hc, List.filter_cons_of_neg (by simpa using hc)]
      exact ih (i + 1) me M β0 (by omega) hwin hme

end MinimaxLogic

namespace MinimaxLogic

theorem foldl_max_negInf (w : Nat → Int) (c : Nat) (cs : List Nat) :
    (c :: cs).foldl (fun a c => Num.max a (Num.fin (w c))) Num.negInf =
      Num.fin ((cs.map w).foldl max (w c)) := by
  rw [List.foldl_cons, show Num.max Num.negInf (Num.fin (w c)) = Num.fin (w c) from rfl]
  exact foldl_max_fin w cs (w c)

theorem foldl_min_posInf (w : Nat → Int) (c : Nat) (cs : List Nat) :
    (c :: cs).foldl (fun a c => Num.min a (Num.fin (w c))) Num.posInf =
      Num.fin ((cs.map w).foldl min (w c)) := by
  rw [List.foldl_cons, show Num.min Num.posInf (Num.fin (w c)) = Num.fin (w c) from rfl]
  exact foldl_min_fin w cs (w c)

/-- The empty cells of a board of 9 cells, in the order of the loops. -/
theorem cells_eq {b : Board} (h9 : b.length = 9) :
    (List.range b.length).filter (fun c => decide (b[c]? = some 0)) =
      (List.range' 0 9).filter (fun c => decide (b[c]? = some 0)) := by
  rw [h9, List.range_eq_range']

theorem cells_ne_nil {b : Board} (h9 : b.length = 9) (hml : isMovesLeft b = true) :
    (List.range' 0 9).filter (fun c => decide (b[c]? = some 0)) ≠ [] := by
  obtain ⟨k, hk, hk0⟩ := exists_empty_of_isMovesLeft h9 hml
  intro h
  have : k ∈ (List.range' 0 9).filter (fun c => decide (b[c]? = some 0)) :=
    List.mem_filter.mpr ⟨by simp [List.mem_range']; omega, by simpa using hk0⟩
  rw [h] at this
  exact absurd this (by simp)

/-- With a window `α < β`, `minimax` of `MinimaxLogic.js` returns a score that
bounds the minimax value of the board: it is the value when it lies inside the
window, and is on the same side of the window as the value otherwise. -/
theorem logic_minimaxFuel_bounds : ∀ (fuel : Nat) (b : Board) (d : Int) (m : Bool)
    (α β : Num), emptyCount b < fuel → b.length = 9 → Num.lt α β = true →
    ∃ v, minimaxFuel fuel b d m α β = some (v, b) ∧
      Bounds α β v (Num.fin (plainValue fuel b m)) := by
  intro fuel
  induction fuel with
  | zero => intro b d m α β h; omega
  | succ fuel ih =>
    intro b d m α β hfuel h9 hwin
    have hchild : ∀ (x : Nat), x ≠ 0 → ∀ j, b[j]? = some 0 → j < 9 → ∀ (m' : Bool) α β,
        Num.lt α β = true →
        ∃ v, minimaxFuel fuel (b.set j x) (d + 1) m' α β = some (v, b.set j x) ∧
        Bounds α β v (Num.fin (plainValue fuel (b.set j x) m')) := by
      intro x hx j hj hj9 m' α β hw
      have hlt := emptyCount_set hx hj hj9
      exact ih (b.set j x) (d + 1) m' α β (by omega) (by rw [List.length_set]; exact h9) hw
    rw [minimaxFuel, plainValue]
    by_cases hs : evaluate b = 10 ∨ evaluate b = -10
    · rw [if_pos hs, if_pos hs]
      exact ⟨_, rfl, bounds_refl _ _ _⟩
    · rw [if_neg hs, if_neg hs]
      by_cases hml : isMovesLeft b = true
      · have hne := cells_ne_nil h9 hml
        rw [cells_eq h9]
        simp only [hml, Bool.not_true, Bool.false_eq_true, if_false, Bool.true_eq_false]
        cases m with
        | true =>
          obtain ⟨v, hv, hbv⟩ := logic_maxLoop_bounds (minimaxFuel fuel) d b
            (fun c => plainValue fuel (b.set c BOT) false) β
            (fun j hj hj9 α hw => hchild BOT (by decide) j hj hj9 false α β hw)
            9 0 Num.negInf Num.negInf α (by omega)
            (by rw [Num.max_negInf]; exact hwin) (bounds_refl _ _ _)
          rw [Num.max_negInf] at hv
          simp only [if_true, Bool.not_true]
          refine ⟨v, hv, ?_⟩
          rcases hcs : (List.range' 0 9).filter (fun c => decide (b[c]? = some 0))
            with _ | ⟨c, cs⟩
          · exact absurd hcs hne
          · rw [hcs, foldl_max_negInf] at hbv
            simpa using hbv
        | false =>
          obtain ⟨v, hv, hbv⟩ := logic_minLoop_bounds (minimaxFuel fuel) d b
            (fun c => plainValue fuel (b.set c OPPONENT) true) α
            (fun j hj hj9 β hw => hchild OPPONENT (by decide) j hj hj9 true α β hw)
            9 0 Num.posInf Num.posInf β (by omega)
            (by rw [Num.min_posInf]; exact hwin) (bounds_refl _ _ _)
          rw [Num.min_posInf] at hv
          simp only [Bool.false_eq_true, if_false, Bool.not_false]
          refine ⟨v, hv, ?_⟩
          rcases hcs : (List.range' 0 9).filter (fun c => decide (b[c]? = some 0))
            with _ | ⟨c, cs⟩
          · exact absurd hcs hne
          · rw [hcs, foldl_min_posInf] at hbv
            simpa using hbv
      · have hml' : isMovesLeft b = false := by
          cases h : isMovesLeft b
          · rfl
          · exact absurd h hml
        simp only [hml', Bool.not_false, if_true]
        exact ⟨_, rfl, bounds_refl _ _ _⟩

/-- With the full window, `minimax` of `MinimaxLogic.js` returns the minimax
value of the board, whatever the bound on the nesting above the number of
empty cells. -/
theorem logic_minimax_eq_plainValue {b : Board} (h9 : b.length = 9) (d : Int) (m : Bool)
    {fuel : Nat} (hfuel : emptyCount b < fuel) :
    minimax b d m Num.negInf Num.posInf = some (Num.fin (plainValue fuel b m), b) := by
  obtain ⟨v, hv, hbv⟩ := logic_minimaxFuel_bounds fuel b d m Num.negInf Num.posInf hfuel h9
    (by decide)
  rw [← logic_minimaxFuel_eq_minimax b d m _ _ hfuel, hv, bounds_full hbv]

/-- The minimax value does not depend on the bound on the nesting. -/
theorem plainValue_fuel {b : Board} (h9 : b.length = 9) (m : Bool) {fuel fuel' : Nat}
    (h1 : emptyCount b < fuel) (h2 : emptyCount b < fuel') :
    plainValue fuel b m = plainValue fuel' b m := by
  have e1 := logic_minimax_eq_plainValue h9 0 m h1
  have e2 := logic_minimax_eq_plainValue h9 0 m h2
  rw [e1] at e2
  simpa using e2

end MinimaxLogic

/-! ## The two evaluators, the depth argument and the window of the search -/

theorem evaluateLoop_ten (b : Board) : ∀ ls : List (Nat × Nat × Nat),
    MinimaxOptimizado.evaluateLoop b 0 ls = 10 * MinimaxLogic.evaluateLoop b ls := by
  intro ls
  induction ls with
  | nil => rfl
  | cons l rest ih =>
    unfold MinimaxOptimizado.evaluateLoop MinimaxLogic.evaluateLoop
    split
    · split <;> rfl
    · exact ih

/-- At depth 0 the evaluator of `minimaxOptimizado.js` is ten times the
evaluator of `MinimaxLogic.js`. -/
theorem evaluate_ten (b : Board) :
    MinimaxOptimizado.evaluate b 0 = 10 * MinimaxLogic.evaluate b :=
  evaluateLoop_ten b lines

theorem logic_evaluateLoop_three (b : Board) : ∀ ls : List (Nat × Nat × Nat),
    MinimaxLogic.evaluateLoop b ls = 0 ∨ MinimaxLogic.evaluateLoop b ls = 10 ∨
      MinimaxLogic.evaluateLoop b ls = -10 := by
  intro ls
  induction ls with
  | nil => exact Or.inl rfl
  | cons l rest ih =>
    unfold MinimaxLogic.evaluateLoop
    split
    · split
      · exact Or.inr (Or.inl rfl)
      · exact Or.inr (Or.inr rfl)
    · exact ih

theorem logic_evaluate_three (b : Board) :
    MinimaxLogic.evaluate b = 0 ∨ MinimaxLogic.evaluate b = 10 ∨
      MinimaxLogic.evaluate b = -10 :=
  logic_evaluateLoop_three b lines

namespace MinimaxLogic

theorem logic_maxLoop_depth (call : Board → Int → Bool → Num → Num → Option Result)
    (hcall : ∀ b d d' m α β, call b d m α β = call b d' m α β) (d d' : Int) :
    ∀ (n i : Nat) (b : Board) (me α β : Num),
      maxLoop call d n i b me α β = maxLoop call d' n i b me α β := by
  intro n
  induction n with
  | zero => intro i b me α β; rfl
  | succ n ih =>
    intro i b me α β
    rw [maxLoop, maxLoop, hcall (b.set i BOT) (d + 1) (d' + 1) false α β]
    split
    · split
      · rfl
      · simp only []
        split
        · rfl
        · exact ih _ _ _ _ _
    · exact ih _ _ _ _ _

theorem logic_minLoop_depth (call : Board → Int → Bool → Num → Num → Option Result)
    (hcall : ∀ b d d' m α β, call b d m α β = call b d' m α β) (d d' : Int) :
    ∀ (n i : Nat) (b : Board) (me α β : Num),
      minLoop call d n i b me α β = minLoop call d' n i b me α β := by
  intro n
  induction n with
  | zero => intro i b me α β; rfl
  | succ n ih =>
    intro i b me α β
    rw [minLoop, minLoop, hcall (b.set i OPPONENT) (d + 1) (d' + 1) true α β]
    split
    · split
      · rfl
      · simp only []
        split
        · rfl
        · exact ih _ _ _ _ _
    · exact ih _ _ _ _ _

/-- The search of `MinimaxLogic.js` does not look at its depth argument. -/
theorem logic_minimaxFuel_depth : ∀ (fuel : Nat) (b : Board) (d d' : Int) (m : Bool)
    (α β : Num), minimaxFuel fuel b d m α β = minimaxFuel fuel b d' m α β := by
  intro fuel
  induction fuel with
  | zero => intro b d d' m α β; rfl
  | succ fuel ih =>
    intro b d d' m α β
    rw [minimaxFuel, minimaxFuel]
    rw [logic_maxLoop_depth (minimaxFuel fuel) ih d d',
      logic_minLoop_depth (minimaxFuel fuel) ih d d']

end MinimaxLogic

namespace Num

theorem max_absorb {me α : Num} (e : Num) (h : le me α = true) :
    max α (max me e) = max α e := by
  cases me <;> cases α <;> cases e <;> simp [max, le] at h ⊢ <;>
    (try split_ifs) <;> (try simp_all) <;> (try omega)

theorem max_le_max {me α : Num} (e : Num) (h : le me α = true) :
    le (max me e) (max α e) = true := by
  cases me <;> cases α <;> cases e <;> simp [max, le] at h ⊢ <;>
    (try split_ifs) <;> (try simp_all [le]) <;> (try omega)

theorem min_absorb {me β : Num} (e : Num) (h : le β me = true) :
    min β (min me e) = min β e := by
  cases me <;> cases β <;> cases e <;> simp [min, le] at h ⊢ <;>
    (try split_ifs) <;> (try simp_all) <;> (try omega)

theorem min_le_min {me β : Num} (e : Num) (h : le β me = true) :
    le (min β e) (min me e) = true := by
  cases me <;> cases β <;> cases e <;> simp [min, le] at h ⊢ <;>
    (try split_ifs) <;> (try simp_all [le]) <;> (try omega)

end Num

namespace MinimaxOptimizado

/-- While the best so far is at most `alpha`, the loop of the code and the loop
of the specification take the same steps. -/
theorem specMaxLoop_eq (call : Search) (d : Int) : ∀ (ms : List Nat) (T : Table)
    (b : Board) (me α β : Num), Num.le me α = true →
    specMaxLoop call d ms T b me α β = maxLoop call d ms T b me α β := by
  intro ms
  induction ms with
  | nil => intro T b me α β _; rfl
  | cons i rest ih =>
    intro T b me α β h
    rw [specMaxLoop, maxLoop]
    rcases hc : call T (b.set i BOT) (d + 1) false α β with _ | ⟨e, b1, T1⟩
    · rfl
    · simp only [Num.max_absorb e h]
      split
      · rfl
      · exact ih _ _ _ _ _ (Num.max_le_max e h)

theorem specMinLoop_eq (call : Search) (d : Int) : ∀ (ms : List Nat) (T : Table)
    (b : Board) (me α β : Num), Num.le β me = true →
    specMinLoop call d ms T b me α β = minLoop call d ms T b me α β := by
  intro ms
  induction ms with
  | nil => intro T b me α β _; rfl
  | cons i rest ih =>
    intro T b me α β h
    rw [specMinLoop, minLoop]
    rcases hc : call T (b.set i OPPONENT) (d + 1) true α β with _ | ⟨e, b1, T1⟩
    · rfl
    · simp only [Num.min_absorb e h]
      split
      · rfl
      · exact ih _ _ _ _ _ (Num.min_le_min e h)

theorem specMinimaxFuel_eq : ∀ fuel : Nat, specMinimaxFuel fuel = minimaxFuel fuel := by
  intro fuel
  induction fuel with
  | zero => rfl
  | succ fuel ih =>
    funext T b d m α β
    rw [specMinimaxFuel, minimaxFuel, ih,
      specMaxLoop_eq (minimaxFuel fuel) d (orderMoves b) T b Num.negInf α β rfl,
      specMinLoop_eq (minimaxFuel fuel) d (orderMoves b) T b Num.posInf α β
        (by cases β <;> rfl)]

end MinimaxOptimizado

/-! ## The moves of `playMoves` -/

namespace TestUtils

theorem getElem?_set_other {b : Board} {x y t : Nat} (h : y ≠ x) :
    (b.set x t)[y]? = b[y]? := by
  rw [List.getElem?_set]
  simp [Ne.symm h]

theorem getElem?_set_self {b : Board} {x t : Nat} (h : b[x]? = some 0) :
    (b.set x t)[x]? = some t := by
  rw [List.getElem?_set]
  simp [(List.getElem?_eq_some.mp h).1]

theorem turnAt_succ {t : Nat} (ht : t = BOT ∨ t = OPPONENT) (k : Nat) :
    turnAt (if t = BOT then OPPONENT else BOT) k = turnAt t (k + 1) := by
  unfold turnAt
  rcases ht with h | h <;> subst h <;> rcases Nat.mod_two_eq_zero_or_one k with hk | hk <;>
    simp [hk, Nat.add_mod, BOT, OPPONENT]

theorem flip_player {t : Nat} (ht : t = BOT ∨ t = OPPONENT) :
    (if t = BOT then OPPONENT else BOT) = BOT ∨ (if t = BOT then OPPONENT else BOT) = OPPONENT := by
  rcases ht with h | h <;> subst h <;> simp [BOT, OPPONENT]

/-- Moves without repetition on empty cells are all played: each cell of a move
holds the player of that move and the other cells are as they were. -/
theorem playLoop_ok : ∀ (ms : List Nat) (b : Board) (t : Nat), (t = BOT ∨ t = OPPONENT) →
    ms.Nodup → (∀ x ∈ ms, b[x]? = some 0) →
    ∃ b', playLoop ms b t = Except.ok b' ∧ b'.length = b.length ∧
      (∀ k x, ms[k]? = some x → b'[x]? = some (turnAt t k)) ∧
      (∀ c, c ∉ ms → b'[c]? = b[c]?) := by
  intro ms
  induction ms with
  | nil =>
    intro b t _ _ _
    exact ⟨b, rfl, rfl, fun k x h => by simp at h, fun c _ => rfl⟩
  | cons x xs ih =>
    intro b t ht hnd hempty
    have hx := hempty x (List.mem_cons_self _ _)
    obtain ⟨hxn, hxs⟩ := List.nodup_cons.mp hnd
    obtain ⟨b', hb', hlen, hmoves, hrest⟩ := ih (b.set x t) _ (flip_player ht) hxs
      (fun y hy => by
        rw [getElem?_set_other (fun h => hxn (by rw [← h]; exact hy))]
        exact hempty y (List.mem_cons_of_mem _ hy))
    refine ⟨b', ?_, by rw [hlen, List.length_set], fun k y hk => ?_, fun c hc => ?_⟩
    · rw [playLoop, if_neg (by simpa using hx)]
      exact hb'
    · cases k with
      | zero =>
        simp only [List.getElem?_cons_zero, Option.some.injEq] at hk
        subst hk
        rw [hrest x hxn, getElem?_set_self hx]
        simp [turnAt]
      | succ k =>
        simp only [List.getElem?_cons_succ] at hk
        rw [hmoves k y hk, turnAt_succ ht]
    · have hcx : c ≠ x := fun h => hc (h ▸ List.mem_cons_self _ _)
      rw [hrest c (fun h => hc (List.mem_cons_of_mem _ h)), getElem?_set_other hcx]

/-- The first move onto an occupied cell, or onto the cell of an earlier move,
raises the error of that move. -/
theorem playLoop_error : ∀ (pre : List Nat) (b : Board) (t m : Nat) (post : List Nat),
    (t = BOT ∨ t = OPPONENT) → pre.Nodup → (∀ x ∈ pre, b[x]? = some 0) →
    (m ∈ pre ∨ b[m]? ≠ some 0) →
    playLoop (pre ++ m :: post) b t = Except.error (occupied m) := by
  intro pre
  induction pre with
  | nil =>
    intro b t m post _ _ _ h
    rcases h with h | h
    · simp at h
    · simp only [List.nil_append]
      rw [playLoop, if_pos h]
  | cons x xs ih =>
    intro b t m post ht hnd hempty h
    have hx := hempty x (List.mem_cons_self _ _)
    obtain ⟨hxn, hxs⟩ := List.nodup_cons.mp hnd
    have ht0 : t ≠ 0 := by rcases ht with h | h <;> subst h <;> decide
    simp only [List.cons_append]
    rw [playLoop, if_neg (by simpa using hx)]
    apply ih (b.set x t) _ m post (flip_player ht) hxs
    · intro y hy
      rw [getElem?_set_other (fun h => hxn (by rw [← h]; exact hy))]
      exact hempty y (List.mem_cons_of_mem _ hy)
    · rcases h with h | h
      · rcases List.mem_cons.mp h with hm | hm
        · right
          subst hm
          rw [getElem?_set_self hx]
          simpa using ht0
        · exact Or.inl hm
      · right
        have hmx : m ≠ x := fun hm => h (hm ▸ hx)
        rw [getElem?_set_other hmx]
        exact h

/-- A list with a repetition splits at its first repeated element. -/
theorem first_repeat : ∀ l : List Nat, ¬l.Nodup →
    ∃ pre m post, l = pre ++ m :: post ∧ pre.Nodup ∧ m ∈ pre := by
  intro l
  induction l with
  | nil => intro h; exact absurd List.nodup_nil h
  | cons x xs ih =>
    intro h
    by_cases hxs : xs.Nodup
    · have hx : x ∈ xs := by
        by_contra hx
        exact h (List.nodup_cons.mpr ⟨hx, hxs⟩)
      obtain ⟨p, q, hpq, hxp⟩ := List.eq_append_cons_of_mem hx
      refine ⟨x :: p, x, q, by rw [hpq]; rfl, List.nodup_cons.mpr ⟨hxp, ?_⟩,
        List.mem_cons_self _ _⟩
      rw [hpq] at hxs
      exact (List.nodup_append.mp hxs).1
    · obtain ⟨pre, m, post, hl, hpre, hm⟩ := ih hxs
      by_cases hx : x ∈ pre
      · obtain ⟨p, q, hpq, hxp⟩ := List.eq_append_cons_of_mem hx
        refine ⟨x :: p, x, q ++ m :: post, by rw [hl, hpq]; simp,
          List.nodup_cons.mpr ⟨hxp, ?_⟩, List.mem_cons_self _ _⟩
        rw [hpq] at hpre
        exact (List.nodup_append.mp hpre).1
      · exact ⟨x :: pre, m, post, by rw [hl]; rfl, List.nodup_cons.mpr ⟨hx, hpre⟩,
          List.mem_cons_of_mem _ hm⟩

theorem empty_getElem? {c : Nat} (h : c < 9) :
    ([0, 0, 0, 0, 0, 0, 0, 0, 0] : Board)[c]? = some 0 := by
  interval_cases c <;> rfl

end TestUtils

/-! ## The choice of the selector of `src/test/MinimaxLogic.js` -/

namespace MinimaxLogic

theorem emptyCount_le (b : Board) : emptyCount b ≤ 9 := by
  unfold emptyCount
  exact (List.length_filter_le _ _).trans (by simp)

theorem lt_nine_of_empty {b : Board} (h9 : b.length = 9) {j : Nat} (hj : b[j]? = some 0) :
    j < 9 :=
  h9 ▸ (List.getElem?_eq_some.mp hj).1

/-- The call that the selector makes for an empty cell returns the minimax value
of the board with the engine's marker on that cell, the opponent to move. -/
theorem logic_candidate_value {b : Board} (h9 : b.length = 9) (j : Nat) :
    minimax (b.set j BOT) 0 false Num.negInf Num.posInf =
      some (Num.fin (plainValue 10 (b.set j BOT) false), b.set j BOT) :=
  logic_minimax_eq_plainValue (by rw [List.length_set]; exact h9) 0 false
    (Nat.lt_succ_of_le (emptyCount_le _))

theorem fin_lt_iff (x y : Int) : Num.lt (Num.fin x) (Num.fin y) = true ↔ x < y := by
  simp [Num.lt, Num.le]

theorem fin_le_iff (x y : Int) : Num.le (Num.fin x) (Num.fin y) = true ↔ x ≤ y := by
  simp [Num.le]

/-- The loop of the selector returns either the move it started with, no value
being above the value it started with, or the first of the empty cells of the
highest value. -/
theorem bestLoop_argmax (b : Board) (h9 : b.length = 9) : ∀ (n i : Nat) (bv : Num)
    (bm : Int), ∃ m, bestLoop n i b bv bm = some (m, b) ∧
    ((m = bm ∧ ∀ k, i ≤ k → k < i + n → b[k]? = some 0 →
        Num.le (Num.fin (plainValue 10 (b.set k BOT) false)) bv = true) ∨
     (∃ k : Nat, m = (k : Int) ∧ i ≤ k ∧ k < i + n ∧ b[k]? = some 0 ∧
        Num.lt bv (Num.fin (plainValue 10 (b.set k BOT) false)) = true ∧
        (∀ j, i ≤ j → j < k → b[j]? = some 0 →
          plainValue 10 (b.set j BOT) false < plainValue 10 (b.set k BOT) false) ∧
        (∀ j, k < j → j < i + n → b[j]? = some 0 →
          plainValue 10 (b.set j BOT) false ≤ plainValue 10 (b.set k BOT) false))) := by
  intro n
  induction n with
  | zero =>
    intro i bv bm
    exact ⟨bm, rfl, Or.inl ⟨rfl, fun k h1 h2 => by omega⟩⟩
  | succ n ih =>
    intro i bv bm
    rw [bestLoop]
    by_cases hc : b[i]? = some 0
    · rw [if_pos hc, logic_candidate_value h9 i]
      simp only [set_restore hc]
      by_cases hlt : Num.lt bv (Num.fin (plainValue 10 (b.set i BOT) false)) = true
      · rw [if_pos hlt]
        obtain ⟨m, hm, hcase⟩ := ih (i + 1) (Num.fin (plainValue 10 (b.set i BOT) false)) i
        refine ⟨m, hm, Or.inr ?_⟩
        rcases hcase with ⟨hmi, hall⟩ | ⟨k, hmk, hik, hkn, hk0, hvk, hpre, hpost⟩
        · exact ⟨i, hmi, le_refl _, by omega, hc, hlt, fun j h1 h2 => by omega,
            fun j h1 h2 hj => (fin_le_iff _ _).mp (hall j (by omega) (by omega) hj)⟩
        · refine ⟨k, hmk, by omega, by omega, hk0, Num.lt_trans hlt hvk,
            fun j h1 h2 hj => ?_, fun j h1 h2 hj => hpost j h1 (by omega) hj⟩
          rcases Nat.eq_or_lt_of_le h1 with he | hl
          · subst he
            exact (fin_lt_iff _ _).mp hvk
          · exact hpre j (by omega) h2 hj
      · rw [if_neg hlt]
        have hle := Num.le_of_not_lt hlt
        obtain ⟨m, hm, hcase⟩ := ih (i + 1) bv bm
        refine ⟨m, hm, ?_⟩
        rcases hcase with ⟨hmb, hall⟩ | ⟨k, hmk, hik, hkn, hk0, hvk, hpre, hpost⟩
        · refine Or.inl ⟨hmb, fun k h1 h2 hk => ?_⟩
          rcases Nat.eq_or_lt_of_le h1 with he | hl
          · subst he
            exact hle
          · exact hall k (by omega) (by omega) hk
        · refine Or.inr ⟨k, hmk, by omega, by omega, hk0, hvk,
            fun j h1 h2 hj => ?_, fun j h1 h2 hj => hpost j h1 (by omega) hj⟩
          rcases Nat.eq_or_lt_of_le h1 with he | hl
          · subst he
            exact (fin_lt_iff _ _).mp (Num.lt_of_le_of_lt hle hvk)
          · exact hpre j (by omega) h2 hj
    · rw [if_neg hc]
      obtain ⟨m, hm, hcase⟩ := ih (i + 1) bv bm
      refine ⟨m, hm, ?_⟩
      rcases hcase with ⟨hmb, hall⟩ | ⟨k, hmk, hik, hkn, hk0, hvk, hpre, hpost⟩
      · refine Or.inl ⟨hmb, fun k h1 h2 hk => ?_⟩
        rcases Nat.eq_or_lt_of_le h1 with he | hl
        · subst he
          exact absurd hk hc
        · exact hall k (by omega) (by omega) hk
      · refine Or.inr ⟨k, hmk, by omega, by omega, hk0, hvk,
          fun j h1 h2 hj => ?_, fun j h1 h2 hj => hpost j h1 (by omega) hj⟩
        rcases Nat.eq_or_lt_of_le h1 with he | hl
        · subst he
          exact absurd hj hc
        · exact hpre j (by omega) h2 hj

/-- On a board of 9 cells with an empty cell, the selector returns the lowest
empty cell among those of the highest minimax value. -/
theorem logic_findBestMove_argmax {b : Board} (h9 : b.length = 9)
    (hml : isMovesLeft b = true) :
    ∃ i : Nat, findBestMove b = some ((i : Int), b) ∧ b[i]? = some 0 ∧
      (∀ j, b[j]? = some 0 →
        plainValue 10 (b.set j BOT) false ≤ plainValue 10 (b.set i BOT) false) ∧
      (∀ j, b[j]? = some 0 → j < i →
        plainValue 10 (b.set j BOT) false < plainValue 10 (b.set i BOT) false) := by
  obtain ⟨m, hm, hcase⟩ := bestLoop_argmax b h9 9 0 Num.negInf (-1)
  obtain ⟨k0, hk9, hk0⟩ := exists_empty_of_isMovesLeft h9 hml
  rcases hcase with ⟨_, hall⟩ | ⟨k, hmk, _, hkn, hk, _, hpre, hpost⟩
  · have := hall k0 (by omega) (by omega) hk0
    simp [Num.le] at this
  · refine ⟨k, by rw [← hmk]; exact hm, hk, fun j hj => ?_, fun j hj hjk =>
      hpre j (by omega) hjk hj⟩
    have hj9 := lt_nine_of_empty h9 hj
    rcases Nat.lt_trichotomy j k with h | h | h
    · exact le_of_lt (hpre j (by omega) h hj)
    · subst h
      exact le_refl _
    · exact hpost j h (by omega) hj

/-- A cell is the one the selector returns when its value reaches a threshold
that no lower empty cell reaches and no higher empty cell exceeds. -/
theorem logic_findBestMove_eq {b : Board} (h9 : b.length = 9) {i : Nat}
    (hi : b[i]? = some 0) (t : Int) (h0 : t ≤ plainValue 10 (b.set i BOT) false)
    (hlow : ∀ j, j < i → b[j]? = some 0 → plainValue 10 (b.set j BOT) false < t)
    (hhigh : ∀ j, i < j → b[j]? = some 0 → plainValue 10 (b.set j BOT) false ≤ t) :
    findBestMove b = some ((i : Int), b) := by
  obtain ⟨k, hk, hk0, hmax, hfirst⟩ :=
    logic_findBestMove_argmax h9 (isMovesLeft_iff.mpr (mem_zero_of_getElem? hi))
  rcases Nat.lt_trichotomy k i with h | h | h
  · have h1 := hlow k h hk0
    have h2 := hmax i hi
    omega
  · subst h
    exact hk
  · have h1 := hhigh k h hk0
    have h2 := hfirst i hi h
    omega

end MinimaxLogic

/-! ## Bounds on the minimax value by search -/

namespace MinimaxLogic

theorem le_foldl_max_self : ∀ (vs : List Int) (v : Int), v ≤ vs.foldl max v := by
  intro vs
  induction vs with
  | nil => intro v; exact le_refl v
  | cons x xs ih => intro v; exact le_trans (le_max_left v x) (ih (max v x))

theorem le_foldl_max_of_mem : ∀ (vs : List Int) (v x : Int), x ∈ vs → x ≤ vs.foldl max v := by
  intro vs
  induction vs with
  | nil => intro v x h; simp at h
  | cons y ys ih =>
    intro v x h
    rcases List.mem_cons.mp h with hxy | hxy
    · subst hxy
      exact le_trans (le_max_right v x) (le_foldl_max_self ys (max v x))
    · exact ih (max v y) x hxy

theorem foldl_max_le : ∀ (vs : List Int) (v t : Int), v ≤ t → (∀ x ∈ vs, x ≤ t) →
    vs.foldl max v ≤ t := by
  intro vs
  induction vs with
  | nil => intro v t h _; exact h
  | cons y ys ih =>
    intro v t h hall
    exact ih (max v y) t (max_le h (hall y (List.mem_cons_self _ _)))
      (fun x hx => hall x (List.mem_cons_of_mem _ hx))

theorem foldl_min_le_self : ∀ (vs : List Int) (v : Int), vs.foldl min v ≤ v := by
  intro vs
  induction vs with
  | nil => intro v; exact le_refl v
  | cons x xs ih => intro v; exact le_trans (ih (min v x)) (min_le_left v x)

theorem foldl_min_le_of_mem : ∀ (vs : List Int) (v x : Int), x ∈ vs → vs.foldl min v ≤ x := by
  intro vs
  induction vs with
  | nil => intro v x h; simp at h
  | cons y ys ih =>
    intro v x h
    rcases List.mem_cons.mp h with hxy | hxy
    · subst hxy
      exact le_trans (foldl_min_le_self ys (min v x)) (min_le_right v x)
    · exact ih (min v y) x hxy

theorem le_foldl_min : ∀ (vs : List Int) (v t : Int), t ≤ v → (∀ x ∈ vs, t ≤ x) →
    t ≤ vs.foldl min v := by
  intro vs
  induction vs with
  | nil => intro v t h _; exact h
  | cons y ys ih =>
    intro v t h hall
    exact ih (min v y) t (le_min h (hall y (List.mem_cons_self _ _)))
      (fun x hx => hall x (List.mem_cons_of_mem _ hx))

theorem plainValue_done (fuel : Nat) (b : Board) (m : Bool)
    (hs : evaluate b = 10 ∨ evaluate b = -10) : plainValue (fuel + 1) b m = evaluate b := by
  rw [plainValue, if_pos hs]

theorem plainValue_full (fuel : Nat) (b : Board) (m : Bool)
    (hs : ¬(evaluate b = 10 ∨ evaluate b = -10)) (hml : isMovesLeft b = false) :
    plainValue (fuel + 1) b m = 0 := by
  rw [plainValue, if_neg hs, if_pos hml]

/-- At a board of 9 cells where the game goes on, the value is the maximum or
the minimum of the values after the moves onto the empty cells. -/
theorem plainValue_node {b : Board} (h9 : b.length = 9) (fuel : Nat) (m : Bool)
    (hs : ¬(evaluate b = 10 ∨ evaluate b = -10)) (hml : isMovesLeft b = true) :
    ∃ c cs, (List.range' 0 9).filter (fun c => decide (b[c]? = some 0)) = c :: cs ∧
      plainValue (fuel + 1) b m =
        if m = true then
          (cs.map (fun c => plainValue fuel (b.set c (if m = true then BOT else OPPONENT))
            (!m))).foldl max
            (plainValue fuel (b.set c (if m = true then BOT else OPPONENT)) (!m))
        else
          (cs.map (fun c => plainValue fuel (b.set c (if m = true then BOT else OPPONENT))
            (!m))).foldl min
            (plainValue fuel (b.set c (if m = true then BOT else OPPONENT)) (!m)) := by
  rcases hcs : (List.range' 0 9).filter (fun c => decide (b[c]? = some 0)) with _ | ⟨c, cs⟩
  · exact absurd hcs (cells_ne_nil h9 hml)
  · refine ⟨c, cs, rfl, ?_⟩
    rw [plainValue, if_neg hs, if_neg (by simp [hml]), cells_eq h9, hcs]
    rfl

theorem mem_cells {b : Board} (h9 : b.length = 9) {x : Nat} :
    x ∈ (List.range' 0 9).filter (fun c => decide (b[c]? = some 0)) ↔ b[x]? = some 0 := by
  rw [List.mem_filter]
  constructor
  · intro h
    simpa using h.2
  · intro h
    have := lt_nine_of_empty h9 h
    exact ⟨by simp [List.mem_range']; omega, by simpa using h⟩

/-- With the engine to move, the value is at least the value after each move. -/
theorem plainValue_max_ge {b : Board} (h9 : b.length = 9) (fuel : Nat)
    (hs : ¬(evaluate b = 10 ∨ evaluate b = -10)) {x : Nat} (hx : b[x]? = some 0) :
    plainValue fuel (b.set x BOT) false ≤ plainValue (fuel + 1) b true := by
  obtain ⟨c, cs, hcs, hv⟩ := plainValue_node h9 fuel true hs
    (isMovesLeft_iff.mpr (mem_zero_of_getElem? hx))
  rw [hv]
  simp only [if_true, Bool.not_true]
  have hmem := (mem_cells h9).mpr hx
  rw [hcs] at hmem
  rcases List.mem_cons.mp hmem with h | h
  · subst h
    exact le_foldl_max_self _ _
  · exact le_foldl_max_of_mem _ _ _ (List.mem_map.mpr ⟨x, h, rfl⟩)

/-- With the engine to move, the value is at most a bound on the values after
the moves. -/
theorem plainValue_max_le {b : Board} (h9 : b.length = 9) (fuel : Nat)
    (hs : ¬(evaluate b = 10 ∨ evaluate b = -10)) (hml : isMovesLeft b = true) (t : Int)
    (hall : ∀ x, b[x]? = some 0 → plainValue fuel (b.set x BOT) false ≤ t) :
    plainValue (fuel + 1) b true ≤ t := by
  obtain ⟨c, cs, hcs, hv⟩ := plainValue_node h9 fuel true hs hml
  rw [hv]
  simp only [if_true, Bool.not_true]
  have hmem : ∀ x ∈ c :: cs, b[x]? = some 0 := fun x hx =>
    (mem_cells h9).mp (by rw [hcs]; exact hx)
  apply foldl_max_le
  · exact hall c (hmem c (List.mem_cons_self _ _))
  · intro v hv
    obtain ⟨x, hx, rfl⟩ := List.mem_map.mp hv
    exact hall x (hmem x (List.mem_cons_of_mem _ hx))

/-- With the opponent to move, the value is at most the value after each move. -/
theorem plainValue_min_le {b : Board} (h9 : b.length = 9) (fuel : Nat)
    (hs : ¬(evaluate b = 10 ∨ evaluate b = -10)) {x : Nat} (hx : b[x]? = some 0) :
    plainValue (fuel + 1) b false ≤ plainValue fuel (b.set x OPPONENT) true := by
  obtain ⟨c, cs, hcs, hv⟩ := plainValue_node h9 fuel false hs
    (isMovesLeft_iff.mpr (mem_zero_of_getElem? hx))
  rw [hv]
  simp only [Bool.false_eq_true, if_false, Bool.not_false]
  have hmem := (mem_cells h9).mpr hx
  rw [hcs] at hmem
  rcases List.mem_cons.mp hmem with h | h
  · subst h
    exact foldl_min_le_self _ _
  · exact foldl_min_le_of_mem _ _ _ (List.mem_map.mpr ⟨x, h, rfl⟩)

/-- With the opponent to move, the value is at least a bound on the values
after the moves. -/
theorem plainValue_min_ge {b : Board} (h9 : b.length = 9) (fuel : Nat)
    (hs : ¬(evaluate b = 10 ∨ evaluate b = -10)) (hml : isMovesLeft b = true) (t : Int)
    (hall : ∀ x, b[x]? = some 0 → t ≤ plainValue fuel (b.set x OPPONENT) true) :
    t ≤ plainValue (fuel + 1) b false := by
  obtain ⟨c, cs, hcs, hv⟩ := plainValue_node h9 fuel false hs hml
  rw [hv]
  simp only [Bool.false_eq_true, if_false, Bool.not_false]
  have hmem : ∀ x ∈ c :: cs, b[x]? = some 0 := fun x hx =>
    (mem_cells h9).mp (by rw [hcs]; exact hx)
  apply le_foldl_min
  · exact hall c (hmem c (List.mem_cons_self _ _))
  · intro v hv
    obtain ⟨x, hx, rfl⟩ := List.mem_map.mp hv
    exact hall x (hmem x (List.mem_cons_of_mem _ hx))

theorem score_of_line {a b c : Nat} (h : MinimaxOptimizado.Fast.line a b c = true) :
    MinimaxOptimizado.Fast.score a 0 = if a = 0 then 0 else if a = 1 then 100 else -100 := by
  have ha : a ≠ 0 := by
    intro h0
    subst h0
    simp [MinimaxOptimizado.Fast.line] at h
  rw [if_neg ha]
  unfold MinimaxOptimizado.Fast.score
  by_cases h1 : a = 1
  · subst h1
    rfl
  · have : Nat.beq a 1 = false := by
      rw [MinimaxOptimizado.nat_beq_decide]
      simpa using h1
    simp [this, h1]

theorem fast_evaluate_winner (a0 a1 a2 a3 a4 a5 a6 a7 a8 : Nat) :
    MinimaxOptimizado.Fast.evaluate [a0, a1, a2, a3, a4, a5, a6, a7, a8] 0 =
      if winner [a0, a1, a2, a3, a4, a5, a6, a7, a8] = 0 then 0
      else if winner [a0, a1, a2, a3, a4, a5, a6, a7, a8] = 1 then 100 else -100 := by
  simp only [MinimaxOptimizado.Fast.evaluate, winner]
  by_cases h1 : MinimaxOptimizado.Fast.line a0 a1 a2 = true
  · simp only [if_pos h1]; exact score_of_line h1
  simp only [if_neg h1]
  by_cases h2 : MinimaxOptimizado.Fast.line a3 a4 a5 = true
  · simp only [if_pos h2]; exact score_of_line h2
  simp only [if_neg h2]
  by_cases h3 : MinimaxOptimizado.Fast.line a6 a7 a8 = true
  · simp only [if_pos h3]; exact score_of_line h3
  simp only [if_neg h3]
  by_cases h4 : MinimaxOptimizado.Fast.line a0 a3 a6 = true
  · simp only [if_pos h4]; exact score_of_line h4
  simp only [if_neg h4]
  by_cases h5 : MinimaxOptimizado.Fast.line a1 a4 a7 = true
  · simp only [if_pos h5]; exact score_of_line h5
  simp only [if_neg h5]
  by_cases h6 : MinimaxOptimizado.Fast.line a2 a5 a8 = true
  · simp only [if_pos h6]; exact score_of_line h6
  simp only [if_neg h6]
  by_cases h7 : MinimaxOptimizado.Fast.line a0 a4 a8 = true
  · simp only [if_pos h7]; exact score_of_line h7
  simp only [if_neg h7]
  by_cases h8 : MinimaxOptimizado.Fast.line a2 a4 a6 = true
  · simp only [if_pos h8]; exact score_of_line h8
  simp only [if_neg h8]
  rfl

/-- The evaluator, read from the marker of the first completed line. -/
theorem winner_spec {b : Board} (hb : ValidBoard b) :
    evaluate b = if winner b = 0 then 0 else if winner b = 1 then 10 else -10 := by
  obtain ⟨a0, a1, a2, a3, a4, a5, a6, a7, a8, rfl, _⟩ := validBoard_cases hb
  have h := evaluate_ten [a0, a1, a2, a3, a4, a5, a6, a7, a8]
  rw [← MinimaxOptimizado.fast_evaluate_eq, fast_evaluate_winner] at h
  split_ifs at h ⊢ <;> omega

theorem orderMoves_nil_iff {b : Board} (hb : ValidBoard b) :
    MinimaxOptimizado.Fast.orderMoves b = [] → isMovesLeft b = false := by
  intro h
  cases hml : isMovesLeft b
  · rfl
  · rw [MinimaxOptimizado.fast_orderMoves_eq] at h
    exact absurd h (MinimaxOptimizado.orderMoves_ne_nil hb.1 hml)

theorem mem_fast_orderMoves {b : Board} (hb : ValidBoard b) (i : Nat) :
    i ∈ MinimaxOptimizado.Fast.orderMoves b ↔ b[i]? = some 0 := by
  rw [MinimaxOptimizado.fast_orderMoves_eq]
  exact MinimaxOptimizado.mem_orderMoves_iff hb i

/-- A board that passes the check `atLeast t` has a minimax value of at least
`t`. -/
theorem atLeast_sound (t : Int) : ∀ (fuel : Nat) (b : Board) (m : Bool), ValidBoard b →
    atLeast t fuel b m = true → t ≤ plainValue fuel b m := by
  intro fuel
  induction fuel with
  | zero => intro b m _ h; simp [atLeast] at h
  | succ fuel ih =>
    intro b m hb h
    have hw := winner_spec hb
    rw [atLeast] at h
    split at h
    · rename_i hw0
      rw [hw0] at hw
      simp only [if_true] at hw
      have hs : ¬(evaluate b = 10 ∨ evaluate b = -10) := by omega
      split at h
      · rename_i hnil
        rw [plainValue_full fuel b m hs (orderMoves_nil_iff hb hnil)]
        simpa using h
      · rename_i c cs hcs
        have hml : isMovesLeft b = true := by
          have : c ∈ MinimaxOptimizado.Fast.orderMoves b := by
            rw [hcs]; exact List.mem_cons_self _ _
          exact isMovesLeft_iff.mpr (mem_zero_of_getElem? ((mem_fast_orderMoves hb c).mp this))
        rw [← hcs] at h
        cases m with
        | true =>
          simp only [if_true, List.any_eq_true] at h
          obtain ⟨x, hx, hxc⟩ := h
          have hx0 := (mem_fast_orderMoves hb x).mp hx
          exact le_trans (ih _ _ (validBoard_set hb (by decide)) hxc)
            (plainValue_max_ge hb.1 fuel hs hx0)
        | false =>
          simp only [Bool.false_eq_true, if_false, List.all_eq_true] at h
          exact plainValue_min_ge hb.1 fuel hs hml t (fun x hx0 =>
            ih _ _ (validBoard_set hb (by decide)) (h x ((mem_fast_orderMoves hb x).mpr hx0)))
    · rename_i hw1
      rw [hw1] at hw
      simp only [one_ne_zero, if_false, if_true] at hw
      rw [plainValue_done fuel b m (Or.inl hw), hw]
      simpa using h
    · rename_i hw0 hw1
      rw [if_neg hw0, if_neg hw1] at hw
      rw [plainValue_done fuel b m (Or.inr hw), hw]
      simpa using h

/-- A board that passes the check `atMost t` has a minimax value of at most
`t`. -/
theorem atMost_sound (t : Int) : ∀ (fuel : Nat) (b : Board) (m : Bool), ValidBoard b →
    atMost t fuel b m = true → plainValue fuel b m ≤ t := by
  intro fuel
  induction fuel with
  | zero => intro b m _ h; simp [atMost] at h
  | succ fuel ih =>
    intro b m hb h
    have hw := winner_spec hb
    rw [atMost] at h
    split at h
    · rename_i hw0
      rw [hw0] at hw
      simp only [if_true] at hw
      have hs : ¬(evaluate b = 10 ∨ evaluate b = -10) := by omega
      split at h
      · rename_i hnil
        rw [plainValue_full fuel b m hs (orderMoves_nil_iff hb hnil)]
        simpa using h
      · rename_i c cs hcs
        have hml : isMovesLeft b = true := by
          have : c ∈ MinimaxOptimizado.Fast.orderMoves b := by
            rw [hcs]; exact List.mem_cons_self _ _
          exact isMovesLeft_iff.mpr (mem_zero_of_getElem? ((mem_fast_orderMoves hb c).mp this))
        rw [← hcs] at h
        cases m with
        | true =>
          simp only [if_true, List.all_eq_true] at h
          exact plainValue_max_le hb.1 fuel hs hml t (fun x hx0 =>
            ih _ _ (validBoard_set hb (by decide)) (h x ((mem_fast_orderMoves hb x).mpr hx0)))
        | false =>
          simp only [Bool.false_eq_true, if_false, List.any_eq_true] at h
          obtain ⟨x, hx, hxc⟩ := h
          have hx0 := (mem_fast_orderMoves hb x).mp hx
          exact le_trans (plainValue_min_le hb.1 fuel hs hx0)
            (ih _ _ (validBoard_set hb (by decide)) hxc)
    · rename_i hw1
      rw [hw1] at hw
      simp only [one_ne_zero, if_false, if_true] at hw
      rw [plainValue_done fuel b m (Or.inl hw), hw]
      simpa using h
    · rename_i hw0 hw1
      rw [if_neg hw0, if_neg hw1] at hw
      rw [plainValue_done fuel b m (Or.inr hw), hw]
      simpa using h

/-- The minimax value lies between -10 and 10. -/
theorem plainValue_range : ∀ (fuel : Nat) (b : Board) (m : Bool),
    -10 ≤ plainValue fuel b m ∧ plainValue fuel b m ≤ 10 := by
  intro fuel
  induction fuel with
  | zero =>
    intro b m
    rw [plainValue]
    rcases logic_evaluate_three b with h | h | h <;> omega
  | succ fuel ih =>
    intro b m
    have key : ∀ l : List Int, (∀ x ∈ l, -10 ≤ x ∧ x ≤ 10) →
        -10 ≤ (match l with
          | [] => 0
          | v :: vs => if m = true then vs.foldl max v else vs.foldl min v) ∧
        (match l with
          | [] => 0
          | v :: vs => if m = true then vs.foldl max v else vs.foldl min v) ≤ 10 := by
      intro l hall
      cases l with
      | nil => exact ⟨by norm_num, by norm_num⟩
      | cons v vs =>
        have hv := hall v (List.mem_cons_self _ _)
        have hvs : ∀ x ∈ vs, -10 ≤ x ∧ x ≤ 10 := fun x hx =>
          hall x (List.mem_cons_of_mem _ hx)
        by_cases hm : m = true
        · simp only [if_pos hm]
          exact ⟨le_trans hv.1 (le_foldl_max_self vs v),
            foldl_max_le vs v 10 hv.2 (fun x hx => (hvs x hx).2)⟩
        · simp only [if_neg hm]
          exact ⟨le_foldl_min vs v (-10) hv.1 (fun x hx => (hvs x hx).1),
            le_trans (foldl_min_le_self vs v) hv.2⟩
    rw [plainValue]
    by_cases h1 : evaluate b = 10 ∨ evaluate b = -10
    · rw [if_pos h1]
      rcases h1 with h | h <;> omega
    · rw [if_neg h1]
      by_cases h2 : isMovesLeft b = false
      · rw [if_pos h2]
        omega
      · rw [if_neg h2]
        exact key _ (fun x hx => by
          obtain ⟨c, _, rfl⟩ := List.mem_map.mp hx
          exact ih _ _)

end MinimaxLogic

/-! ## The games of the engine of `src/test/MinimaxLogic.js` -/

namespace MinimaxLogic

theorem not_done_of_zero {b : Board} (h : evaluate b = 0) :
    ¬(evaluate b = 10 ∨ evaluate b = -10) := by
  omega

/-- With the engine to move, the value is at least the value after each move. -/
theorem value_max_ge {b : Board} (h9 : b.length = 9)
    (hs : ¬(evaluate b = 10 ∨ evaluate b = -10)) {x : Nat} (hx : b[x]? = some 0) :
    plainValue 10 (b.set x BOT) false ≤ plainValue 10 b true := by
  rw [plainValue_fuel h9 true (Nat.lt_succ_of_le (emptyCount_le b))
    (Nat.lt_succ_of_le (Nat.le_succ_of_le (emptyCount_le b)))]
  exact plainValue_max_ge h9 10 hs hx

/-- With the engine to move, the value is at most a bound on the values after
the moves. -/
theorem value_max_le {b : Board} (h9 : b.length = 9)
    (hs : ¬(evaluate b = 10 ∨ evaluate b = -10)) (hml : isMovesLeft b = true) (t : Int)
    (hall : ∀ x, b[x]? = some 0 → plainValue 10 (b.set x BOT) false ≤ t) :
    plainValue 10 b true ≤ t := by
  rw [plainValue_fuel h9 true (Nat.lt_succ_of_le (emptyCount_le b))
    (Nat.lt_succ_of_le (Nat.le_succ_of_le (emptyCount_le b)))]
  exact plainValue_max_le h9 10 hs hml t hall

/-- With the opponent to move, the value is at most the value after each move. -/
theorem value_min_le {b : Board} (h9 : b.length = 9)
    (hs : ¬(evaluate b = 10 ∨ evaluate b = -10)) {x : Nat} (hx : b[x]? = some 0) :
    plainValue 10 b false ≤ plainValue 10 (b.set x OPPONENT) true := by
  rw [plainValue_fuel h9 false (Nat.lt_succ_of_le (emptyCount_le b))
    (Nat.lt_succ_of_le (Nat.le_succ_of_le (emptyCount_le b)))]
  exact plainValue_min_le h9 10 hs hx

/-- With the opponent to move, the value is at least a bound on the values
after the moves. -/
theorem value_min_ge {b : Board} (h9 : b.length = 9)
    (hs : ¬(evaluate b = 10 ∨ evaluate b = -10)) (hml : isMovesLeft b = true) (t : Int)
    (hall : ∀ x, b[x]? = some 0 → t ≤ plainValue 10 (b.set x OPPONENT) true) :
    t ≤ plainValue 10 b false := by
  rw [plainValue_fuel h9 false (Nat.lt_succ_of_le (emptyCount_le b))
    (Nat.lt_succ_of_le (Nat.le_succ_of_le (emptyCount_le b)))]
  exact plainValue_min_ge h9 10 hs hml t hall

/-- On a valid board without a line of the opponent, `evaluate` is not
negative. -/
theorem evaluate_nonneg {b : Board} (hb : ValidBoard b) (hno : hasLine b OPPONENT = false) :
    0 ≤ evaluate b := by
  have hten := evaluate_ten b
  cases hB : hasLine b BOT
  · have h := MinimaxOptimizado.evaluate_neg_iff hb hB
    rw [hno] at h
    have : ¬(MinimaxOptimizado.evaluate b 0 < 0) := fun hlt => by
      have := h.mp hlt
      simp at this
    omega
  · have h := (MinimaxOptimizado.evaluate_pos_iff hb hno).mpr hB
    omega

/-- On a valid board with a line of the opponent and none of the engine,
`evaluate` is -10. -/
theorem evaluate_lost {b : Board} (hb : ValidBoard b) (hB : hasLine b BOT = false)
    (hO : hasLine b OPPONENT = true) : evaluate b = -10 := by
  have hten := evaluate_ten b
  have h := (MinimaxOptimizado.evaluate_neg_iff hb hB).mpr hO
  rcases logic_evaluate_three b with h3 | h3 | h3 <;> omega

/-- On a valid board where `evaluate` is 0 and the opponent holds no line, the
engine holds no line. -/
theorem noBot_of_zero {b : Board} (hb : ValidBoard b) (hno : hasLine b OPPONENT = false)
    (h0 : evaluate b = 0) : hasLine b BOT = false := by
  have hten := evaluate_ten b
  cases hB : hasLine b BOT
  · rfl
  · have h := (MinimaxOptimizado.evaluate_pos_iff hb hno).mpr hB
    omega

/-- Every board of a game is valid, holds no line of the opponent, and has a
minimax value of at least 0 for the side to move. -/
theorem reached_invariant (base1 : 0 ≤ plainValue 10 [0, 0, 0, 0, 0, 0, 0, 0, 0] true)
    (base2 : 0 ≤ plainValue 10 [0, 0, 0, 0, 0, 0, 0, 0, 0] false) :
    ∀ {b : Board} {t : Bool}, Reached b t →
      ValidBoard b ∧ hasLine b OPPONENT = false ∧ 0 ≤ plainValue 10 b t := by
  intro b t h
  induction h with
  | engineFirst => exact ⟨by decide, by decide, base1⟩
  | opponentFirst => exact ⟨by decide, by decide, base2⟩
  | engine board move board1 _ hml h0 hfind ih =>
    obtain ⟨hb, hno, hv⟩ := ih
    obtain ⟨i, hi, hi0, hmax, _⟩ := logic_findBestMove_argmax hb.1 hml
    rw [hi] at hfind
    have hmove : move = (i : Int) := by
      have := Option.some.inj hfind
      exact (congrArg Prod.fst this).symm
    subst hmove
    rw [Int.toNat_ofNat]
    refine ⟨validBoard_set hb (by decide), ?_, ?_⟩
    · cases hc : hasLine (board.set i BOT) OPPONENT
      · rfl
      · have := hasLine_set_of_ne (by decide) hc
        rw [hno] at this
        exact absurd this (by simp)
    · exact le_trans hv (value_max_le hb.1 (not_done_of_zero h0) hml _ hmax)
  | opponent board j _ h0 hj ih =>
    obtain ⟨hb, hno, hv⟩ := ih
    have hb1 : ValidBoard (board.set j OPPONENT) := validBoard_set hb (by decide)
    have hv1 : 0 ≤ plainValue 10 (board.set j OPPONENT) true :=
      le_trans hv (value_min_le hb.1 (not_done_of_zero h0) hj)
    refine ⟨hb1, ?_, hv1⟩
    cases hc : hasLine (board.set j OPPONENT) OPPONENT
    · rfl
    · have hB : hasLine (board.set j OPPONENT) BOT = false := by
        cases hB1 : hasLine (board.set j OPPONENT) BOT
        · rfl
        · have := hasLine_set_of_ne (by decide) hB1
          rw [noBot_of_zero hb hno h0] at this
          exact absurd this (by simp)
      have hl := evaluate_lost hb1 hB hc
      rw [plainValue_done 9 _ true (Or.inr hl), hl] at hv1
      omega

/-- The selector returns the lowest empty cell after which the engine wins by
force, when the lower empty cells do not have that value. -/
theorem logic_findBestMove_win {b : Board} (h9 : b.length = 9) {i : Nat}
    (hi : b[i]? = some 0) (h0 : 10 ≤ plainValue 10 (b.set i BOT) false)
    (hlow : ∀ j, j < i → b[j]? = some 0 → plainValue 10 (b.set j BOT) false ≤ 0) :
    findBestMove b = some ((i : Int), b) :=
  logic_findBestMove_eq h9 hi 10 h0
    (fun j hj hj0 => lt_of_le_of_lt (hlow j hj hj0) (by decide))
    (fun j _ _ => (plainValue_range 10 _ false).2)

end MinimaxLogic

/-! ## The claims -/

/-- C4 (validity). On a valid board, `findBestMove` of `minimaxOptimizado.js`
(with any transposition table, reachable or not) and `findBestMove` of
`MinimaxLogic.js` return a value that is -1 or an index between 0 and 8 whose
cell is empty in the input board. -/
theorem C4_findBestMove_valid (T : MinimaxOptimizado.Table) (b : Board)
    (hb : ValidBoard b) :
    (∃ m b' T', MinimaxOptimizado.findBestMove T b = some (m, b', T') ∧
      (m = -1 ∨ (0 ≤ m ∧ m ≤ 8 ∧ b[m.toNat]? = some 0))) ∧
    (∃ m b', MinimaxLogic.findBestMove b = some (m, b') ∧
      (m = -1 ∨ (0 ≤ m ∧ m ≤ 8 ∧ b[m.toNat]? = some 0))) := by
  constructor
  · obtain ⟨m, T', h, hor, _⟩ := MinimaxOptimizado.findBestMove_spec T b
    refine ⟨m, b, T', h, ?_⟩
    rcases hor with h1 | h1
    · exact Or.inl h1
    · exact Or.inr (index_of_empty hb.1 h1)
  · obtain ⟨m, h, hor, _⟩ := MinimaxLogic.logic_findBestMove_spec b
    refine ⟨m, b, h, ?_⟩
    rcases hor with h1 | h1
    · exact Or.inl h1
    · exact Or.inr (index_of_empty hb.1 h1)

theorem C4_findBestMove_valid_witness :
    ValidBoard [1, 0, 2, 0, 1, 0, 2, 0, 0] ∧
    ((∃ m b' T', MinimaxOptimizado.findBestMove [] [1, 0, 2, 0, 1, 0, 2, 0, 0] =
        some (m, b', T') ∧
      (m = -1 ∨ (0 ≤ m ∧ m ≤ 8 ∧ [1, 0, 2, 0, 1, 0, 2, 0, 0][m.toNat]? = some 0))) ∧
    (∃ m b', MinimaxLogic.findBestMove [1, 0, 2, 0, 1, 0, 2, 0, 0] = some (m, b') ∧
      (m = -1 ∨ (0 ≤ m ∧ m ≤ 8 ∧ [1, 0, 2, 0, 1, 0, 2, 0, 0][m.toNat]? = some 0)))) :=
  ⟨by decide, C4_findBestMove_valid [] [1, 0, 2, 0, 1, 0, 2, 0, 0] (by decide)⟩

/-- C5 (no-move sentinel). On a valid board, `findBestMove` of
`minimaxOptimizado.js` (with any reachable transposition table) and
`findBestMove` of `MinimaxLogic.js` return -1 if and only if no cell of the
board is empty; when a cell is empty the result is an index between 0 and 8. -/
theorem C5_findBestMove_sentinel (T : MinimaxOptimizado.Table) (b : Board)
    (hT : MinimaxOptimizado.Reachable T) (hb : ValidBoard b) :
    (∃ m b' T', MinimaxOptimizado.findBestMove T b = some (m, b', T') ∧
      (m = -1 ↔ (0 : Nat) ∉ b) ∧ ((0 : Nat) ∈ b → 0 ≤ m ∧ m ≤ 8)) ∧
    (∃ m b', MinimaxLogic.findBestMove b = some (m, b') ∧
      (m = -1 ↔ (0 : Nat) ∉ b) ∧ ((0 : Nat) ∈ b → 0 ≤ m ∧ m ≤ 8)) := by
  have key : ∀ m : Int, (m = -1 ∨ ∃ i : Nat, m = (i : Int) ∧ b[i]? = some 0) →
      (isMovesLeft b = true → m ≠ -1) →
      (m = -1 ↔ (0 : Nat) ∉ b) ∧ ((0 : Nat) ∈ b → 0 ≤ m ∧ m ≤ 8) := by
    intro m hor hne
    refine ⟨⟨fun h1 h0 => hne (isMovesLeft_iff.mpr h0) h1, fun h0 => ?_⟩, fun h0 => ?_⟩
    · rcases hor with h1 | ⟨i, _, hi⟩
      · exact h1
      · exact absurd (mem_zero_of_getElem? hi) h0
    · rcases hor with h1 | h1
      · exact absurd h1 (hne (isMovesLeft_iff.mpr h0))
      · have := index_of_empty hb.1 h1
        exact ⟨this.1, this.2.1⟩
  constructor
  · obtain ⟨m, T', h, hor, hfin⟩ := MinimaxOptimizado.findBestMove_spec T b
    exact ⟨m, b, T', h,
      key m hor (hfin hb.1 (MinimaxOptimizado.reachable_allFin hT)).2⟩
  · obtain ⟨m, h, hor, hne⟩ := MinimaxLogic.logic_findBestMove_spec b
    exact ⟨m, b, h, key m hor (hne hb.1)⟩

theorem C5_findBestMove_sentinel_witness :
    MinimaxOptimizado.Reachable [] ∧ ValidBoard [1, 2, 1, 2, 1, 2, 2, 1, 2] ∧
    ((∃ m b' T', MinimaxOptimizado.findBestMove [] [1, 2, 1, 2, 1, 2, 2, 1, 2] =
        some (m, b', T') ∧
      (m = -1 ↔ (0 : Nat) ∉ [1, 2, 1, 2, 1, 2, 2, 1, 2]) ∧
      ((0 : Nat) ∈ [1, 2, 1, 2, 1, 2, 2, 1, 2] → 0 ≤ m ∧ m ≤ 8)) ∧
    (∃ m b', MinimaxLogic.findBestMove [1, 2, 1, 2, 1, 2, 2, 1, 2] = some (m, b') ∧
      (m = -1 ↔ (0 : Nat) ∉ [1, 2, 1, 2, 1, 2, 2, 1, 2]) ∧
      ((0 : Nat) ∈ [1, 2, 1, 2, 1, 2, 2, 1, 2] → 0 ≤ m ∧ m ≤ 8))) :=
  ⟨MinimaxOptimizado.Reachable.start, by decide,
    C5_findBestMove_sentinel [] [1, 2, 1, 2, 1, 2, 2, 1, 2]
      MinimaxOptimizado.Reachable.start (by decide)⟩

/-- C6 (non-mutation). On a valid board, with any transposition table,
`findBestMove` of `minimaxOptimizado.js` and `findBestMove` of
`MinimaxLogic.js` return with the board holding the values it held before the
call, whichever return path is taken. -/
theorem C6_findBestMove_restores_board (T : MinimaxOptimizado.Table) (b : Board)
    (hb : ValidBoard b) :
    (∃ m T', MinimaxOptimizado.findBestMove T b = some (m, b, T')) ∧
    (∃ m, MinimaxLogic.findBestMove b = some (m, b)) := by
  have _ := hb
  constructor
  · obtain ⟨m, T', h, _⟩ := MinimaxOptimizado.findBestMove_spec T b
    exact ⟨m, T', h⟩
  · obtain ⟨m, h, _⟩ := MinimaxLogic.logic_findBestMove_spec b
    exact ⟨m, h⟩

theorem C6_findBestMove_restores_board_witness :
    ValidBoard [1, 0, 0, 2, 2, 0, 0, 0, 0] ∧
    ((∃ m T', MinimaxOptimizado.findBestMove [] [1, 0, 0, 2, 2, 0, 0, 0, 0] =
        some (m, [1, 0, 0, 2, 2, 0, 0, 0, 0], T')) ∧
    (∃ m, MinimaxLogic.findBestMove [1, 0, 0, 2, 2, 0, 0, 0, 0] =
        some (m, [1, 0, 0, 2, 2, 0, 0, 0, 0]))) :=
  ⟨by decide, C6_findBestMove_restores_board [] [1, 0, 0, 2, 2, 0, 0, 0, 0] (by decide)⟩

/-- C9 (first move). On the empty board, `findBestMove` of
`minimaxOptimizado.js` returns 4, the centre, whatever the transposition table
holds; the board is left as it was. -/
theorem C9_first_move_centre (T : MinimaxOptimizado.Table) :
    MinimaxOptimizado.findBestMove T [0, 0, 0, 0, 0, 0, 0, 0, 0] =
      some (4, [0, 0, 0, 0, 0, 0, 0, 0, 0], MinimaxOptimizado.cleanTable T) := by
  have h : MinimaxOptimizado.getOpeningMove [0, 0, 0, 0, 0, 0, 0, 0, 0] = some 4 := by
    decide
  unfold MinimaxOptimizado.findBestMove
  rw [h]
  rfl

theorem completes_false_of_range {b : Board} (hb : ValidBoard b) {p : Nat}
    (h : ∀ i ∈ List.range 9, completes b p i = false) (i : Nat) :
    completes b p i = false := by
  cases hc : completes b p i
  · rfl
  · rw [h i (MinimaxOptimizado.completes_lt hb hc)] at hc
    exact absurd hc (by simp)

/-- C7 (win over block). On a valid board without a completed line on which
some empty cell would complete a line of three markers of the engine,
`findBestMove` of `minimaxOptimizado.js` returns, with any transposition table,
the lowest such cell (and leaves the board as it was), also when the opponent
threatens to win; on `[1,1,0,2,2,0,0,0,0]` it returns 2. -/
theorem C7_win_over_block (T : MinimaxOptimizado.Table) :
    (∀ b : Board, ValidBoard b → NoLine b → (∃ i, completes b BOT i = true) →
      ∃ m : Nat, MinimaxOptimizado.findBestMove T b =
          some ((m : Int), b, MinimaxOptimizado.cleanTable T) ∧
        completes b BOT m = true ∧ ∀ j, completes b BOT j = true → m ≤ j) ∧
    MinimaxOptimizado.findBestMove T [1, 1, 0, 2, 2, 0, 0, 0, 0] =
      some (2, [1, 1, 0, 2, 2, 0, 0, 0, 0], MinimaxOptimizado.cleanTable T) := by
  have gen : ∀ b : Board, ValidBoard b → NoLine b → (∃ i, completes b BOT i = true) →
      ∃ m : Nat, MinimaxOptimizado.findBestMove T b =
          some ((m : Int), b, MinimaxOptimizado.cleanTable T) ∧
        completes b BOT m = true ∧ ∀ j, completes b BOT j = true → m ≤ j := by
    intro b hb hno ⟨i, hi⟩
    have hbook := MinimaxOptimizado.getOpeningMove_none_of_completes hb (Or.inl rfl) hi
    obtain ⟨hw1, hw2, hw3⟩ := MinimaxOptimizado.winScan_spec 9 0 b
    have hi9 := List.mem_range.mp (MinimaxOptimizado.completes_lt hb hi)
    unfold MinimaxOptimizado.findBestMove
    rw [hbook]
    rcases hws : MinimaxOptimizado.winScan 9 0 b with ⟨_ | j, b1⟩
    · rw [hws] at hw3
      exact absurd ((MinimaxOptimizado.winTest_iff hb hno i).mpr hi)
        (hw3 rfl i (by omega) (by omega))
    · rw [hws] at hw1 hw2
      simp only at hw1 hw2
      subst hw1
      obtain ⟨ht, _, _, hmin⟩ := hw2 j rfl
      refine ⟨j, rfl, (MinimaxOptimizado.winTest_iff hb hno j).mp ht, fun k hk => ?_⟩
      by_contra hlt
      exact hmin k (by omega) (by omega) ((MinimaxOptimizado.winTest_iff hb hno k).mpr hk)
  refine ⟨gen, ?_⟩
  obtain ⟨m, hm, hc, hmin⟩ := gen [1, 1, 0, 2, 2, 0, 0, 0, 0] (by decide) (by decide)
    ⟨2, by decide⟩
  have h2 : m ≤ 2 := hmin 2 (by decide)
  have hm2 : m = 2 := by
    interval_cases m
    · exact absurd hc (by decide)
    · exact absurd hc (by decide)
    · rfl
  rw [hm, hm2]
  rfl

theorem C7_win_over_block_witness :
    ValidBoard [1, 1, 0, 2, 2, 0, 0, 0, 0] ∧ NoLine [1, 1, 0, 2, 2, 0, 0, 0, 0] ∧
    completes [1, 1, 0, 2, 2, 0, 0, 0, 0] BOT 2 = true ∧
    ∃ m : Nat, MinimaxOptimizado.findBestMove [] [1, 1, 0, 2, 2, 0, 0, 0, 0] =
        some ((m : Int), [1, 1, 0, 2, 2, 0, 0, 0, 0], MinimaxOptimizado.cleanTable []) ∧
      completes [1, 1, 0, 2, 2, 0, 0, 0, 0] BOT m = true ∧
      ∀ j, completes [1, 1, 0, 2, 2, 0, 0, 0, 0] BOT j = true → m ≤ j :=
  ⟨by decide, by decide, by decide,
    (C7_win_over_block []).1 [1, 1, 0, 2, 2, 0, 0, 0, 0] (by decide) (by decide)
      ⟨2, by decide⟩⟩

/-- C8 (forced block). On a valid board without a completed line on which no
empty cell would complete a line of the engine but some empty cell would
complete a line of three markers of the opponent, `findBestMove` of
`minimaxOptimizado.js` returns, with any transposition table, the lowest cell
that would complete a line of the opponent (and leaves the board as it was);
on `[1,0,0,2,2,0,0,0,0]` it returns 5. -/
theorem C8_forced_block (T : MinimaxOptimizado.Table) :
    (∀ b : Board, ValidBoard b → NoLine b → (∀ i, completes b BOT i = false) →
      (∃ i, completes b OPPONENT i = true) →
      ∃ m : Nat, MinimaxOptimizado.findBestMove T b =
          some ((m : Int), b, MinimaxOptimizado.cleanTable T) ∧
        completes b OPPONENT m = true ∧ ∀ j, completes b OPPONENT j = true → m ≤ j) ∧
    MinimaxOptimizado.findBestMove T [1, 0, 0, 2, 2, 0, 0, 0, 0] =
      some (5, [1, 0, 0, 2, 2, 0, 0, 0, 0], MinimaxOptimizado.cleanTable T) := by
  have gen : ∀ b : Board, ValidBoard b → NoLine b → (∀ i, completes b BOT i = false) →
      (∃ i, completes b OPPONENT i = true) →
      ∃ m : Nat, MinimaxOptimizado.findBestMove T b =
          some ((m : Int), b, MinimaxOptimizado.cleanTable T) ∧
        completes b OPPONENT m = true ∧
        ∀ j, completes b OPPONENT j = true → m ≤ j := by
    intro b hb hno hnowin ⟨i, hi⟩
    have hbook := MinimaxOptimizado.getOpeningMove_none_of_completes hb (Or.inr rfl) hi
    obtain ⟨hw1, hw2, _⟩ := MinimaxOptimizado.winScan_spec 9 0 b
    obtain ⟨hb1, hb2, hb3⟩ := MinimaxOptimizado.blockScan_spec 9 0 b
    have hi9 := List.mem_range.mp (MinimaxOptimizado.completes_lt hb hi)
    unfold MinimaxOptimizado.findBestMove
    rw [hbook]
    rcases hws : MinimaxOptimizado.winScan 9 0 b with ⟨_ | j, b1⟩
    · rw [hws] at hw1
      simp only at hw1
      subst hw1
      simp only []
      rcases hbs : MinimaxOptimizado.blockScan 9 0 b1 with ⟨_ | j, b2⟩
      · rw [hbs] at hb3
        exact absurd ((MinimaxOptimizado.blockTest_iff hb hno i).mpr hi)
          (hb3 rfl i (by omega) (by omega))
      · rw [hbs] at hb1 hb2
        simp only at hb1 hb2
        subst hb1
        obtain ⟨ht, _, _, hmin⟩ := hb2 j rfl
        refine ⟨j, rfl, (MinimaxOptimizado.blockTest_iff hb hno j).mp ht, fun k hk => ?_⟩
        by_contra hlt
        exact hmin k (by omega) (by omega)
          ((MinimaxOptimizado.blockTest_iff hb hno k).mpr hk)
    · rw [hws] at hw2
      have hc := (MinimaxOptimizado.winTest_iff hb hno j).mp (hw2 j rfl).1
      rw [hnowin j] at hc
      exact absurd hc (by simp)
  refine ⟨gen, ?_⟩
  obtain ⟨m, hm, hc, hmin⟩ := gen [1, 0, 0, 2, 2, 0, 0, 0, 0] (by decide) (by decide)
    (completes_false_of_range (by decide) (by decide)) ⟨5, by decide⟩
  have h5 : m ≤ 5 := hmin 5 (by decide)
  have hm5 : m = 5 := by
    interval_cases m
    · exact absurd hc (by decide)
    · exact absurd hc (by decide)
    · exact absurd hc (by decide)
    · exact absurd hc (by decide)
    · exact absurd hc (by decide)
    · rfl
  rw [hm, hm5]
  rfl

theorem C8_forced_block_witness :
    ValidBoard [1, 0, 0, 2, 2, 0, 0, 0, 0] ∧ NoLine [1, 0, 0, 2, 2, 0, 0, 0, 0] ∧
    (∀ i ∈ List.range 9, completes [1, 0, 0, 2, 2, 0, 0, 0, 0] BOT i = false) ∧
    completes [1, 0, 0, 2, 2, 0, 0, 0, 0] OPPONENT 5 = true ∧
    ∃ m : Nat, MinimaxOptimizado.findBestMove [] [1, 0, 0, 2, 2, 0, 0, 0, 0] =
        some ((m : Int), [1, 0, 0, 2, 2, 0, 0, 0, 0], MinimaxOptimizado.cleanTable []) ∧
      completes [1, 0, 0, 2, 2, 0, 0, 0, 0] OPPONENT m = true ∧
      ∀ j, completes [1, 0, 0, 2, 2, 0, 0, 0, 0] OPPONENT j = true → m ≤ j :=
  ⟨by decide, by decide, by decide, by decide,
    (C8_forced_block []).1 [1, 0, 0, 2, 2, 0, 0, 0, 0] (by decide) (by decide)
      (completes_false_of_range (by decide) (by decide)) ⟨5, by decide⟩⟩

/-! ### Evaluations of the search on concrete boards -/

theorem fast_selfPlay :
    (MinimaxOptimizado.Fast.simulateGame 9 MinimaxOptimizado.Fast.FTable.empty
      [0, 0, 0, 0, 0, 0, 0, 0, 0] BOT).map Prod.fst =
      some [2, 1, 1, 1, 1, 2, 2, 2, 1] := by
  decide!

theorem fast_losing_game :
    (MinimaxOptimizado.Fast.callSeq MinimaxOptimizado.Fast.FTable.empty
      [[0, 0, 2, 0, 0, 0, 0, 0, 0], [0, 0, 2, 0, 1, 0, 0, 2, 0],
       [1, 0, 2, 0, 1, 0, 0, 2, 2]]).map Prod.fst = some [4, 0, 5] := by
  decide!

theorem fast_warm_table :
    (MinimaxOptimizado.Fast.callSeq MinimaxOptimizado.Fast.FTable.empty
      [[0, 0, 0, 0, 0, 2, 2, 1, 1], [2, 0, 0, 1, 1, 2, 2, 0, 1]]).map Prod.fst =
      some [4, 7] := by
  decide!

theorem fast_cold_table :
    (MinimaxOptimizado.Fast.callSeq MinimaxOptimizado.Fast.FTable.empty
      [[2, 0, 0, 1, 1, 2, 2, 0, 1]]).map Prod.fst = some [2] := by
  decide!

theorem fast_inexact_search :
    (MinimaxOptimizado.Fast.minimax MinimaxOptimizado.Fast.FTable.empty
      [0, 0, 1, 0, 0, 1, 2, 0, 2] 0 true Num.negInf Num.posInf).map Prod.fst =
      some (Num.fin 0) := by
  decide!

theorem exactValue_inexact_search :
    MinimaxOptimizado.exactValue 10 [0, 0, 1, 0, 0, 1, 2, 0, 2] 0 true = -96 := by
  decide!

/-- C10 (self-play draws, optimized). From the empty board and the empty
table, the loop of `simulateGame` with `findBestMove` of `minimaxOptimizado.js`
as the strategy of both players (markers 1 and 2 in turn, 1 first, the table
persisting) ends on the full board `[2,1,1,1,1,2,2,2,1]`, on which `evaluate`
of both files is 0: a draw. -/
theorem C10_self_play_draw :
    (MinimaxOptimizado.simulateGame 9 [] [0, 0, 0, 0, 0, 0, 0, 0, 0] BOT).map Prod.fst =
      some [2, 1, 1, 1, 1, 2, 2, 2, 1] ∧
    isMovesLeft [2, 1, 1, 1, 1, 2, 2, 2, 1] = false ∧
    MinimaxLogic.evaluate [2, 1, 1, 1, 1, 2, 2, 2, 1] = 0 ∧
    MinimaxOptimizado.evaluate [2, 1, 1, 1, 1, 2, 2, 2, 1] 0 = 0 := by
  refine ⟨?_, by decide, by decide, by decide⟩
  exact (MinimaxOptimizado.simulateGame_eq_fast _ _ _ (by decide) (by decide)).trans
    fast_selfPlay

/-- C1 (the optimized engine loses a game). From the empty board and the empty
table, the opponent moving first: the opponent plays 2 and `findBestMove`
answers 4; the opponent plays 7 and `findBestMove` answers 0; the opponent
plays 8 and `findBestMove` answers 5; the opponent plays 6 and holds the line
6-7-8. The table persists from one call to the next. -/
theorem C1_optimized_engine_loses :
    (MinimaxOptimizado.callSeq []
      [[0, 0, 2, 0, 0, 0, 0, 0, 0], [0, 0, 2, 0, 1, 0, 0, 2, 0],
       [1, 0, 2, 0, 1, 0, 0, 2, 2]]).map Prod.fst = some [4, 0, 5] ∧
    [0, 0, 2, 0, 0, 0, 0, 0, 0] = [0, 0, 0, 0, 0, 0, 0, 0, 0].set 2 OPPONENT ∧
    [0, 0, 2, 0, 1, 0, 0, 2, 0] =
      ([0, 0, 2, 0, 0, 0, 0, 0, 0].set 4 BOT).set 7 OPPONENT ∧
    [1, 0, 2, 0, 1, 0, 0, 2, 2] =
      ([0, 0, 2, 0, 1, 0, 0, 2, 0].set 0 BOT).set 8 OPPONENT ∧
    [1, 0, 2, 0, 1, 1, 2, 2, 2] =
      ([1, 0, 2, 0, 1, 0, 0, 2, 2].set 5 BOT).set 6 OPPONENT ∧
    hasLine [1, 0, 2, 0, 1, 1, 2, 2, 2] OPPONENT = true ∧
    MinimaxOptimizado.evaluate [1, 0, 2, 0, 1, 1, 2, 2, 2] 0 = -100 := by
  refine ⟨?_, by decide, by decide, by decide, by decide, by decide, by decide⟩
  exact (MinimaxOptimizado.callSeq_eq_fast _ (by decide)).trans fast_losing_game

/-- C2 (the optimized search is not exact). On the board `[0,0,1,0,0,1,2,0,2]`
with the engine to move, at depth 0 and from the empty table, `minimax` of
`minimaxOptimizado.js` returns 0, while the depth-aware minimax value of the
position is -96. -/
theorem C2_optimized_search_inexact :
    (MinimaxOptimizado.minimax [] [0, 0, 1, 0, 0, 1, 2, 0, 2] 0 true
      Num.negInf Num.posInf).map Prod.fst = some (Num.fin 0) ∧
    MinimaxOptimizado.exactValue 10 [0, 0, 1, 0, 0, 1, 2, 0, 2] 0 true = -96 := by
  refine ⟨?_, exactValue_inexact_search⟩
  exact (MinimaxOptimizado.minimax_eq_fast _ _ _ _ _ (by decide)).trans
    fast_inexact_search

/-- C3 (the result depends on the table). The table left by one call of
`findBestMove` of `minimaxOptimizado.js` on the valid board
`[0,0,0,0,0,2,2,1,1]` from the empty table is reachable, and on the valid board
`[2,0,0,1,1,2,2,0,1]` `findBestMove` returns 7 with that table and 2 with the
empty table. -/
theorem C3_result_depends_on_table :
    ∃ T, MinimaxOptimizado.Reachable T ∧
      (MinimaxOptimizado.findBestMove T [2, 0, 0, 1, 1, 2, 2, 0, 1]).map Prod.fst =
        some 7 ∧
      (MinimaxOptimizado.findBestMove [] [2, 0, 0, 1, 1, 2, 2, 0, 1]).map Prod.fst =
        some 2 := by
  have hw := (MinimaxOptimizado.callSeq_eq_fast _ (by decide)).trans fast_warm_table
  have hc := (MinimaxOptimizado.callSeq_eq_fast _ (by decide)).trans fast_cold_table
  unfold MinimaxOptimizado.callSeq at hw hc
  rcases h1 : MinimaxOptimizado.findBestMove [] [0, 0, 0, 0, 0, 2, 2, 1, 1]
    with _ | ⟨m1, b1, T1⟩
  · rw [h1] at hw
    exact absurd hw (by simp)
  · rw [h1] at hw
    simp only [] at hw
    unfold MinimaxOptimizado.callSeq at hw
    refine ⟨T1, MinimaxOptimizado.Reachable.call [] _ (m1, b1, T1)
      MinimaxOptimizado.Reachable.start (by decide) h1, ?_, ?_⟩
    · rcases h2 : MinimaxOptimizado.findBestMove T1 [2, 0, 0, 1, 1, 2, 2, 0, 1]
        with _ | ⟨m2, b2, T2⟩
      · rw [h2] at hw
        exact absurd hw (by simp)
      · rw [h2] at hw
        simp [MinimaxOptimizado.callSeq] at hw
        simp [hw.2]
    · rcases h3 : MinimaxOptimizado.findBestMove [] [2, 0, 0, 1, 1, 2, 2, 0, 1]
        with _ | ⟨m3, b3, T3⟩
      · rw [h3] at hc
        exact absurd hc (by simp)
      · rw [h3] at hc
        simp [MinimaxOptimizado.callSeq] at hc
        simp [hc]

/-! ### The search, its table, the last loop of the selector, the move order, the keys and the book -/

/-- C11 (depth-aware evaluator). On a valid board on which at most one player
holds a completed line, `evaluate(board, d)` of `minimaxOptimizado.js` is
`100 - d` if the engine holds a completed line, `d - 100` if the opponent holds
one, and 0 if no line is completed, for every depth `d`. -/
theorem C11_evaluate_depth_aware (b : Board) (d : Int) (hb : ValidBoard b)
    (hone : ¬(hasLine b BOT = true ∧ hasLine b OPPONENT = true)) :
    (hasLine b BOT = true → MinimaxOptimizado.evaluate b d = 100 - d) ∧
    (hasLine b OPPONENT = true → MinimaxOptimizado.evaluate b d = d - 100) ∧
    (hasLine b BOT = false → hasLine b OPPONENT = false →
      MinimaxOptimizado.evaluate b d = 0) :=
  MinimaxOptimizado.evaluate_cases hb d hone

theorem C11_evaluate_depth_aware_witness :
    ValidBoard [2, 0, 1, 0, 2, 1, 0, 0, 2] ∧
    ¬(hasLine [2, 0, 1, 0, 2, 1, 0, 0, 2] BOT = true ∧
      hasLine [2, 0, 1, 0, 2, 1, 0, 0, 2] OPPONENT = true) ∧
    hasLine [2, 0, 1, 0, 2, 1, 0, 0, 2] OPPONENT = true ∧
    MinimaxOptimizado.evaluate [2, 0, 1, 0, 2, 1, 0, 0, 2] 3 = 3 - 100 :=
  ⟨by decide, by decide, by decide,
    (C11_evaluate_depth_aware [2, 0, 1, 0, 2, 1, 0, 0, 2] 3 (by decide)
      (by decide)).2.1 (by decide)⟩

/-- C12 (the search restores the board). On a valid board, for every depth,
side to move, window and transposition table, `minimax` of
`minimaxOptimizado.js` returns and hands back the board with the values it held
before the call; the statement covers the return after a cache hit, at a
terminal node and after a cut-off. -/
theorem C12_minimax_restores_board (T : MinimaxOptimizado.Table) (b : Board) (d : Int)
    (m : Bool) (α β : Num) (hb : ValidBoard b) :
    ∃ v T', MinimaxOptimizado.minimax T b d m α β = some (v, b, T') := by
  have _ := hb
  obtain ⟨v, T', h, _⟩ := MinimaxOptimizado.minimax_spec T b d m α β
  exact ⟨v, T', h⟩

theorem C12_minimax_restores_board_witness :
    ValidBoard [1, 0, 0, 2, 2, 0, 0, 0, 1] ∧
    ∃ v T', MinimaxOptimizado.minimax [] [1, 0, 0, 2, 2, 0, 0, 0, 1] 0 true
      Num.negInf Num.posInf = some (v, [1, 0, 0, 2, 2, 0, 0, 0, 1], T') :=
  ⟨by decide, C12_minimax_restores_board [] [1, 0, 0, 2, 2, 0, 0, 0, 1] 0 true
    Num.negInf Num.posInf (by decide)⟩

/-- C13 (termination). On a valid board, which has at most 9 empty cells,
filling an empty cell with a marker leaves exactly one empty cell fewer, and
`minimax` of both files returns within every bound on the nesting of the
recursive calls that exceeds the number of empty cells of the board: the
nesting never goes deeper than that number. The result does not depend on the
bound; it is the result of `minimax`, for every depth, side, window and (in
`minimaxOptimizado.js`) transposition table. -/
theorem C13_minimax_terminates (T : MinimaxOptimizado.Table) (b : Board) (d : Int)
    (m : Bool) (α β : Num) (hb : ValidBoard b) :
    b.count 0 ≤ 9 ∧
    (∀ i x, b[i]? = some 0 → x ≠ 0 → (b.set i x).count 0 + 1 = b.count 0) ∧
    (∀ fuel, b.count 0 < fuel → ∃ v T',
      MinimaxOptimizado.minimaxFuel fuel T b d m α β = some (v, b, T') ∧
      MinimaxOptimizado.minimax T b d m α β = some (v, b, T')) ∧
    (∀ fuel, b.count 0 < fuel → ∃ v,
      MinimaxLogic.minimaxFuel fuel b d m α β = some (v, b) ∧
      MinimaxLogic.minimax b d m α β = some (v, b)) := by
  refine ⟨?_, fun i x hi hx => MinimaxOptimizado.count_zero_set hi hx,
    fun fuel hfuel => ?_, fun fuel hfuel => ?_⟩
  · have := List.count_le_length 0 b
    rw [hb.1] at this
    exact this
  · obtain ⟨v, T', h, _⟩ := MinimaxOptimizado.minimax_spec T b d m α β
    refine ⟨v, T', ?_, h⟩
    rw [MinimaxOptimizado.minimaxFuel_eq_minimax T b d m α β
      (by rw [MinimaxOptimizado.orderMoves_length hb]; exact hfuel)]
    exact h
  · obtain ⟨v, h, _⟩ := MinimaxLogic.logic_minimax_spec b d m α β
    refine ⟨v, ?_, h⟩
    rw [MinimaxLogic.logic_minimaxFuel_eq_minimax b d m α β
      (by rw [MinimaxLogic.emptyCount_eq_count hb]; exact hfuel)]
    exact h

theorem C13_minimax_terminates_witness :
    ValidBoard [1, 2, 0, 0, 1, 0, 2, 0, 0] ∧
    List.count 0 [1, 2, 0, 0, 1, 0, 2, 0, 0] ≤ 9 ∧
    (∀ i x, [1, 2, 0, 0, 1, 0, 2, 0, 0][i]? = some 0 → x ≠ 0 →
      List.count 0 ([1, 2, 0, 0, 1, 0, 2, 0, 0].set i x) + 1 =
        List.count 0 [1, 2, 0, 0, 1, 0, 2, 0, 0]) ∧
    (∀ fuel, List.count 0 [1, 2, 0, 0, 1, 0, 2, 0, 0] < fuel → ∃ v T',
      MinimaxOptimizado.minimaxFuel fuel [] [1, 2, 0, 0, 1, 0, 2, 0, 0] 0 false
        Num.negInf Num.posInf = some (v, [1, 2, 0, 0, 1, 0, 2, 0, 0], T') ∧
      MinimaxOptimizado.minimax [] [1, 2, 0, 0, 1, 0, 2, 0, 0] 0 false
        Num.negInf Num.posInf = some (v, [1, 2, 0, 0, 1, 0, 2, 0, 0], T')) ∧
    (∀ fuel, List.count 0 [1, 2, 0, 0, 1, 0, 2, 0, 0] < fuel → ∃ v,
      MinimaxLogic.minimaxFuel fuel [1, 2, 0, 0, 1, 0, 2, 0, 0] 0 false
        Num.negInf Num.posInf = some (v, [1, 2, 0, 0, 1, 0, 2, 0, 0]) ∧
      MinimaxLogic.minimax [1, 2, 0, 0, 1, 0, 2, 0, 0] 0 false
        Num.negInf Num.posInf = some (v, [1, 2, 0, 0, 1, 0, 2, 0, 0])) :=
  ⟨by decide, C13_minimax_terminates [] [1, 2, 0, 0, 1, 0, 2, 0, 0] 0 false
    Num.negInf Num.posInf (by decide)⟩

theorem fast_stale_entry :
    (MinimaxOptimizado.Fast.findBestMove MinimaxOptimizado.Fast.FTable.empty
      [0, 0, 0, 0, 0, 2, 2, 1, 1]).map
        (fun r => r.2.1.get [2, 0, 0, 1, 1, 2, 2, 1, 1] false) =
      some (some (Num.fin 96)) := by
  decide!

theorem fast_cold_value :
    (MinimaxOptimizado.Fast.minimax MinimaxOptimizado.Fast.FTable.empty
      [2, 0, 0, 1, 1, 2, 2, 1, 1] 0 false Num.negInf Num.posInf).map Prod.fst =
      some (Num.fin 0) := by
  decide!

/-- C14, as stated, fails: a cache hit that differs from the cold value. The
table left by one call of `findBestMove` of `minimaxOptimizado.js` on the valid board
`[0,0,0,0,0,2,2,1,1]` from the empty table is reachable and stores 96 under
the key of `[2,0,0,1,1,2,2,1,1]` with the opponent to move; `minimax` called on
that board at depth 0 with the opponent to move and the full window finds the
key and returns 96, while the same call started with the empty table
returns 0. -/
theorem C14_cache_hit_differs_from_cold :
    ∃ T, MinimaxOptimizado.Reachable T ∧
      T.get (MinimaxOptimizado.getBoardKey [2, 0, 0, 1, 1, 2, 2, 1, 1] false) =
        some (Num.fin 96) ∧
      (MinimaxOptimizado.minimax T [2, 0, 0, 1, 1, 2, 2, 1, 1] 0 false
        Num.negInf Num.posInf).map Prod.fst = some (Num.fin 96) ∧
      (MinimaxOptimizado.minimax [] [2, 0, 0, 1, 1, 2, 2, 1, 1] 0 false
        Num.negInf Num.posInf).map Prod.fst = some (Num.fin 0) := by
  have hw := (MinimaxOptimizado.findBestMove_get_fast _ _ _ (by decide) (by decide)).trans
    fast_stale_entry
  have hc := (MinimaxOptimizado.minimax_eq_fast _ _ _ _ _ (by decide)).trans
    fast_cold_value
  rcases h1 : MinimaxOptimizado.findBestMove [] [0, 0, 0, 0, 0, 2, 2, 1, 1]
    with _ | ⟨m1, b1, T1⟩
  · rw [h1] at hw
    exact absurd hw (by simp)
  · rw [h1] at hw
    simp only [Option.map_some', Option.some.injEq] at hw
    refine ⟨T1, MinimaxOptimizado.Reachable.call [] _ (m1, b1, T1)
      MinimaxOptimizado.Reachable.start (by decide) h1, hw, ?_, hc⟩
    rw [show MinimaxOptimizado.minimax T1 [2, 0, 0, 1, 1, 2, 2, 1, 1] 0 false
      Num.negInf Num.posInf = some (Num.fin 96, [2, 0, 0, 1, 1, 2, 2, 1, 1], T1) from
      MinimaxOptimizado.minimaxFuel_hit hw]
    rfl

/-- C14, amended. For every transposition table reachable from the empty table
through calls of `findBestMove` on valid boards: whenever `minimax` of
`minimaxOptimizado.js` is called with `(board, depth, isMax, alpha, beta)` and
finds the key of `(board, isMax)` in the table, it returns the stored score,
whatever the depth and the window, and leaves the board and the table as they
were; the stored score is 0 or between 92 and 100 in absolute value, as every
score that the search returns is. -/
theorem C14_cache_hit_returns_stored (T : MinimaxOptimizado.Table) (b : Board) (m : Bool)
    (s : Num) (hT : MinimaxOptimizado.Reachable T)
    (hs : T.get (MinimaxOptimizado.getBoardKey b m) = some s) :
    (∀ (d : Int) (α β : Num), MinimaxOptimizado.minimax T b d m α β = some (s, b, T)) ∧
    ∃ n : Int, s = Num.fin n ∧ (n = 0 ∨ (92 ≤ |n| ∧ |n| ≤ 100)) := by
  refine ⟨fun d α β => MinimaxOptimizado.minimaxFuel_hit hs, ?_⟩
  exact Num.inRange_iff.mp (MinimaxOptimizado.reachable_allInRange hT _ _ hs)

theorem C14_cache_hit_returns_stored_witness :
    ∃ T, MinimaxOptimizado.Reachable T ∧
      T.get (MinimaxOptimizado.getBoardKey [2, 0, 0, 1, 1, 2, 2, 1, 1] false) =
        some (Num.fin 96) ∧
      (∀ (d : Int) (α β : Num),
        MinimaxOptimizado.minimax T [2, 0, 0, 1, 1, 2, 2, 1, 1] d false α β =
          some (Num.fin 96, [2, 0, 0, 1, 1, 2, 2, 1, 1], T)) ∧
      ∃ n : Int, Num.fin 96 = Num.fin n ∧ (n = 0 ∨ (92 ≤ |n| ∧ |n| ≤ 100)) := by
  have hw := (MinimaxOptimizado.findBestMove_get_fast _ _ _ (by decide) (by decide)).trans
    fast_stale_entry
  rcases h1 : MinimaxOptimizado.findBestMove [] [0, 0, 0, 0, 0, 2, 2, 1, 1]
    with _ | ⟨m1, b1, T1⟩
  · rw [h1] at hw
    exact absurd hw (by simp)
  · rw [h1] at hw
    simp only [Option.map_some', Option.some.injEq] at hw
    have hR : MinimaxOptimizado.Reachable T1 :=
      MinimaxOptimizado.Reachable.call [] _ (m1, b1, T1)
        MinimaxOptimizado.Reachable.start (by decide) h1
    exact ⟨T1, hR, hw,
      C14_cache_hit_returns_stored T1 [2, 0, 0, 1, 1, 2, 2, 1, 1] false (Num.fin 96) hR hw⟩

/-- C15 (the search records what it returns). On a valid board, for every
depth, side, window and transposition table, `minimax` of
`minimaxOptimizado.js` returns a score `v` and leaves a table that maps
`getBoardKey(board, isMax)` to `v`; when the key is present on entry, the
score returned is the stored one, the table is left as it was, and no nested
call is made (a bound of one level on the nesting suffices). -/
theorem C15_minimax_records (T : MinimaxOptimizado.Table) (b : Board) (d : Int)
    (m : Bool) (α β : Num) (hb : ValidBoard b) :
    (∃ v T', MinimaxOptimizado.minimax T b d m α β = some (v, b, T') ∧
      T'.get (MinimaxOptimizado.getBoardKey b m) = some v) ∧
    (∀ s, T.get (MinimaxOptimizado.getBoardKey b m) = some s →
      MinimaxOptimizado.minimax T b d m α β = some (s, b, T) ∧
      MinimaxOptimizado.minimaxFuel 1 T b d m α β = some (s, b, T)) := by
  have _ := hb
  constructor
  · obtain ⟨v, T', h, _⟩ := MinimaxOptimizado.minimax_spec T b d m α β
    exact ⟨v, T', h, MinimaxOptimizado.minimaxFuel_records h⟩
  · intro s hs
    exact ⟨MinimaxOptimizado.minimaxFuel_hit hs, MinimaxOptimizado.minimaxFuel_hit hs⟩

theorem C15_minimax_records_witness :
    ValidBoard [1, 2, 1, 2, 1, 2, 2, 1, 2] ∧
    ((∃ v T', MinimaxOptimizado.minimax [("121212212M", Num.fin 7)]
        [1, 2, 1, 2, 1, 2, 2, 1, 2] 0 true Num.negInf Num.posInf =
          some (v, [1, 2, 1, 2, 1, 2, 2, 1, 2], T') ∧
      T'.get (MinimaxOptimizado.getBoardKey [1, 2, 1, 2, 1, 2, 2, 1, 2] true) = some v) ∧
    (∀ s, MinimaxOptimizado.Table.get [("121212212M", Num.fin 7)]
        (MinimaxOptimizado.getBoardKey [1, 2, 1, 2, 1, 2, 2, 1, 2] true) = some s →
      MinimaxOptimizado.minimax [("121212212M", Num.fin 7)]
        [1, 2, 1, 2, 1, 2, 2, 1, 2] 0 true Num.negInf Num.posInf =
          some (s, [1, 2, 1, 2, 1, 2, 2, 1, 2], [("121212212M", Num.fin 7)]) ∧
      MinimaxOptimizado.minimaxFuel 1 [("121212212M", Num.fin 7)]
        [1, 2, 1, 2, 1, 2, 2, 1, 2] 0 true Num.negInf Num.posInf =
          some (s, [1, 2, 1, 2, 1, 2, 2, 1, 2], [("121212212M", Num.fin 7)]))) :=
  ⟨by decide, C15_minimax_records [("121212212M", Num.fin 7)]
    [1, 2, 1, 2, 1, 2, 2, 1, 2] 0 true Num.negInf Num.posInf (by decide)⟩

theorem fast_early_exit :
    (MinimaxOptimizado.Fast.callSeq MinimaxOptimizado.Fast.FTable.empty
      [[0, 0, 0, 1, 2, 1, 0, 1, 0]]).map Prod.fst = some [0] := by
  decide!

theorem exactValue_corner_zero :
    MinimaxOptimizado.exactValue 10 [1, 0, 0, 1, 2, 1, 0, 1, 0] 0 false = 96 := by
  decide!

theorem exactValue_corner_six :
    MinimaxOptimizado.exactValue 10 [0, 0, 0, 1, 2, 1, 1, 1, 0] 0 false = 98 := by
  decide!

/-- C16, as stated, fails: the board `[0,0,0,1,2,1,0,1,0]` is valid, is not in
the opening book, has empty cells and neither player completes a line on it in
one move; from the empty table `findBestMove` of `minimaxOptimizado.js` returns
cell 0, whose depth-aware minimax value (depth 0, the opponent to move after
the engine plays there) is 96, while the empty cell 6 has the value 98. The
loop stops at the first score of 90 or more. -/
theorem C16_early_exit_misses_highest :
    ValidBoard [0, 0, 0, 1, 2, 1, 0, 1, 0] ∧
    MinimaxOptimizado.getOpeningMove [0, 0, 0, 1, 2, 1, 0, 1, 0] = none ∧
    (0 : Nat) ∈ [0, 0, 0, 1, 2, 1, 0, 1, 0] ∧
    (∀ i, completes [0, 0, 0, 1, 2, 1, 0, 1, 0] BOT i = false) ∧
    (∀ i, completes [0, 0, 0, 1, 2, 1, 0, 1, 0] OPPONENT i = false) ∧
    (MinimaxOptimizado.findBestMove [] [0, 0, 0, 1, 2, 1, 0, 1, 0]).map Prod.fst =
      some 0 ∧
    [0, 0, 0, 1, 2, 1, 0, 1, 0][6]? = some 0 ∧
    [1, 0, 0, 1, 2, 1, 0, 1, 0] = [0, 0, 0, 1, 2, 1, 0, 1, 0].set 0 BOT ∧
    [0, 0, 0, 1, 2, 1, 1, 1, 0] = [0, 0, 0, 1, 2, 1, 0, 1, 0].set 6 BOT ∧
    MinimaxOptimizado.exactValue 10 [1, 0, 0, 1, 2, 1, 0, 1, 0] 0 false = 96 ∧
    MinimaxOptimizado.exactValue 10 [0, 0, 0, 1, 2, 1, 1, 1, 0] 0 false = 98 := by
  refine ⟨by decide, by decide, by decide,
    completes_false_of_range (by decide) (by decide),
    completes_false_of_range (by decide) (by decide), ?_, by decide, by decide, by decide,
    exactValue_corner_zero, exactValue_corner_six⟩
  exact MinimaxOptimizado.findBestMove_of_callSeq
    ((MinimaxOptimizado.callSeq_eq_fast _ (by decide)).trans fast_early_exit)

/-- C16, amended. From the empty table, on a valid board that is not in the
opening book, has an empty cell and on which neither player completes a line in
one move, `findBestMove` of `minimaxOptimizado.js` scores the empty cells in the
priority order with `minimax` (depth 0, the opponent to move after the engine
plays there, the table persisting from one cell to the next), stops at the
first score of 90 or more, and returns the cell of the highest score it
obtained, the earliest one among equal scores: the scores before it are lower
and below 90, the scores after it are not higher; a returned score of 90 or
more is the last one taken, and with a returned score below 90 every empty cell
has been scored. -/
theorem C16_fallback_picks_highest_returned (b : Board) (hb : ValidBoard b)
    (hbook : MinimaxOptimizado.getOpeningMove b = none) (hempty : (0 : Nat) ∈ b)
    (hwin : ∀ i, completes b BOT i = false)
    (hblock : ∀ i, completes b OPPONENT i = false) :
    ∃ (m : Nat) (v : Num) (T' : MinimaxOptimizado.Table) (pre post : List (Nat × Num)),
      MinimaxOptimizado.findBestMove [] b = some ((m : Int), b, T') ∧
      MinimaxOptimizado.scoredMoves (MinimaxOptimizado.orderMoves b) [] b =
        pre ++ (m, v) :: post ∧
      (MinimaxOptimizado.scoredMoves (MinimaxOptimizado.orderMoves b) [] b).map Prod.fst
        <+: MinimaxOptimizado.orderMoves b ∧
      (∀ e ∈ pre, Num.lt e.2 v = true ∧ Num.le (Num.fin 90) e.2 = false) ∧
      (∀ e ∈ post, Num.le e.2 v = true) ∧
      (Num.le (Num.fin 90) v = true → post = []) ∧
      (Num.le (Num.fin 90) v = false →
        (MinimaxOptimizado.scoredMoves (MinimaxOptimizado.orderMoves b) [] b).map Prod.fst =
          MinimaxOptimizado.orderMoves b) := by
  have hno := noLine_of_no_completes hempty hwin hblock
  obtain ⟨hw1, hw2, _⟩ := MinimaxOptimizado.winScan_spec 9 0 b
  obtain ⟨hb1, hb2, _⟩ := MinimaxOptimizado.blockScan_spec 9 0 b
  obtain ⟨hs1, hs2, hs3, hs4⟩ := MinimaxOptimizado.scoredMoves_shape hb.1
    (MinimaxOptimizado.orderMoves b) (fun i hi => hi) []
  obtain ⟨m, T', hm, hcase⟩ := MinimaxOptimizado.searchLoop_best hb.1
    (MinimaxOptimizado.orderMoves b) (fun i hi => hi) [] Num.negInf (-1)
  obtain ⟨m2, T2, hm2, _, hall⟩ := MinimaxOptimizado.searchLoop_range hb.1
    (MinimaxOptimizado.orderMoves b) (fun i hi => hi) [] Num.negInf (-1)
    MinimaxOptimizado.allInRange_nil (by simp [Num.le])
  have hne : MinimaxOptimizado.orderMoves b ≠ [] :=
    MinimaxOptimizado.orderMoves_ne_nil hb.1 (isMovesLeft_iff.mpr hempty)
  have hfind : MinimaxOptimizado.findBestMove [] b = some (m, b, T') := by
    unfold MinimaxOptimizado.findBestMove
    rw [hbook]
    rcases hws : MinimaxOptimizado.winScan 9 0 b with ⟨_ | j, b1⟩
    · rw [hws] at hw1
      simp only at hw1
      subst hw1
      simp only []
      rcases hbs : MinimaxOptimizado.blockScan 9 0 b1 with ⟨_ | j, b2⟩
      · rw [hbs] at hb1
        simp only at hb1
        subst hb1
        simp only [MinimaxOptimizado.cleanTable_nil]
        exact hm
      · rw [hbs] at hb2
        have hc := (MinimaxOptimizado.blockTest_iff hb hno j).mp (hb2 j rfl).1
        rw [hblock j] at hc
        exact absurd hc (by simp)
    · rw [hws] at hw2
      have hc := (MinimaxOptimizado.winTest_iff hb hno j).mp (hw2 j rfl).1
      rw [hwin j] at hc
      exact absurd hc (by simp)
  rcases hcase with ⟨_, hlow⟩ | ⟨i, v, pre, post, hmi, htr, _, hpre, hpost⟩
  · obtain ⟨e, he⟩ := List.exists_mem_of_ne_nil _ (hs4 hne)
    have h1 := hlow e he
    have h2 := (hall e.1 e.2 he).1
    cases hv : e.2 <;> rw [hv] at h1 h2 <;> simp [Num.le, Num.inRange] at h1 h2
  · have hpre90 : ∀ e ∈ pre, Num.le (Num.fin 90) e.2 = false := by
      intro e he
      obtain ⟨p1, p2, hp⟩ := List.append_of_mem he
      exact hs3 p1 e (p2 ++ (i, v) :: post) (by rw [htr, hp]; simp) (by simp)
    refine ⟨i, v, T', pre, post, by rw [hfind, hmi], htr, hs1,
      fun e he => ⟨hpre e he, hpre90 e he⟩, hpost, fun h90 => ?_, fun h90 => ?_⟩
    · by_contra hpost_ne
      have := hs3 pre (i, v) post htr hpost_ne
      rw [h90] at this
      exact absurd this (by simp)
    · apply hs2
      intro e he
      rw [htr] at he
      rcases List.mem_append.mp he with hin | hin
      · exact hpre90 e hin
      · rcases List.mem_cons.mp hin with hhead | htail
        · rw [hhead]; exact h90
        · cases h : Num.le (Num.fin 90) e.2
          · rfl
          · have := Num.le_trans h (hpost e htail)
            rw [h90] at this
            exact absurd this (by simp)

theorem C16_fallback_picks_highest_returned_witness :
    ValidBoard [0, 0, 0, 1, 2, 1, 0, 1, 0] ∧
    MinimaxOptimizado.getOpeningMove [0, 0, 0, 1, 2, 1, 0, 1, 0] = none ∧
    (0 : Nat) ∈ [0, 0, 0, 1, 2, 1, 0, 1, 0] ∧
    (∀ i, completes [0, 0, 0, 1, 2, 1, 0, 1, 0] BOT i = false) ∧
    (∀ i, completes [0, 0, 0, 1, 2, 1, 0, 1, 0] OPPONENT i = false) ∧
    ∃ (m : Nat) (v : Num) (T' : MinimaxOptimizado.Table) (pre post : List (Nat × Num)),
      MinimaxOptimizado.findBestMove [] [0, 0, 0, 1, 2, 1, 0, 1, 0] =
        some ((m : Int), [0, 0, 0, 1, 2, 1, 0, 1, 0], T') ∧
      MinimaxOptimizado.scoredMoves
        (MinimaxOptimizado.orderMoves [0, 0, 0, 1, 2, 1, 0, 1, 0]) []
        [0, 0, 0, 1, 2, 1, 0, 1, 0] = pre ++ (m, v) :: post ∧
      (MinimaxOptimizado.scoredMoves
        (MinimaxOptimizado.orderMoves [0, 0, 0, 1, 2, 1, 0, 1, 0]) []
        [0, 0, 0, 1, 2, 1, 0, 1, 0]).map Prod.fst
        <+: MinimaxOptimizado.orderMoves [0, 0, 0, 1, 2, 1, 0, 1, 0] ∧
      (∀ e ∈ pre, Num.lt e.2 v = true ∧ Num.le (Num.fin 90) e.2 = false) ∧
      (∀ e ∈ post, Num.le e.2 v = true) ∧
      (Num.le (Num.fin 90) v = true → post = []) ∧
      (Num.le (Num.fin 90) v = false →
        (MinimaxOptimizado.scoredMoves
          (MinimaxOptimizado.orderMoves [0, 0, 0, 1, 2, 1, 0, 1, 0]) []
          [0, 0, 0, 1, 2, 1, 0, 1, 0]).map Prod.fst =
          MinimaxOptimizado.orderMoves [0, 0, 0, 1, 2, 1, 0, 1, 0]) :=
  ⟨by decide, by decide, by decide,
    completes_false_of_range (by decide) (by decide),
    completes_false_of_range (by decide) (by decide),
    C16_fallback_picks_highest_returned [0, 0, 0, 1, 2, 1, 0, 1, 0] (by decide) (by decide)
      (by decide) (completes_false_of_range (by decide) (by decide))
      (completes_false_of_range (by decide) (by decide))⟩

theorem fast_scores_drawn :
    MinimaxOptimizado.Fast.scoredMoves [0, 0, 2, 0, 2, 1, 1, 0, 0]
      (MinimaxOptimizado.orderMoves [0, 0, 2, 0, 2, 1, 1, 0, 0])
      MinimaxOptimizado.Fast.FTable.empty =
      [(0, Num.fin 0), (8, Num.fin 0), (1, Num.fin 0), (3, Num.fin (-97)),
       (7, Num.fin 96)] := by
  decide!

theorem fast_move_drawn :
    (MinimaxOptimizado.Fast.callSeq MinimaxOptimizado.Fast.FTable.empty
      [[0, 0, 2, 0, 2, 1, 1, 0, 0]]).map Prod.fst = some [7] := by
  decide!

theorem exactValue_drawn :
    MinimaxOptimizado.exactValue 10 [0, 0, 2, 0, 2, 1, 1, 1, 0] 0 false = 0 := by
  decide!

/-- C17 (the early-exit threshold). On a valid board, with a transposition
table reachable from the empty one, every score that `minimax` returns to the
last loop of `findBestMove` of `minimaxOptimizado.js` is an integer that is 0
or between 92 and 100 in absolute value, so it is at least 90 exactly when it
is positive, and when a score is at least 90 the loop returns the cell just
scored. A positive score is not always a forced win of the engine: on the valid
board `[0,0,2,0,2,1,1,0,0]`, from the empty table, the loop obtains the scores
0, 0, 0, -97 for the cells 0, 8, 1, 3 and 96 for cell 7, and `findBestMove`
returns 7, while the depth-aware minimax value of the board after the engine
plays 7 (depth 0, the opponent to move) is 0. -/
theorem C17_threshold_not_forced_win :
    (∀ (T : MinimaxOptimizado.Table) (b : Board), MinimaxOptimizado.Reachable T →
      ValidBoard b →
      ∀ i v, (i, v) ∈ MinimaxOptimizado.scoredMoves (MinimaxOptimizado.orderMoves b)
          (MinimaxOptimizado.cleanTable T) b →
        (∃ n : Int, v = Num.fin n ∧ (n = 0 ∨ (92 ≤ |n| ∧ |n| ≤ 100)) ∧
          (90 ≤ n ↔ 0 < n)) ∧
        (Num.le (Num.fin 90) v = true →
          ∃ T', MinimaxOptimizado.searchLoop (MinimaxOptimizado.orderMoves b)
            (MinimaxOptimizado.cleanTable T) b Num.negInf (-1) =
              some ((i : Int), b, T'))) ∧
    ValidBoard [0, 0, 2, 0, 2, 1, 1, 0, 0] ∧
    MinimaxOptimizado.scoredMoves
      (MinimaxOptimizado.orderMoves [0, 0, 2, 0, 2, 1, 1, 0, 0])
      (MinimaxOptimizado.cleanTable []) [0, 0, 2, 0, 2, 1, 1, 0, 0] =
      [(0, Num.fin 0), (8, Num.fin 0), (1, Num.fin 0), (3, Num.fin (-97)),
       (7, Num.fin 96)] ∧
    (MinimaxOptimizado.findBestMove [] [0, 0, 2, 0, 2, 1, 1, 0, 0]).map Prod.fst =
      some 7 ∧
    [0, 0, 2, 0, 2, 1, 1, 1, 0] = [0, 0, 2, 0, 2, 1, 1, 0, 0].set 7 BOT ∧
    MinimaxOptimizado.exactValue 10 [0, 0, 2, 0, 2, 1, 1, 1, 0] 0 false = 0 := by
  refine ⟨fun T b hT hb i v hiv => ?_, by decide, ?_, ?_, by decide, exactValue_drawn⟩
  · obtain ⟨m, T', h, _, hall⟩ := MinimaxOptimizado.searchLoop_range hb.1
      (MinimaxOptimizado.orderMoves b) (fun i hi => hi) (MinimaxOptimizado.cleanTable T)
      Num.negInf (-1)
      (MinimaxOptimizado.allInRange_cleanTable (MinimaxOptimizado.reachable_allInRange hT))
      (by simp [Num.le])
    obtain ⟨hr, hexit⟩ := hall i v hiv
    refine ⟨?_, fun h90 => ⟨T', by rw [h, hexit h90]⟩⟩
    obtain ⟨n, hn, hrange⟩ := Num.inRange_iff.mp hr
    refine ⟨n, hn, hrange, ?_⟩
    rcases hrange with h0 | ⟨h1, h2⟩
    · omega
    · rcases abs_cases n with ⟨he, _⟩ | ⟨he, _⟩ <;> rw [he] at h1 h2 <;> omega
  · rw [MinimaxOptimizado.cleanTable_nil]
    exact (MinimaxOptimizado.scoredMoves_eq_fast _ (by decide) _
      (fun i hi => (MinimaxOptimizado.mem_orderMoves.mp hi).2) _ _
      MinimaxOptimizado.tRel_empty).trans fast_scores_drawn
  · exact MinimaxOptimizado.findBestMove_of_callSeq
      ((MinimaxOptimizado.callSeq_eq_fast _ (by decide)).trans fast_move_drawn)

theorem C17_threshold_not_forced_win_witness :
    MinimaxOptimizado.Reachable [] ∧ ValidBoard [0, 0, 0, 1, 2, 1, 0, 1, 0] ∧
    ∀ i v, (i, v) ∈ MinimaxOptimizado.scoredMoves
        (MinimaxOptimizado.orderMoves [0, 0, 0, 1, 2, 1, 0, 1, 0])
        (MinimaxOptimizado.cleanTable []) [0, 0, 0, 1, 2, 1, 0, 1, 0] →
      (∃ n : Int, v = Num.fin n ∧ (n = 0 ∨ (92 ≤ |n| ∧ |n| ≤ 100)) ∧ (90 ≤ n ↔ 0 < n)) ∧
      (Num.le (Num.fin 90) v = true →
        ∃ T', MinimaxOptimizado.searchLoop
          (MinimaxOptimizado.orderMoves [0, 0, 0, 1, 2, 1, 0, 1, 0])
          (MinimaxOptimizado.cleanTable []) [0, 0, 0, 1, 2, 1, 0, 1, 0] Num.negInf (-1) =
            some ((i : Int), [0, 0, 0, 1, 2, 1, 0, 1, 0], T')) :=
  ⟨MinimaxOptimizado.Reachable.start, by decide,
    C17_threshold_not_forced_win.1 [] [0, 0, 0, 1, 2, 1, 0, 1, 0]
      MinimaxOptimizado.Reachable.start (by decide)⟩

/-- C18 (move ordering). On a valid board, `orderMoves(board)` of
`minimaxOptimizado.js` is the list `[4,0,2,6,8,1,3,5,7]` with the indices of
the occupied cells left out, in that order: it is a sublist of that list, has
no index twice, holds exactly the indices whose cell is empty, and so has as
many entries as the board has empty cells. -/
theorem C18_orderMoves (b : Board) (hb : ValidBoard b) :
    MinimaxOptimizado.orderMoves b =
      [4, 0, 2, 6, 8, 1, 3, 5, 7].filter (fun i => decide (b[i]? = some 0)) ∧
    (MinimaxOptimizado.orderMoves b).Sublist [4, 0, 2, 6, 8, 1, 3, 5, 7] ∧
    (MinimaxOptimizado.orderMoves b).Nodup ∧
    (∀ i, i ∈ MinimaxOptimizado.orderMoves b ↔ b[i]? = some 0) ∧
    (MinimaxOptimizado.orderMoves b).length = b.count 0 :=
  ⟨rfl, List.filter_sublist _, List.Nodup.filter _ (by decide),
    MinimaxOptimizado.mem_orderMoves_iff hb, MinimaxOptimizado.orderMoves_length hb⟩

theorem C18_orderMoves_witness :
    ValidBoard [1, 0, 0, 2, 2, 0, 0, 0, 0] ∧
    MinimaxOptimizado.orderMoves [1, 0, 0, 2, 2, 0, 0, 0, 0] = [2, 6, 8, 1, 5, 7] ∧
    (MinimaxOptimizado.orderMoves [1, 0, 0, 2, 2, 0, 0, 0, 0]).length =
      List.count 0 [1, 0, 0, 2, 2, 0, 0, 0, 0] :=
  ⟨by decide, by decide,
    (C18_orderMoves [1, 0, 0, 2, 2, 0, 0, 0, 0] (by decide)).2.2.2.2⟩

/-- C19 (the cache key is collision-free). For valid boards `b1`, `b2` and
sides `s1`, `s2`, `getBoardKey(b1, s1) = getBoardKey(b2, s2)` if and only if
`b1 = b2` and `s1 = s2`; the same board with the two sides to move gets two
different keys. -/
theorem C19_getBoardKey_injective (b1 b2 : Board) (s1 s2 : Bool) (h1 : ValidBoard b1)
    (h2 : ValidBoard b2) :
    (MinimaxOptimizado.getBoardKey b1 s1 = MinimaxOptimizado.getBoardKey b2 s2 ↔
      b1 = b2 ∧ s1 = s2) ∧
    MinimaxOptimizado.getBoardKey b1 true ≠ MinimaxOptimizado.getBoardKey b1 false := by
  refine ⟨⟨MinimaxOptimizado.getBoardKey_inj h1 h2, fun ⟨hb, hs⟩ => by rw [hb, hs]⟩, ?_⟩
  intro h
  exact absurd (MinimaxOptimizado.getBoardKey_inj h1 h1 h).2 (by decide)

theorem C19_getBoardKey_injective_witness :
    ValidBoard [0, 1, 0, 2, 0, 0, 0, 0, 0] ∧ ValidBoard [0, 1, 0, 0, 2, 0, 0, 0, 0] ∧
    ((MinimaxOptimizado.getBoardKey [0, 1, 0, 2, 0, 0, 0, 0, 0] true =
        MinimaxOptimizado.getBoardKey [0, 1, 0, 0, 2, 0, 0, 0, 0] false ↔
      [0, 1, 0, 2, 0, 0, 0, 0, 0] = [0, 1, 0, 0, 2, 0, 0, 0, 0] ∧ true = false) ∧
    MinimaxOptimizado.getBoardKey [0, 1, 0, 2, 0, 0, 0, 0, 0] true ≠
      MinimaxOptimizado.getBoardKey [0, 1, 0, 2, 0, 0, 0, 0, 0] false) :=
  ⟨by decide, by decide, C19_getBoardKey_injective [0, 1, 0, 2, 0, 0, 0, 0, 0]
    [0, 1, 0, 0, 2, 0, 0, 0, 0] true false (by decide) (by decide)⟩

/-- C20 (opening-book lookup). On a valid board, whose text `board.join('')`
has 9 digits: when the text is a key of `OPENING_BOOK`, `getOpeningMove` of
`minimaxOptimizado.js` returns the first candidate stored under it whose cell
is empty, and `null` when no candidate is; when the text is not a key it
returns `null`; a cell it returns is empty in the board. -/
theorem C20_getOpeningMove (b : Board) (hb : ValidBoard b) :
    (MinimaxOptimizado.joinBoard b).length = 9 ∧
    (∀ cs, (MinimaxOptimizado.joinBoard b, cs) ∈ MinimaxOptimizado.OPENING_BOOK →
      MinimaxOptimizado.getOpeningMove b =
        cs.find? (fun m => decide (b[m]? = some 0))) ∧
    ((∀ cs, (MinimaxOptimizado.joinBoard b, cs) ∉ MinimaxOptimizado.OPENING_BOOK) →
      MinimaxOptimizado.getOpeningMove b = none) ∧
    (∀ m, MinimaxOptimizado.getOpeningMove b = some m → b[m]? = some 0) := by
  refine ⟨?_, fun cs hcs => ?_, fun hno => ?_, fun m hm => ?_⟩
  · show (MinimaxOptimizado.joinBoard b).data.length = 9
    rw [MinimaxOptimizado.joinBoard_data b hb.2, List.length_map, hb.1]
  · unfold MinimaxOptimizado.getOpeningMove
    rw [MinimaxOptimizado.lookup_of_mem _ _ _ (by decide) hcs]
    exact MinimaxOptimizado.firstEmpty_eq_find b cs
  · unfold MinimaxOptimizado.getOpeningMove
    rw [MinimaxOptimizado.lookup_none_of_not_mem _ _ hno]
  · exact MinimaxOptimizado.getOpeningMove_spec hm

theorem C20_getOpeningMove_witness :
    ValidBoard [0, 0, 0, 0, 2, 0, 0, 0, 0] ∧
    (MinimaxOptimizado.joinBoard [0, 0, 0, 0, 2, 0, 0, 0, 0], [0, 2, 6, 8]) ∈
      MinimaxOptimizado.OPENING_BOOK ∧
    MinimaxOptimizado.getOpeningMove [0, 0, 0, 0, 2, 0, 0, 0, 0] =
      [0, 2, 6, 8].find? (fun m => decide ([0, 0, 0, 0, 2, 0, 0, 0, 0][m]? = some 0)) :=
  ⟨by decide, by decide,
    (C20_getOpeningMove [0, 0, 0, 0, 2, 0, 0, 0, 0] (by decide)).2.1 [0, 2, 6, 8]
      (by decide)⟩

/-! ### The book, the reset of the table and the test of the empty cells -/

/-- C21, as stated, fails: the valid board `[0,0,0,2,0,0,0,0,0]` holds exactly
one marker of the opponent (on the edge 3) and no marker of the engine, and
`getOpeningMove` of `minimaxOptimizado.js` returns null on it. -/
theorem C21_edge_outside_book :
    ValidBoard [0, 0, 0, 2, 0, 0, 0, 0, 0] ∧
    List.count 2 [0, 0, 0, 2, 0, 0, 0, 0, 0] = 1 ∧
    List.count 1 [0, 0, 0, 2, 0, 0, 0, 0, 0] = 0 ∧
    MinimaxOptimizado.getOpeningMove [0, 0, 0, 2, 0, 0, 0, 0, 0] = none := by
  decide

/-- C21, amended. On a valid board `getOpeningMove` of `minimaxOptimizado.js`
returns a move only when the board is empty or holds exactly one marker of the
opponent and no marker of the engine; it returns a move on the empty board and
on the boards whose only marker is a marker of the opponent on the centre, on
the corner 0 or on the corner 8, and it returns null on the boards whose only
marker is a marker of the opponent on the edge 3 or on the edge 5. -/
theorem C21_book_coverage :
    (∀ b : Board, ValidBoard b → MinimaxOptimizado.getOpeningMove b ≠ none →
      b = [0, 0, 0, 0, 0, 0, 0, 0, 0] ∨ (b.count 2 = 1 ∧ b.count 1 = 0)) ∧
    MinimaxOptimizado.getOpeningMove [0, 0, 0, 0, 0, 0, 0, 0, 0] = some 4 ∧
    MinimaxOptimizado.getOpeningMove [0, 0, 0, 0, 2, 0, 0, 0, 0] = some 0 ∧
    MinimaxOptimizado.getOpeningMove [2, 0, 0, 0, 0, 0, 0, 0, 0] = some 4 ∧
    MinimaxOptimizado.getOpeningMove [0, 0, 0, 0, 0, 0, 0, 0, 2] = some 4 ∧
    MinimaxOptimizado.getOpeningMove [0, 0, 0, 2, 0, 0, 0, 0, 0] = none ∧
    MinimaxOptimizado.getOpeningMove [0, 0, 0, 0, 0, 2, 0, 0, 0] = none := by
  refine ⟨fun b hb h => ?_, by decide, by decide, by decide, by decide, by decide,
    by decide⟩
  rcases hm : MinimaxOptimizado.getOpeningMove b with _ | m
  · exact absurd hm h
  · exact MinimaxOptimizado.bookBoards_shape b
      (MinimaxOptimizado.bookBoard_of_getOpeningMove hb hm)

theorem C21_book_coverage_witness :
    ValidBoard [0, 0, 0, 0, 2, 0, 0, 0, 0] ∧
    MinimaxOptimizado.getOpeningMove [0, 0, 0, 0, 2, 0, 0, 0, 0] ≠ none ∧
    ([0, 0, 0, 0, 2, 0, 0, 0, 0] = [0, 0, 0, 0, 0, 0, 0, 0, 0] ∨
      (List.count 2 [0, 0, 0, 0, 2, 0, 0, 0, 0] = 1 ∧
        List.count 1 [0, 0, 0, 0, 2, 0, 0, 0, 0] = 0)) :=
  ⟨by decide, by decide,
    C21_book_coverage.1 [0, 0, 0, 0, 2, 0, 0, 0, 0] (by decide) (by decide)⟩

theorem fast_corner_six :
    (MinimaxOptimizado.Fast.callSeq MinimaxOptimizado.Fast.FTable.empty
      [[0, 0, 0, 0, 0, 0, 2, 0, 0]]).map Prod.fst = some [4] := by
  decide!

/-- C22 (reply to a corner opening). On each of the four boards whose only
marker is a marker of the opponent on a corner (0, 2, 6 or 8), `findBestMove`
of `minimaxOptimizado.js`, started with the empty table, returns 4. -/
theorem C22_corner_reply :
    (MinimaxOptimizado.findBestMove [] [2, 0, 0, 0, 0, 0, 0, 0, 0]).map Prod.fst =
      some 4 ∧
    (MinimaxOptimizado.findBestMove [] [0, 0, 2, 0, 0, 0, 0, 0, 0]).map Prod.fst =
      some 4 ∧
    (MinimaxOptimizado.findBestMove [] [0, 0, 0, 0, 0, 0, 2, 0, 0]).map Prod.fst =
      some 4 ∧
    (MinimaxOptimizado.findBestMove [] [0, 0, 0, 0, 0, 0, 0, 0, 2]).map Prod.fst =
      some 4 := by
  have h0 : MinimaxOptimizado.getOpeningMove [2, 0, 0, 0, 0, 0, 0, 0, 0] = some 4 := by
    decide
  have h8 : MinimaxOptimizado.getOpeningMove [0, 0, 0, 0, 0, 0, 0, 0, 2] = some 4 := by
    decide
  refine ⟨?_, ?_, ?_, ?_⟩
  · unfold MinimaxOptimizado.findBestMove
    rw [h0]
    rfl
  · exact MinimaxOptimizado.findBestMove_of_callSeq_cons
      ((MinimaxOptimizado.callSeq_eq_fast _ (by decide)).trans fast_losing_game)
  · exact MinimaxOptimizado.findBestMove_of_callSeq
      ((MinimaxOptimizado.callSeq_eq_fast _ (by decide)).trans fast_corner_six)
  · unfold MinimaxOptimizado.findBestMove
    rw [h8]
    rfl

/-- C23 (capacity-triggered reset). `findBestMove` of `minimaxOptimizado.js`
called on a table of more than 10000 entries empties it at entry and goes on
as from the empty table; called on a table of at most 10000 entries it leaves
the table as it is at entry, and every entry present at entry is present with
the same score in the table it leaves. -/
theorem C23_capacity_reset (T : MinimaxOptimizado.Table) (b : Board) :
    (10000 < T.size → MinimaxOptimizado.cleanTable T = [] ∧
      MinimaxOptimizado.findBestMove T b = MinimaxOptimizado.findBestMove [] b) ∧
    (T.size ≤ 10000 → MinimaxOptimizado.cleanTable T = T ∧
      ∀ r, MinimaxOptimizado.findBestMove T b = some r →
        ∀ k s, T.get k = some s → r.2.2.get k = some s) := by
  constructor
  · intro h
    have hc : MinimaxOptimizado.cleanTable T = [] := by
      unfold MinimaxOptimizado.cleanTable
      rw [if_pos h]
    refine ⟨hc, ?_⟩
    rw [MinimaxOptimizado.findBestMove_cleanTable T b, hc]
  · intro h
    have hc : MinimaxOptimizado.cleanTable T = T := by
      unfold MinimaxOptimizado.cleanTable
      rw [if_neg (by omega)]
    refine ⟨hc, fun r hr k s hk => ?_⟩
    exact MinimaxOptimizado.findBestMove_keeps hr k s (by rw [hc]; exact hk)

theorem C23_capacity_reset_witness :
    (10000 < MinimaxOptimizado.Table.size
        ((List.range 10001).map (fun i => (toString i, Num.fin 0))) ∧
      MinimaxOptimizado.cleanTable ((List.range 10001).map (fun i => (toString i, Num.fin 0))) =
        []) ∧
    (MinimaxOptimizado.Table.size [("000000000M", Num.fin 0)] ≤ 10000 ∧
      ∀ r, MinimaxOptimizado.findBestMove [("000000000M", Num.fin 0)]
          [0, 0, 0, 0, 1, 0, 0, 0, 2] = some r →
        ∀ k s, MinimaxOptimizado.Table.get [("000000000M", Num.fin 0)] k = some s →
          r.2.2.get k = some s) :=
  ⟨⟨by rw [MinimaxOptimizado.Table.size, List.length_map, List.length_range]; decide,
    ((C23_capacity_reset ((List.range 10001).map (fun i => (toString i, Num.fin 0)))
      [0, 0, 0, 0, 1, 0, 0, 0, 2]).1
      (by rw [MinimaxOptimizado.Table.size, List.length_map, List.length_range]; decide)).1⟩,
   ⟨by decide,
    ((C23_capacity_reset [("000000000M", Num.fin 0)] [0, 0, 0, 0, 1, 0, 0, 0, 2]).2
      (by decide)).2⟩⟩

/-- C24 (the test of the empty cells). `isMovesLeft(board)`, the same function
in `minimaxOptimizado.js` and in `MinimaxLogic.js`, is true exactly when some
cell of the board is 0 and false exactly when no cell is 0, whether or not a
line is completed: on `[1,1,1,2,2,0,0,0,0]`, where the engine holds a line, it
is true, and on the full board `[1,1,1,2,2,1,2,1,2]` it is false. -/
theorem C24_isMovesLeft (b : Board) :
    (isMovesLeft b = true ↔ ∃ i : Nat, b[i]? = some 0) ∧
    (isMovesLeft b = false ↔ ∀ i : Nat, b[i]? ≠ some 0) ∧
    hasLine [1, 1, 1, 2, 2, 0, 0, 0, 0] BOT = true ∧
    isMovesLeft [1, 1, 1, 2, 2, 0, 0, 0, 0] = true ∧
    hasLine [1, 1, 1, 2, 2, 1, 2, 1, 2] BOT = true ∧
    isMovesLeft [1, 1, 1, 2, 2, 1, 2, 1, 2] = false := by
  have h1 : isMovesLeft b = true ↔ ∃ i : Nat, b[i]? = some 0 :=
    isMovesLeft_iff.trans List.mem_iff_getElem?
  refine ⟨h1, ?_, by decide, by decide, by decide, by decide⟩
  rw [← Bool.not_eq_true, h1]
  simp

/-! ### The search and the selector of `MinimaxLogic.js` -/

/-- C25 (alpha-beta equals plain minimax). On a valid board, for every depth
and side to move, `minimax(board, depth, isMax, -Infinity, +Infinity)` of
`MinimaxLogic.js` returns (and leaves the board as it was) the minimax value
`W(board, isMax)` of the search without pruning: `evaluate(board)` if that is
10 or -10, 0 if the board is full, otherwise the maximum (engine to move) or
minimum (opponent to move) of `W` over the boards obtained by placing the
mover's marker on an empty cell. -/
theorem C25_alphabeta_equals_minimax (b : Board) (d : Int) (m : Bool) (fuel : Nat)
    (hb : ValidBoard b) (hfuel : b.count 0 < fuel) :
    MinimaxLogic.minimax b d m Num.negInf Num.posInf =
      some (Num.fin (MinimaxLogic.plainValue fuel b m), b) :=
  MinimaxLogic.logic_minimax_eq_plainValue hb.1 d m
    (by rw [MinimaxLogic.emptyCount_eq_count hb]; exact hfuel)

theorem C25_alphabeta_equals_minimax_witness :
    ValidBoard [1, 0, 0, 0, 2, 0, 0, 0, 0] ∧ List.count 0 [1, 0, 0, 0, 2, 0, 0, 0, 0] < 10 ∧
    MinimaxLogic.minimax [1, 0, 0, 0, 2, 0, 0, 0, 0] 0 true Num.negInf Num.posInf =
      some (Num.fin (MinimaxLogic.plainValue 10 [1, 0, 0, 0, 2, 0, 0, 0, 0] true),
        [1, 0, 0, 0, 2, 0, 0, 0, 0]) :=
  ⟨by decide, by decide,
    C25_alphabeta_equals_minimax [1, 0, 0, 0, 2, 0, 0, 0, 0] 0 true 10 (by decide)
      (by decide)⟩

/-- C26 (the selection of `MinimaxLogic.js`). On a valid board with an empty
cell, `findBestMove` of `MinimaxLogic.js` returns (and leaves the board as it
was) an empty cell `i` whose minimax value, that of the board after the engine
plays `i` with the opponent to move, is the highest among the empty cells, and
every lower empty cell has a strictly lower value. -/
theorem C26_logic_selection (b : Board) (hb : ValidBoard b) (hml : isMovesLeft b = true) :
    ∃ i : Nat, MinimaxLogic.findBestMove b = some ((i : Int), b) ∧ b[i]? = some 0 ∧
      (∀ j, b[j]? = some 0 →
        MinimaxLogic.plainValue 10 (b.set j BOT) false ≤
          MinimaxLogic.plainValue 10 (b.set i BOT) false) ∧
      (∀ j, b[j]? = some 0 → j < i →
        MinimaxLogic.plainValue 10 (b.set j BOT) false <
          MinimaxLogic.plainValue 10 (b.set i BOT) false) :=
  MinimaxLogic.logic_findBestMove_argmax hb.1 hml

theorem C26_logic_selection_witness :
    ValidBoard [2, 1, 2, 1, 2, 1, 0, 0, 2] ∧ isMovesLeft [2, 1, 2, 1, 2, 1, 0, 0, 2] = true ∧
    ∃ i : Nat, MinimaxLogic.findBestMove [2, 1, 2, 1, 2, 1, 0, 0, 2] =
        some ((i : Int), [2, 1, 2, 1, 2, 1, 0, 0, 2]) ∧
      [2, 1, 2, 1, 2, 1, 0, 0, 2][i]? = some 0 ∧
      (∀ j, [2, 1, 2, 1, 2, 1, 0, 0, 2][j]? = some 0 →
        MinimaxLogic.plainValue 10 ([2, 1, 2, 1, 2, 1, 0, 0, 2].set j BOT) false ≤
          MinimaxLogic.plainValue 10 ([2, 1, 2, 1, 2, 1, 0, 0, 2].set i BOT) false) ∧
      (∀ j, [2, 1, 2, 1, 2, 1, 0, 0, 2][j]? = some 0 → j < i →
        MinimaxLogic.plainValue 10 ([2, 1, 2, 1, 2, 1, 0, 0, 2].set j BOT) false <
          MinimaxLogic.plainValue 10 ([2, 1, 2, 1, 2, 1, 0, 0, 2].set i BOT) false) :=
  ⟨by decide, by decide,
    C26_logic_selection [2, 1, 2, 1, 2, 1, 0, 0, 2] (by decide) (by decide)⟩

/-! ### The evaluators, the depth, the window and the entries of the table -/

/-- C32 (depth-insensitive evaluator). On a valid board on which at most one
player holds a completed line, `evaluate(board)` of `MinimaxLogic.js` is 10 if
the engine holds a completed line, -10 if the opponent holds one, and 0 if no
line is completed. -/
theorem C32_evaluate_depth_blind (b : Board) (hb : ValidBoard b)
    (hone : ¬(hasLine b BOT = true ∧ hasLine b OPPONENT = true)) :
    (hasLine b BOT = true → MinimaxLogic.evaluate b = 10) ∧
    (hasLine b OPPONENT = true → MinimaxLogic.evaluate b = -10) ∧
    (hasLine b BOT = false → hasLine b OPPONENT = false → MinimaxLogic.evaluate b = 0) := by
  obtain ⟨h1, h2, h3⟩ := MinimaxOptimizado.evaluate_cases hb 0 hone
  have h := evaluate_ten b
  refine ⟨fun hl => ?_, fun hl => ?_, fun hl1 hl2 => ?_⟩
  · have := h1 hl
    omega
  · have := h2 hl
    omega
  · have := h3 hl1 hl2
    omega

theorem C32_evaluate_depth_blind_witness :
    ValidBoard [2, 0, 1, 0, 2, 1, 0, 0, 2] ∧
    ¬(hasLine [2, 0, 1, 0, 2, 1, 0, 0, 2] BOT = true ∧
      hasLine [2, 0, 1, 0, 2, 1, 0, 0, 2] OPPONENT = true) ∧
    hasLine [2, 0, 1, 0, 2, 1, 0, 0, 2] OPPONENT = true ∧
    MinimaxLogic.evaluate [2, 0, 1, 0, 2, 1, 0, 0, 2] = -10 :=
  ⟨by decide, by decide, by decide,
    (C32_evaluate_depth_blind [2, 0, 1, 0, 2, 1, 0, 0, 2] (by decide) (by decide)).2.1
      (by decide)⟩

/-- C34 (the two evaluators agree at depth 0). On a valid board,
`evaluate(board, 0)` of `minimaxOptimizado.js` is 10 times `evaluate(board)` of
`MinimaxLogic.js`; it is positive exactly when the latter is 10 and negative
exactly when the latter is -10, which are the tests of the win scan and of the
block scan. -/
theorem C34_evaluators_agree (b : Board) (hb : ValidBoard b) :
    MinimaxOptimizado.evaluate b 0 = 10 * MinimaxLogic.evaluate b ∧
    (0 < MinimaxOptimizado.evaluate b 0 ↔ MinimaxLogic.evaluate b = 10) ∧
    (MinimaxOptimizado.evaluate b 0 < 0 ↔ MinimaxLogic.evaluate b = -10) := by
  have _ := hb
  have h := evaluate_ten b
  have h3 := logic_evaluate_three b
  refine ⟨h, ?_, ?_⟩ <;> omega

theorem C34_evaluators_agree_witness :
    ValidBoard [1, 1, 1, 2, 2, 0, 0, 0, 0] ∧
    MinimaxOptimizado.evaluate [1, 1, 1, 2, 2, 0, 0, 0, 0] 0 =
      10 * MinimaxLogic.evaluate [1, 1, 1, 2, 2, 0, 0, 0, 0] ∧
    (0 < MinimaxOptimizado.evaluate [1, 1, 1, 2, 2, 0, 0, 0, 0] 0 ↔
      MinimaxLogic.evaluate [1, 1, 1, 2, 2, 0, 0, 0, 0] = 10) ∧
    (MinimaxOptimizado.evaluate [1, 1, 1, 2, 2, 0, 0, 0, 0] 0 < 0 ↔
      MinimaxLogic.evaluate [1, 1, 1, 2, 2, 0, 0, 0, 0] = -10) :=
  ⟨by decide, C34_evaluators_agree [1, 1, 1, 2, 2, 0, 0, 0, 0] (by decide)⟩

/-- C33 (the window update matches the specified one). The search of
`minimaxOptimizado.js` with the window updated by the running best
(`alpha = max(alpha, best)`, `beta = min(beta, best)`) in both loops is the
same function as the search with the window updated by the child's result: for
every table, board, depth, side and window it returns the same score, the same
board and the same table, and inside a node the two loops take the same steps
as long as the best so far is within the window's moving bound, which holds
from the start of each loop. -/
theorem C33_window_update (T : MinimaxOptimizado.Table) (b : Board) (d : Int) (m : Bool)
    (α β : Num) :
    (∀ fuel, MinimaxOptimizado.specMinimaxFuel fuel T b d m α β =
      MinimaxOptimizado.minimaxFuel fuel T b d m α β) ∧
    (∀ (call : MinimaxOptimizado.Search) (ms : List Nat) (best : Num),
      Num.le best α = true →
      MinimaxOptimizado.specMaxLoop call d ms T b best α β =
        MinimaxOptimizado.maxLoop call d ms T b best α β) ∧
    (∀ (call : MinimaxOptimizado.Search) (ms : List Nat) (best : Num),
      Num.le β best = true →
      MinimaxOptimizado.specMinLoop call d ms T b best α β =
        MinimaxOptimizado.minLoop call d ms T b best α β) :=
  ⟨fun fuel => by rw [MinimaxOptimizado.specMinimaxFuel_eq],
    fun call ms best h => MinimaxOptimizado.specMaxLoop_eq call d ms T b best α β h,
    fun call ms best h => MinimaxOptimizado.specMinLoop_eq call d ms T b best α β h⟩

theorem C33_window_update_witness :
    Num.le Num.negInf (Num.fin 0) = true ∧
    MinimaxOptimizado.specMaxLoop (MinimaxOptimizado.minimaxFuel 9) 0 [2, 5] []
        [1, 1, 0, 2, 2, 0, 1, 2, 1] Num.negInf (Num.fin 0) Num.posInf =
      MinimaxOptimizado.maxLoop (MinimaxOptimizado.minimaxFuel 9) 0 [2, 5] []
        [1, 1, 0, 2, 2, 0, 1, 2, 1] Num.negInf (Num.fin 0) Num.posInf :=
  ⟨by decide, (C33_window_update [] [1, 1, 0, 2, 2, 0, 1, 2, 1] 0 true (Num.fin 0)
    Num.posInf).2.1 (MinimaxOptimizado.minimaxFuel 9) [2, 5] Num.negInf (by decide)⟩

/-- C37 (entries are written once). For every table, board, depth, side and
window, `minimax` of `minimaxOptimizado.js` returns, and in the table it leaves
every key present on entry is present with the score it had, so that only keys
absent on entry are added; when the key of the call's own board and side is
present on entry the table is left as it was. -/
theorem C37_write_once (T : MinimaxOptimizado.Table) (b : Board) (d : Int) (m : Bool)
    (α β : Num) (hb : ValidBoard b) :
    ∃ v T', MinimaxOptimizado.minimax T b d m α β = some (v, b, T') ∧
      (∀ k s, T.get k = some s → T'.get k = some s) ∧
      (∀ k, T'.get k ≠ T.get k → T.get k = none) ∧
      (∀ s, T.get (MinimaxOptimizado.getBoardKey b m) = some s → T' = T) := by
  have _ := hb
  obtain ⟨v, T', h, _⟩ := MinimaxOptimizado.minimax_spec T b d m α β
  have hkeep := MinimaxOptimizado.minimaxFuel_keeps _ _ _ _ _ _ _ _ h
  refine ⟨v, T', h, hkeep, fun k hk => ?_, fun s hs => ?_⟩
  · cases hT : T.get k with
    | none => rfl
    | some s => exact absurd (by rw [hT]; exact hkeep k s hT) hk
  · have hhit : MinimaxOptimizado.minimax T b d m α β = some (s, b, T) :=
      MinimaxOptimizado.minimaxFuel_hit hs
    rw [hhit] at h
    simp only [Option.some.injEq, Prod.mk.injEq] at h
    exact h.2.2.symm

theorem C37_write_once_witness :
    ValidBoard [1, 2, 1, 2, 1, 2, 2, 1, 0] ∧
    ∃ v T', MinimaxOptimizado.minimax [("121212212M", Num.fin 7)]
        [1, 2, 1, 2, 1, 2, 2, 1, 0] 0 true Num.negInf Num.posInf =
          some (v, [1, 2, 1, 2, 1, 2, 2, 1, 0], T') ∧
      (∀ k s, MinimaxOptimizado.Table.get [("121212212M", Num.fin 7)] k = some s →
        T'.get k = some s) ∧
      (∀ k, T'.get k ≠ MinimaxOptimizado.Table.get [("121212212M", Num.fin 7)] k →
        MinimaxOptimizado.Table.get [("121212212M", Num.fin 7)] k = none) ∧
      (∀ s, MinimaxOptimizado.Table.get [("121212212M", Num.fin 7)]
          (MinimaxOptimizado.getBoardKey [1, 2, 1, 2, 1, 2, 2, 1, 0] true) = some s →
        T' = [("121212212M", Num.fin 7)]) :=
  ⟨by decide, C37_write_once [("121212212M", Num.fin 7)] [1, 2, 1, 2, 1, 2, 2, 1, 0] 0 true
    Num.negInf Num.posInf (by decide)⟩

/-- C38 (the search of `MinimaxLogic.js` ignores the depth). On a valid board,
for every side to move and window, `minimax` of `MinimaxLogic.js` returns the
same result for any two depth arguments. -/
theorem C38_depth_ignored (b : Board) (d d' : Int) (m : Bool) (α β : Num)
    (hb : ValidBoard b) :
    MinimaxLogic.minimax b d m α β = MinimaxLogic.minimax b d' m α β ∧
    ∃ v, MinimaxLogic.minimax b d m α β = some (v, b) := by
  have _ := hb
  obtain ⟨v, hv, _⟩ := MinimaxLogic.logic_minimax_spec b d m α β
  exact ⟨MinimaxLogic.logic_minimaxFuel_depth _ b d d' m α β, v, hv⟩

theorem C38_depth_ignored_witness :
    ValidBoard [1, 2, 2, 1, 0, 0, 0, 0, 0] ∧
    MinimaxLogic.minimax [1, 2, 2, 1, 0, 0, 0, 0, 0] 0 true Num.negInf Num.posInf =
      MinimaxLogic.minimax [1, 2, 2, 1, 0, 0, 0, 0, 0] 5 true Num.negInf Num.posInf ∧
    ∃ v, MinimaxLogic.minimax [1, 2, 2, 1, 0, 0, 0, 0, 0] 0 true Num.negInf Num.posInf =
      some (v, [1, 2, 2, 1, 0, 0, 0, 0, 0]) :=
  ⟨by decide, C38_depth_ignored [1, 2, 2, 1, 0, 0, 0, 0, 0] 0 5 true Num.negInf Num.posInf
    (by decide)⟩

/-- C39, as stated, fails. `playMoves([9], 1)` throws 'Casilla 9 ya está
ocupada' although no index occurs twice in the list: the cell 9 is outside the
board and does not read 0. And `playMoves([3, 3], 0)` returns the board
`[0,0,0,1,0,0,0,0,0]` although the index 3 occurs twice: the marker 0 of the
first move leaves the cell empty. -/
theorem C39_moves_outside_the_board :
    TestUtils.playMoves [9] BOT = Except.error (TestUtils.occupied 9) ∧
    [9].Nodup ∧
    TestUtils.playMoves [3, 3] 0 = Except.ok [0, 0, 0, 1, 0, 0, 0, 0, 0] ∧
    ¬[3, 3].Nodup := by
  refine ⟨rfl, by decide, rfl, by decide⟩

/-- C39, amended (the moves of `playMoves`). For a list of moves that are
indices of cells (0 to 8) and a starting player 1 or 2, `playMoves(moves, startTurn)` of
`testUtils.js` throws exactly when some index occurs in the list after an
earlier occurrence of the same index, and the error is 'Casilla m ya está
ocupada' for the first such repeated move `m`; otherwise it returns the board
of 9 cells in which the cell of the move number `k` (from 0) holds the starting
player when `k` is even and the other player when `k` is odd, and every other
cell is 0. -/
theorem C39_playMoves (moves : List Nat) (s : Nat) (hs : s = BOT ∨ s = OPPONENT)
    (hm : ∀ x ∈ moves, x < 9) :
    ((∃ e, TestUtils.playMoves moves s = Except.error e) ↔ ¬moves.Nodup) ∧
    (∀ pre m post, moves = pre ++ m :: post → pre.Nodup → m ∈ pre →
      TestUtils.playMoves moves s = Except.error (TestUtils.occupied m)) ∧
    (moves.Nodup → ∃ board, TestUtils.playMoves moves s = Except.ok board ∧
      board.length = 9 ∧
      (∀ k x, moves[k]? = some x → board[x]? = some (TestUtils.turnAt s k)) ∧
      (∀ c, c < 9 → c ∉ moves → board[c]? = some 0)) := by
  have herr : ∀ pre m post, moves = pre ++ m :: post → pre.Nodup → m ∈ pre →
      TestUtils.playMoves moves s = Except.error (TestUtils.occupied m) := by
    intro pre m post hl hpre hmem
    rw [hl]
    exact TestUtils.playLoop_error pre _ s m post hs hpre
      (fun x hx => TestUtils.empty_getElem?
        (hm x (by rw [hl]; exact List.mem_append_left _ hx))) (Or.inl hmem)
  have hok : moves.Nodup → ∃ board, TestUtils.playMoves moves s = Except.ok board ∧
      board.length = 9 ∧
      (∀ k x, moves[k]? = some x → board[x]? = some (TestUtils.turnAt s k)) ∧
      (∀ c, c < 9 → c ∉ moves → board[c]? = some 0) := by
    intro hnd
    obtain ⟨b', hb', hlen, hmoves, hrest⟩ := TestUtils.playLoop_ok moves
      [0, 0, 0, 0, 0, 0, 0, 0, 0] s hs hnd (fun x hx => TestUtils.empty_getElem? (hm x hx))
    exact ⟨b', hb', hlen, hmoves, fun c hc hcm => by
      rw [hrest c hcm]; exact TestUtils.empty_getElem? hc⟩
  refine ⟨⟨fun ⟨e, he⟩ hnd => ?_, fun hnd => ?_⟩, herr, hok⟩
  · obtain ⟨board, hboard, _⟩ := hok hnd
    rw [hboard] at he
    exact absurd he (by simp)
  · obtain ⟨pre, m, post, hl, hpre, hmem⟩ := TestUtils.first_repeat moves hnd
    exact ⟨_, herr pre m post hl hpre hmem⟩

theorem C39_playMoves_witness :
    (BOT = BOT ∨ BOT = OPPONENT) ∧ (∀ x ∈ [4, 0, 2, 6], x < 9) ∧
    TestUtils.playMoves [4, 0, 2, 6] BOT = Except.ok [2, 0, 1, 0, 1, 0, 2, 0, 0] ∧
    ((∃ e, TestUtils.playMoves [4, 0, 2, 6] BOT = Except.error e) ↔
      ¬[4, 0, 2, 6].Nodup) :=
  ⟨Or.inl rfl, by decide, rfl,
    (C39_playMoves [4, 0, 2, 6] BOT (Or.inl rfl) (by decide)).1⟩

/-! ### Bounds on the minimax value of concrete boards -/

namespace MinimaxLogic

theorem cert_centre : atLeast 0 10 [0, 0, 0, 0, 1, 0, 0, 0, 0] false = true := by
  decide!

theorem cert_corner : atLeast 0 10 [1, 0, 0, 0, 0, 0, 0, 0, 0] false = true := by
  decide!

theorem cert_empty : atMost 0 10 [0, 0, 0, 0, 0, 0, 0, 0, 0] true = true := by
  decide!

theorem cert_book4 : atMost 0 10 [0, 0, 0, 0, 2, 0, 0, 0, 0] true = true := by
  decide!

theorem cert_book0 : atMost 0 10 [2, 0, 0, 0, 0, 0, 0, 0, 0] true = true := by
  decide!

theorem cert_book1 : atMost 0 10 [0, 2, 0, 0, 0, 0, 0, 0, 0] true = true := by
  decide!

theorem cert_book8 : atMost 0 10 [0, 0, 0, 0, 0, 0, 0, 0, 2] true = true := by
  decide!

theorem cert_book7 : atMost 0 10 [0, 0, 0, 0, 0, 0, 0, 2, 0] true = true := by
  decide!

theorem cert_reply4 : atLeast 0 10 [1, 0, 0, 0, 2, 0, 0, 0, 0] false = true := by
  decide!

theorem cert_reply0 : atLeast 0 10 [2, 0, 0, 0, 1, 0, 0, 0, 0] false = true := by
  decide!

theorem cert_reply1 : atLeast 0 10 [0, 2, 0, 0, 1, 0, 0, 0, 0] false = true := by
  decide!

theorem cert_reply8 : atLeast 0 10 [0, 0, 0, 0, 1, 0, 0, 0, 2] false = true := by
  decide!

theorem cert_reply7 : atLeast 0 10 [0, 0, 0, 0, 1, 0, 0, 2, 0] false = true := by
  decide!

theorem cert_open2 : atLeast 0 10 [0, 0, 2, 0, 0, 0, 0, 0, 0] true = true := by
  decide!

theorem cert_open3 : atLeast 0 10 [0, 0, 0, 2, 0, 0, 0, 0, 0] true = true := by
  decide!

theorem cert_open5 : atLeast 0 10 [0, 0, 0, 0, 0, 2, 0, 0, 0] true = true := by
  decide!

theorem cert_open6 : atLeast 0 10 [0, 0, 0, 0, 0, 0, 2, 0, 0] true = true := by
  decide!

theorem cert_play1 : atLeast 10 10 [1, 1, 0, 0, 0, 0, 0, 0, 0] false = true := by
  decide!

theorem cert_play2 : atMost 0 10 [1, 2, 1, 0, 0, 0, 0, 0, 0] false = true := by
  decide!

theorem cert_play3 : atLeast 10 10 [1, 2, 0, 1, 0, 0, 0, 0, 0] false = true := by
  decide!

theorem cert_play4 : atLeast 10 10 [1, 2, 1, 1, 0, 0, 0, 0, 0] false = true := by
  decide!

theorem cert_play5 : atLeast 10 10 [1, 2, 2, 1, 1, 0, 0, 0, 0] false = true := by
  decide!

theorem cert_diagonal : atLeast 10 10 [1, 1, 2, 0, 1, 0, 2, 0, 0] false = true := by
  decide!

theorem cert_cross0 : atLeast 0 10 [1, 0, 2, 0, 2, 0, 1, 0, 0] false = true := by
  decide!

theorem cert_cross : atMost 0 10 [0, 0, 2, 0, 2, 0, 1, 0, 0] true = true := by
  decide!

theorem cert_cross7 : atMost (-10) 10 [0, 0, 2, 0, 2, 0, 1, 1, 0] false = true := by
  decide!

theorem cert_advanced7 : atLeast 0 10 [1, 2, 1, 1, 2, 2, 0, 1, 0] false = true := by
  decide!

theorem cert_advanced7_le : atMost 0 10 [1, 2, 1, 1, 2, 2, 0, 1, 0] false = true := by
  decide!

theorem cert_advanced8 : atMost (-10) 10 [1, 2, 1, 1, 2, 2, 0, 0, 1] false = true := by
  decide!

/-- The engine to move on the empty board does not lose. -/
theorem value_empty_max : 0 ≤ plainValue 10 [0, 0, 0, 0, 0, 0, 0, 0, 0] true :=
  le_trans (atLeast_sound 0 10 _ false (by decide) cert_centre)
    (value_max_ge (b := [0, 0, 0, 0, 0, 0, 0, 0, 0]) (x := 4) rfl (by decide) (by decide))

/-- The engine to move after a first move of the opponent does not lose. -/
theorem value_book {b : Board} {m : Nat} (hb : ValidBoard b)
    (hs : ¬(evaluate b = 10 ∨ evaluate b = -10)) (hm : b[m]? = some 0)
    (h : atLeast 0 10 (b.set m BOT) false = true) : 0 ≤ plainValue 10 b true :=
  le_trans (atLeast_sound 0 10 _ false (validBoard_set hb (by decide)) h)
    (value_max_ge hb.1 hs hm)

/-- The opponent to move on the empty board does not win. -/
theorem value_empty_min : 0 ≤ plainValue 10 [0, 0, 0, 0, 0, 0, 0, 0, 0] false := by
  refine value_min_ge (b := [0, 0, 0, 0, 0, 0, 0, 0, 0]) rfl (by decide) (by decide) 0
    (fun x hx => ?_)
  have hx9 : x < 9 := lt_nine_of_empty (b := [0, 0, 0, 0, 0, 0, 0, 0, 0]) rfl hx
  interval_cases x
  · exact value_book (b := [2, 0, 0, 0, 0, 0, 0, 0, 0]) (m := 4) (by decide) (by decide)
      (by decide) cert_reply0
  · exact value_book (b := [0, 2, 0, 0, 0, 0, 0, 0, 0]) (m := 4) (by decide) (by decide)
      (by decide) cert_reply1
  · exact atLeast_sound 0 10 _ true (by decide) cert_open2
  · exact atLeast_sound 0 10 _ true (by decide) cert_open3
  · exact value_book (b := [0, 0, 0, 0, 2, 0, 0, 0, 0]) (m := 0) (by decide) (by decide)
      (by decide) cert_reply4
  · exact atLeast_sound 0 10 _ true (by decide) cert_open5
  · exact atLeast_sound 0 10 _ true (by decide) cert_open6
  · exact value_book (b := [0, 0, 0, 0, 0, 0, 0, 2, 0]) (m := 4) (by decide) (by decide)
      (by decide) cert_reply7
  · exact value_book (b := [0, 0, 0, 0, 0, 0, 0, 0, 2]) (m := 4) (by decide) (by decide)
      (by decide) cert_reply8

/-- The selector returns the lowest empty cell after which the engine does not
lose, when the engine cannot win and loses after the lower empty cells. -/
theorem logic_findBestMove_draw {b : Board} (hb : ValidBoard b)
    (hs : ¬(evaluate b = 10 ∨ evaluate b = -10)) {i : Nat} (hi : b[i]? = some 0)
    (h0 : atLeast 0 10 (b.set i BOT) false = true)
    (hlow : ∀ j, j < i → b[j]? = some 0 → plainValue 10 (b.set j BOT) false < 0)
    (hle : atMost 0 10 b true = true) : findBestMove b = some ((i : Int), b) :=
  logic_findBestMove_eq hb.1 hi 0
    (atLeast_sound 0 10 _ false (validBoard_set hb (by decide)) h0) hlow
    (fun j _ hj => le_trans (value_max_ge hb.1 hs hj) (atMost_sound 0 10 b true hb hle))

/-- On the empty board the selector returns the cell 0. -/
theorem logic_opening :
    findBestMove [0, 0, 0, 0, 0, 0, 0, 0, 0] = some (0, [0, 0, 0, 0, 0, 0, 0, 0, 0]) :=
  logic_findBestMove_draw (b := [0, 0, 0, 0, 0, 0, 0, 0, 0]) (i := 0) (by decide) (by decide)
    (by decide) cert_corner (fun j hj _ => absurd hj (Nat.not_lt_zero j)) cert_empty

/-- The selector returns the lowest empty cell when the engine wins by force
after it and every lower cell is occupied. -/
theorem logic_findBestMove_first {b : Board} (hb : ValidBoard b) {i : Nat}
    (hi : b[i]? = some 0) (h0 : atLeast 10 10 (b.set i BOT) false = true)
    (hlow : ∀ j, j < i → b[j]? ≠ some 0) : findBestMove b = some ((i : Int), b) :=
  logic_findBestMove_win hb.1 hi
    (atLeast_sound 10 10 _ false (validBoard_set hb (by decide)) h0)
    (fun j hj hj0 => absurd hj0 (hlow j hj))

theorem logic_play1 :
    findBestMove [1, 0, 0, 0, 0, 0, 0, 0, 0] = some (1, [1, 0, 0, 0, 0, 0, 0, 0, 0]) :=
  logic_findBestMove_first (b := [1, 0, 0, 0, 0, 0, 0, 0, 0]) (i := 1) (by decide) (by decide)
    cert_play1 (fun j hj => by interval_cases j <;> decide)

theorem logic_play2 :
    findBestMove [1, 2, 0, 0, 0, 0, 0, 0, 0] = some (3, [1, 2, 0, 0, 0, 0, 0, 0, 0]) :=
  logic_findBestMove_win (b := [1, 2, 0, 0, 0, 0, 0, 0, 0]) (i := 3) rfl (by decide)
    (atLeast_sound 10 10 _ false (by decide) cert_play3)
    (fun j hj hj0 => by
      interval_cases j
      · exact absurd hj0 (by decide)
      · exact absurd hj0 (by decide)
      · exact atMost_sound 0 10 _ false (by decide) cert_play2)

theorem logic_play3 :
    findBestMove [1, 2, 0, 1, 0, 0, 0, 0, 0] = some (2, [1, 2, 0, 1, 0, 0, 0, 0, 0]) :=
  logic_findBestMove_first (b := [1, 2, 0, 1, 0, 0, 0, 0, 0]) (i := 2) (by decide) (by decide)
    cert_play4 (fun j hj => by interval_cases j <;> decide)

theorem logic_play4 :
    findBestMove [1, 2, 2, 1, 0, 0, 0, 0, 0] = some (4, [1, 2, 2, 1, 0, 0, 0, 0, 0]) :=
  logic_findBestMove_first (b := [1, 2, 2, 1, 0, 0, 0, 0, 0]) (i := 4) (by decide) (by decide)
    cert_play5 (fun j hj => by interval_cases j <;> decide)

theorem logic_play5 :
    findBestMove [1, 2, 2, 1, 1, 0, 0, 0, 0] = some (5, [1, 2, 2, 1, 1, 0, 0, 0, 0]) :=
  logic_findBestMove_first (b := [1, 2, 2, 1, 1, 0, 0, 0, 0]) (i := 5) (by decide) (by decide)
    (by decide) (fun j hj => by interval_cases j <;> decide)

theorem logic_play6 :
    findBestMove [1, 2, 2, 1, 1, 2, 0, 0, 0] = some (6, [1, 2, 2, 1, 1, 2, 0, 0, 0]) :=
  logic_findBestMove_first (b := [1, 2, 2, 1, 1, 2, 0, 0, 0]) (i := 6) (by decide) (by decide)
    (by decide) (fun j hj => by interval_cases j <;> decide)

theorem logic_diagonal :
    findBestMove [1, 0, 2, 0, 1, 0, 2, 0, 0] = some (1, [1, 0, 2, 0, 1, 0, 2, 0, 0]) :=
  logic_findBestMove_first (b := [1, 0, 2, 0, 1, 0, 2, 0, 0]) (i := 1) (by decide) (by decide)
    cert_diagonal (fun j hj => by interval_cases j <;> decide)

theorem logic_advanced :
    findBestMove [1, 2, 1, 1, 2, 2, 0, 0, 0] = some (6, [1, 2, 1, 1, 2, 2, 0, 0, 0]) :=
  logic_findBestMove_first (b := [1, 2, 1, 1, 2, 2, 0, 0, 0]) (i := 6) (by decide) (by decide)
    (by decide) (fun j hj => by interval_cases j <;> decide)

theorem logic_cross :
    findBestMove [0, 0, 2, 0, 2, 0, 1, 0, 0] = some (0, [0, 0, 2, 0, 2, 0, 1, 0, 0]) :=
  logic_findBestMove_draw (b := [0, 0, 2, 0, 2, 0, 1, 0, 0]) (i := 0) (by decide) (by decide)
    (by decide) cert_cross0 (fun j hj _ => absurd hj (Nat.not_lt_zero j)) cert_cross

end MinimaxLogic

namespace MinimaxLogic

/-- The reply `m` has the highest minimax value among the empty cells when the
engine cannot win on the board and does not lose after the reply. -/
theorem reply_optimal {b : Board} (hb : ValidBoard b)
    (hs : ¬(evaluate b = 10 ∨ evaluate b = -10)) {m : Nat}
    (hle : atMost 0 10 b true = true) (hge : atLeast 0 10 (b.set m BOT) false = true) :
    ∀ j, b[j]? = some 0 →
      plainValue 10 (b.set j BOT) false ≤ plainValue 10 (b.set m BOT) false :=
  fun _ hj => le_trans (le_trans (value_max_ge hb.1 hs hj) (atMost_sound 0 10 b true hb hle))
    (atLeast_sound 0 10 _ false (validBoard_set hb (by decide)) hge)

end MinimaxLogic

namespace TestUtils

/-- One round of the loop of `simulateGame` with the selector of
`MinimaxLogic.js` as both strategies. -/
theorem simulateLoop_step (n : Nat) (board : Board) (turn moves i : Nat)
    (hgo : isMovesLeft board = true ∧ MinimaxLogic.evaluate board = 0)
    (hf : MinimaxLogic.findBestMove board = some ((i : Int), board))
    (hi : board[i]? = some 0) (h8 : i ≤ 8) :
    simulateLoop logicStrategy logicStrategy (n + 1) board turn moves =
      simulateLoop logicStrategy logicStrategy n (board.set i turn)
        (if turn = BOT then OPPONENT else BOT) (moves + 1) := by
  rw [simulateLoop, if_pos hgo]
  have hs : (if turn = BOT then logicStrategy board else logicStrategy board) =
      some (i : Int) := by
    rw [ite_self, logicStrategy, hf]
    rfl
  rw [hs]
  simp only [Int.toNat_ofNat]
  have hc : ¬((i : Int) < 0 ∨ 8 < (i : Int) ∨ board[i]? ≠ some 0) := by
    intro h
    rcases h with h | h | h
    · omega
    · omega
    · exact h hi
  rw [if_neg hc]

/-- The game of the selector of `MinimaxLogic.js` against itself. -/
theorem simulateLoop_logic :
    simulateLoop logicStrategy logicStrategy 9 [0, 0, 0, 0, 0, 0, 0, 0, 0] BOT 0 =
      some ([1, 2, 2, 1, 1, 2, 1, 0, 0], 7) :=
  calc simulateLoop logicStrategy logicStrategy 9 [0, 0, 0, 0, 0, 0, 0, 0, 0] BOT 0
      = simulateLoop logicStrategy logicStrategy 8 [1, 0, 0, 0, 0, 0, 0, 0, 0] OPPONENT 1 :=
        simulateLoop_step 8 _ BOT 0 0 (by decide) MinimaxLogic.logic_opening (by decide)
          (by decide)
    _ = simulateLoop logicStrategy logicStrategy 7 [1, 2, 0, 0, 0, 0, 0, 0, 0] BOT 2 :=
        simulateLoop_step 7 _ OPPONENT 1 1 (by decide) MinimaxLogic.logic_play1 (by decide)
          (by decide)
    _ = simulateLoop logicStrategy logicStrategy 6 [1, 2, 0, 1, 0, 0, 0, 0, 0] OPPONENT 3 :=
        simulateLoop_step 6 _ BOT 2 3 (by decide) MinimaxLogic.logic_play2 (by decide)
          (by decide)
    _ = simulateLoop logicStrategy logicStrategy 5 [1, 2, 2, 1, 0, 0, 0, 0, 0] BOT 4 :=
        simulateLoop_step 5 _ OPPONENT 3 2 (by decide) MinimaxLogic.logic_play3 (by decide)
          (by decide)
    _ = simulateLoop logicStrategy logicStrategy 4 [1, 2, 2, 1, 1, 0, 0, 0, 0] OPPONENT 5 :=
        simulateLoop_step 4 _ BOT 4 4 (by decide) MinimaxLogic.logic_play4 (by decide)
          (by decide)
    _ = simulateLoop logicStrategy logicStrategy 3 [1, 2, 2, 1, 1, 2, 0, 0, 0] BOT 6 :=
        simulateLoop_step 3 _ OPPONENT 5 5 (by decide) MinimaxLogic.logic_play5 (by decide)
          (by decide)
    _ = simulateLoop logicStrategy logicStrategy 2 [1, 2, 2, 1, 1, 2, 1, 0, 0] OPPONENT 7 :=
        simulateLoop_step 2 _ BOT 6 6 (by decide) MinimaxLogic.logic_play6 (by decide)
          (by decide)
    _ = some ([1, 2, 2, 1, 1, 2, 1, 0, 0], 7) := by
        rw [simulateLoop, if_neg (by decide)]

/-- The result of `simulateGame` from the board and the count that the loop
leaves. -/
theorem simulateGame_of_loop {botStrategy opponentStrategy : Board → Option Int}
    {board : Board} {moves : Nat}
    (h : simulateLoop botStrategy opponentStrategy 9 [0, 0, 0, 0, 0, 0, 0, 0, 0] BOT 0 =
      some (board, moves)) :
    simulateGame botStrategy opponentStrategy =
      some (GameResult.mk
        (if MinimaxLogic.evaluate board = -10 then "OPPONENT"
          else if MinimaxLogic.evaluate board = 10 then "BOT" else "DRAW")
        moves board (MinimaxLogic.evaluate board)) := by
  unfold simulateGame
  rw [h]

end TestUtils

theorem fast_cross :
    (MinimaxOptimizado.Fast.callSeq MinimaxOptimizado.Fast.FTable.empty
      [[0, 0, 2, 0, 2, 0, 1, 0, 0]]).map Prod.fst = some [7] := by
  decide!

/-! ### The games and the choices of the selector of `MinimaxLogic.js` -/

/-- C27 (the engine of `MinimaxLogic.js` never loses). In every game from the
empty board in which the engine, when it is to move on a board with an empty
cell where `evaluate` is 0, puts its marker on the cell that `findBestMove` of
`MinimaxLogic.js` returns, and the opponent puts its marker on an arbitrary
empty cell, whichever side moves first, every board reached is valid and holds
no line of three markers of the opponent, so `evaluate` is never -10; and when
the engine is to move, `findBestMove` returns an empty cell and leaves the
board as it was, so the game goes on. -/
theorem C27_logic_never_loses (b : Board) (t : Bool) (h : MinimaxLogic.Reached b t) :
    ValidBoard b ∧ hasLine b OPPONENT = false ∧ MinimaxLogic.evaluate b ≠ -10 ∧
    (t = true → isMovesLeft b = true → MinimaxLogic.evaluate b = 0 →
      ∃ i : Nat, MinimaxLogic.findBestMove b = some ((i : Int), b) ∧ b[i]? = some 0) := by
  obtain ⟨hb, hno, _⟩ := MinimaxLogic.reached_invariant MinimaxLogic.value_empty_max
    MinimaxLogic.value_empty_min h
  refine ⟨hb, hno, ?_, fun _ hml _ => ?_⟩
  · have := MinimaxLogic.evaluate_nonneg hb hno
    omega
  · obtain ⟨i, hi, hi0, _⟩ := MinimaxLogic.logic_findBestMove_argmax hb.1 hml
    exact ⟨i, hi, hi0⟩

theorem C27_logic_never_loses_witness :
    MinimaxLogic.Reached [1, 2, 0, 0, 0, 0, 0, 0, 0] true ∧
    ValidBoard [1, 2, 0, 0, 0, 0, 0, 0, 0] ∧
    hasLine [1, 2, 0, 0, 0, 0, 0, 0, 0] OPPONENT = false ∧
    MinimaxLogic.evaluate [1, 2, 0, 0, 0, 0, 0, 0, 0] ≠ -10 ∧
    (true = true → isMovesLeft [1, 2, 0, 0, 0, 0, 0, 0, 0] = true →
      MinimaxLogic.evaluate [1, 2, 0, 0, 0, 0, 0, 0, 0] = 0 →
      ∃ i : Nat, MinimaxLogic.findBestMove [1, 2, 0, 0, 0, 0, 0, 0, 0] =
        some ((i : Int), [1, 2, 0, 0, 0, 0, 0, 0, 0]) ∧
        [1, 2, 0, 0, 0, 0, 0, 0, 0][i]? = some 0) :=
  have hr : MinimaxLogic.Reached [1, 2, 0, 0, 0, 0, 0, 0, 0] true :=
    MinimaxLogic.Reached.opponent [1, 0, 0, 0, 0, 0, 0, 0, 0] 1
      (MinimaxLogic.Reached.engine [0, 0, 0, 0, 0, 0, 0, 0, 0] 0 [0, 0, 0, 0, 0, 0, 0, 0, 0]
        MinimaxLogic.Reached.engineFirst (by decide) (by decide) MinimaxLogic.logic_opening)
      (by decide) (by decide)
  ⟨hr, C27_logic_never_loses [1, 2, 0, 0, 0, 0, 0, 0, 0] true hr⟩

/-- C28 (immediate win), as stated, fails. The valid boards `[1,2,2,1,0,0,0,0,0]`
and `[1,0,2,0,1,0,2,0,0]` hold no completed line, and the engine completes a
line at the cell 6 of the first and at the cell 8 of the second; `findBestMove`
of `MinimaxLogic.js` returns 4 on the first and 1 on the second, cells that
complete no line. -/
theorem C28_logic_delays_win :
    ValidBoard [1, 2, 2, 1, 0, 0, 0, 0, 0] ∧ NoLine [1, 2, 2, 1, 0, 0, 0, 0, 0] ∧
    completes [1, 2, 2, 1, 0, 0, 0, 0, 0] BOT 6 = true ∧
    MinimaxLogic.findBestMove [1, 2, 2, 1, 0, 0, 0, 0, 0] =
      some (4, [1, 2, 2, 1, 0, 0, 0, 0, 0]) ∧
    completes [1, 2, 2, 1, 0, 0, 0, 0, 0] BOT 4 = false ∧
    ValidBoard [1, 0, 2, 0, 1, 0, 2, 0, 0] ∧ NoLine [1, 0, 2, 0, 1, 0, 2, 0, 0] ∧
    completes [1, 0, 2, 0, 1, 0, 2, 0, 0] BOT 8 = true ∧
    MinimaxLogic.findBestMove [1, 0, 2, 0, 1, 0, 2, 0, 0] =
      some (1, [1, 0, 2, 0, 1, 0, 2, 0, 0]) ∧
    completes [1, 0, 2, 0, 1, 0, 2, 0, 0] BOT 1 = false :=
  ⟨by decide, by decide, by decide, MinimaxLogic.logic_play4, by decide,
    by decide, by decide, by decide, MinimaxLogic.logic_diagonal, by decide⟩

/-- C29 (opening in the centre), as stated, fails. On the empty board
`findBestMove` of `MinimaxLogic.js` returns 0, not 4. -/
theorem C29_logic_opens_corner :
    MinimaxLogic.findBestMove [0, 0, 0, 0, 0, 0, 0, 0, 0] =
      some (0, [0, 0, 0, 0, 0, 0, 0, 0, 0]) ∧
    [0, 0, 0, 0, 0, 0, 0, 0, 0][0]? = some 0 :=
  ⟨MinimaxLogic.logic_opening, by decide⟩

/-- C30 (self-play draws, `MinimaxLogic.js`), as stated, fails. `simulateGame`
of `testUtils.js` with `findBestMove` of `MinimaxLogic.js` as the strategy of
both players returns the winner `BOT` after 7 moves, on the final board
`[1,2,2,1,1,2,1,0,0]` with the score 10. -/
theorem C30_logic_self_play :
    TestUtils.simulateGame TestUtils.logicStrategy TestUtils.logicStrategy =
      some (TestUtils.GameResult.mk "BOT" 7 [1, 2, 2, 1, 1, 2, 1, 0, 0] 10) ∧
    MinimaxLogic.evaluate [1, 2, 2, 1, 1, 2, 1, 0, 0] = 10 := by
  refine ⟨?_, by decide⟩
  rw [TestUtils.simulateGame_of_loop TestUtils.simulateLoop_logic]
  have he : MinimaxLogic.evaluate [1, 2, 2, 1, 1, 2, 1, 0, 0] = 10 := by decide
  rw [he]
  rfl

/-- C31, as stated, fails: on the board `[1,2,1,1,2,2,0,0,0]` `findBestMove` of
`MinimaxLogic.js` does not return 7. -/
theorem C31_advanced_board_not_seven :
    (MinimaxLogic.findBestMove [1, 2, 1, 1, 2, 2, 0, 0, 0]).map Prod.fst ≠ some 7 := by
  rw [MinimaxLogic.logic_advanced]
  decide

/-- C31, amended. On the board `[1,2,1,1,2,2,0,0,0]` (the engine on 0, 2, 3; the
opponent on 1, 4, 5) `findBestMove` of `MinimaxLogic.js` returns 6 and leaves
the board as it was. The cell 6 completes the line 0-3-6 of the engine and the
cell 7 completes none; with the opponent to move, the minimax value of the
board after the engine plays 6 is 10, after 7 it is 0 and after 8 it is -10, so
6 is the only cell of the highest value. -/
theorem C31_logic_advanced_board :
    MinimaxLogic.findBestMove [1, 2, 1, 1, 2, 2, 0, 0, 0] =
      some (6, [1, 2, 1, 1, 2, 2, 0, 0, 0]) ∧
    completes [1, 2, 1, 1, 2, 2, 0, 0, 0] BOT 6 = true ∧
    completes [1, 2, 1, 1, 2, 2, 0, 0, 0] BOT 7 = false ∧
    MinimaxLogic.plainValue 10 ([1, 2, 1, 1, 2, 2, 0, 0, 0].set 6 BOT) false = 10 ∧
    MinimaxLogic.plainValue 10 ([1, 2, 1, 1, 2, 2, 0, 0, 0].set 7 BOT) false = 0 ∧
    MinimaxLogic.plainValue 10 ([1, 2, 1, 1, 2, 2, 0, 0, 0].set 8 BOT) false = -10 := by
  refine ⟨MinimaxLogic.logic_advanced, by decide, by decide, ?_, ?_, ?_⟩
  · exact le_antisymm (MinimaxLogic.plainValue_range 10 _ false).2
      (MinimaxLogic.atLeast_sound 10 10 _ false (by decide) (by decide))
  · exact le_antisymm
      (MinimaxLogic.atMost_sound 0 10 _ false (by decide) MinimaxLogic.cert_advanced7_le)
      (MinimaxLogic.atLeast_sound 0 10 _ false (by decide) MinimaxLogic.cert_advanced7)
  · exact le_antisymm
      (MinimaxLogic.atMost_sound (-10) 10 _ false (by decide) MinimaxLogic.cert_advanced8)
      (MinimaxLogic.plainValue_range 10 _ false).1

/-- C35 (the two selectors), as stated, fails. The valid board
`[0,0,2,0,2,0,1,0,0]` has empty cells and no completed line; `findBestMove` of
`minimaxOptimizado.js`, started with the empty table, returns 7, and
`findBestMove` of `MinimaxLogic.js` returns 0; with the opponent to move, the
minimax value of the board after the engine plays 7 is -10 and that of the
board after the engine plays 0 is 0. -/
theorem C35_selectors_differ :
    ValidBoard [0, 0, 2, 0, 2, 0, 1, 0, 0] ∧ NoLine [0, 0, 2, 0, 2, 0, 1, 0, 0] ∧
    isMovesLeft [0, 0, 2, 0, 2, 0, 1, 0, 0] = true ∧
    (MinimaxOptimizado.findBestMove [] [0, 0, 2, 0, 2, 0, 1, 0, 0]).map Prod.fst =
      some 7 ∧
    MinimaxLogic.findBestMove [0, 0, 2, 0, 2, 0, 1, 0, 0] =
      some (0, [0, 0, 2, 0, 2, 0, 1, 0, 0]) ∧
    MinimaxLogic.plainValue 10 ([0, 0, 2, 0, 2, 0, 1, 0, 0].set 7 BOT) false = -10 ∧
    MinimaxLogic.plainValue 10 ([0, 0, 2, 0, 2, 0, 1, 0, 0].set 0 BOT) false = 0 := by
  refine ⟨by decide, by decide, by decide, ?_, MinimaxLogic.logic_cross, ?_, ?_⟩
  · exact MinimaxOptimizado.findBestMove_of_callSeq
      ((MinimaxOptimizado.callSeq_eq_fast _ (by decide)).trans fast_cross)
  · exact le_antisymm
      (MinimaxLogic.atMost_sound (-10) 10 _ false (by decide) MinimaxLogic.cert_cross7)
      (MinimaxLogic.plainValue_range 10 _ false).1
  · exact le_antisymm
      (le_trans (MinimaxLogic.value_max_ge (b := [0, 0, 2, 0, 2, 0, 1, 0, 0]) (x := 0) rfl
          (by decide) (by decide))
        (MinimaxLogic.atMost_sound 0 10 _ true (by decide) MinimaxLogic.cert_cross))
      (MinimaxLogic.atLeast_sound 0 10 _ false (by decide) MinimaxLogic.cert_cross0)

/-- C36 (the replies of the book are optimal). The six boards of the book are
the boards of the keys of `OPENING_BOOK` of `minimaxOptimizado.js`; on each of
them every candidate stored under the key is an empty cell, `getOpeningMove`
returns the first candidate, and the minimax value, with the opponent to move,
of the board after the engine plays that cell is the highest among the values
of the boards after the engine plays an empty cell. -/
theorem C36_book_replies_optimal :
    MinimaxOptimizado.bookBoards.map MinimaxOptimizado.joinBoard =
      MinimaxOptimizado.OPENING_BOOK.map Prod.fst ∧
    ∀ b ∈ MinimaxOptimizado.bookBoards, ∃ (cs : List Nat) (m : Nat),
      MinimaxOptimizado.OPENING_BOOK.lookup (MinimaxOptimizado.joinBoard b) = some cs ∧
      (∀ c ∈ cs, b[c]? = some 0) ∧ cs.head? = some m ∧
      MinimaxOptimizado.getOpeningMove b = some m ∧
      ∀ j, b[j]? = some 0 →
        MinimaxLogic.plainValue 10 (b.set j BOT) false ≤
          MinimaxLogic.plainValue 10 (b.set m BOT) false := by
  refine ⟨by decide, fun b hb => ?_⟩
  simp only [MinimaxOptimizado.bookBoards, List.mem_cons, List.mem_singleton,
    List.not_mem_nil, or_false] at hb
  rcases hb with rfl | rfl | rfl | rfl | rfl | rfl
  · exact ⟨[4, 0, 2, 6, 8], 4, by decide, by decide, by decide, by decide,
      MinimaxLogic.reply_optimal (by decide) (by decide) MinimaxLogic.cert_empty
        MinimaxLogic.cert_centre⟩
  · exact ⟨[0, 2, 6, 8], 0, by decide, by decide, by decide, by decide,
      MinimaxLogic.reply_optimal (by decide) (by decide) MinimaxLogic.cert_book4
        MinimaxLogic.cert_reply4⟩
  · exact ⟨[4], 4, by decide, by decide, by decide, by decide,
      MinimaxLogic.reply_optimal (by decide) (by decide) MinimaxLogic.cert_book0
        MinimaxLogic.cert_reply0⟩
  · exact ⟨[4], 4, by decide, by decide, by decide, by decide,
      MinimaxLogic.reply_optimal (by decide) (by decide) MinimaxLogic.cert_book1
        MinimaxLogic.cert_reply1⟩
  · exact ⟨[4], 4, by decide, by decide, by decide, by decide,
      MinimaxLogic.reply_optimal (by decide) (by decide) MinimaxLogic.cert_book8
        MinimaxLogic.cert_reply8⟩
  · exact ⟨[4], 4, by decide, by decide, by decide, by decide,
      MinimaxLogic.reply_optimal (by decide) (by decide) MinimaxLogic.cert_book7
        MinimaxLogic.cert_reply7⟩

theorem C36_book_replies_optimal_witness :
    [0, 0, 0, 0, 2, 0, 0, 0, 0] ∈ MinimaxOptimizado.bookBoards ∧
    ∃ (cs : List Nat) (m : Nat),
      MinimaxOptimizado.OPENING_BOOK.lookup
        (MinimaxOptimizado.joinBoard [0, 0, 0, 0, 2, 0, 0, 0, 0]) = some cs ∧
      (∀ c ∈ cs, [0, 0, 0, 0, 2, 0, 0, 0, 0][c]? = some 0) ∧ cs.head? = some m ∧
      MinimaxOptimizado.getOpeningMove [0, 0, 0, 0, 2, 0, 0, 0, 0] = some m ∧
      ∀ j, [0, 0, 0, 0, 2, 0, 0, 0, 0][j]? = some 0 →
        MinimaxLogic.plainValue 10 ([0, 0, 0, 0, 2, 0, 0, 0, 0].set j BOT) false ≤
          MinimaxLogic.plainValue 10 ([0, 0, 0, 0, 2, 0, 0, 0, 0].set m BOT) false :=
  ⟨by decide, C36_book_replies_optimal.2 [0, 0, 0, 0, 2, 0, 0, 0, 0] (by decide)⟩

end TaTeTi
